import Mathlib

/-!
# hiopMatrixDense: a shallow embedding of `src/LinAlg/hiopMatrix.cpp`

The matrix keeps its local column slab in one contiguous row-major block
(`M[0]` in the source); the row pointer `M[i]` is `M[0] + i*n_local`, so the
element `M[i][j]` is the entry `i*n_local + j` of the block.  Floating point
values are replaced by the elements of an arbitrary commutative ring (exact
arithmetic).  A call either returns its result or stops (`Abort`).

The two preprocessor switches of the source are explicit:
* `DEEP_CHECKING` is the parameter `deep : Bool` of every operation that has
  such a section;
* the `WITH_MPI` sections are the collective operations over a list of ranks
  (the rank is the position in the list); a build without `WITH_MPI` is the
  collective of a single rank, whose sum-reduction is the identity.
-/

namespace hiop

/-- Abnormal termination of a call: a failed `assert`, or an access outside
the allocated storage. -/
inductive Abort where
  | assertion
  | memory
deriving DecidableEq, Repr

section Model

variable {R : Type} [CommRing R]

/-! ## Collaborators -/

/-- Modelled from the spec: the vector collaborator `hiopVectorPar` (declared
in `hiopVector.hpp`, which is not among the sources).  It exposes its global
element count, its local element count, raw access to its local contiguous
storage and an in-place scale. -/
structure hiopVectorPar (R : Type) where
  /-- global element count, `get_size()` -/
  n : Nat
  /-- local contiguous storage, `local_data()` -/
  data : List R
deriving DecidableEq

/-- Modelled from the spec: `get_size()`, the global element count. -/
def hiopVectorPar.get_size (v : hiopVectorPar R) : Nat := v.n

/-- Modelled from the spec: `get_local_size()`, the local element count. -/
def hiopVectorPar.get_local_size (v : hiopVectorPar R) : Nat := v.data.length

/-- Modelled from the spec: `local_data()[i]`. -/
def hiopVectorPar.elem (v : hiopVectorPar R) (i : Nat) : R := v.data.getD i 0

/-- Modelled from the spec: `scale(a)`, the in-place scale by a scalar. -/
def hiopVectorPar.scale (v : hiopVectorPar R) (a : R) : hiopVectorPar R :=
  { v with data := v.data.map fun t => a * t }

/-- The sum `f 0 + f 1 + ... + f (n-1)`, accumulated in loop order. -/
def sumTo (n : Nat) (f : Nat → R) : R :=
  match n with
  | 0 => 0
  | k + 1 => sumTo k f + f k

/-- Modelled from the spec: the BLAS level-2 kernel DGEMV (numerical kernel
collaborator, reached through `blasdefs.hpp`, which is not among the sources),
by its column-major reference definition: `A` is `m x n` with
`A(i,j) = a[i + j*lda]`; for `trans = 'N'` the result is
`y := alpha*A*x + beta*y`, otherwise `y := alpha*Aᵀ*x + beta*y`; the call
returns at once when `m = 0` or `n = 0`.  Argument validation by the BLAS
error handler is not part of the model. -/
def DGEMV (trans : Char) (m n : Nat) (alpha : R) (a : List R) (lda : Nat)
    (x : List R) (incx : Nat) (beta : R) (y : List R) (incy : Nat) : List R :=
  if m = 0 ∨ n = 0 then y
  else
    let lenx := if trans = 'N' then n else m
    let leny := if trans = 'N' then m else n
    (List.range y.length).map fun p =>
      if p % incy = 0 ∧ p / incy < leny then
        beta * y.getD p 0 + alpha * sumTo lenx (fun j =>
          (if trans = 'N' then a.getD (p / incy + j * lda) 0
           else a.getD (j + p / incy * lda) 0) * x.getD (j * incx) 0)
      else y.getD p 0

/-- Modelled from the spec: the BLAS level-3 kernel DGEMM (numerical kernel
collaborator), by its column-major reference definition
`C := alpha*op(A)*op(B) + beta*C` with `C` of size `m x n`,
`C(i,j) = c[i + j*ldc]`, `op(A)` of size `m x k` and `op(B)` of size `k x n`;
`op(A)(i,l)` is `a[i + l*lda]` for `transa = 'N'` and `a[l + i*lda]`
otherwise, `op(B)(l,j)` is `b[l + j*ldb]` for `transb = 'N'` and
`b[j + l*ldb]` otherwise; the call returns at once when `m = 0` or `n = 0`.
Argument validation by the BLAS error handler is not part of the model. -/
def DGEMM (transa transb : Char) (m n k : Nat) (alpha : R) (a : List R) (lda : Nat)
    (b : List R) (ldb : Nat) (beta : R) (c : List R) (ldc : Nat) : List R :=
  if m = 0 ∨ n = 0 then c
  else
    (List.range c.length).map fun p =>
      if p % ldc < m ∧ p / ldc < n then
        beta * c.getD p 0 + alpha * sumTo k (fun l =>
          (if transa = 'N' then a.getD (p % ldc + l * lda) 0
           else a.getD (l + p % ldc * lda) 0) *
          (if transb = 'N' then b.getD (l + p / ldc * ldb) 0
           else b.getD (p / ldc + l * ldb) 0))
      else c.getD p 0

/-- Modelled from the spec: the BLAS level-1 kernel DSCAL, `x := a*x` on the
`n` elements of stride `incx`; returns at once when `n = 0` or `incx = 0`. -/
def DSCAL (n : Nat) (a : R) (x : List R) (incx : Nat) : List R :=
  if n = 0 ∨ incx = 0 then x
  else
    (List.range x.length).map fun p =>
      if p % incx = 0 ∧ p / incx < n then a * x.getD p 0 else x.getD p 0

/-- Modelled from the spec: the all-reduce of the collective-communication
collaborator with the sum operator: entry `k < count` of the receive buffer
is the sum over the ranks of entry `k` of their send buffers. -/
def MPI_Allreduce_SUM (sendbufs : List (List R)) (count : Nat) : List R :=
  (List.range count).map fun k => (sendbufs.map fun b => b.getD k 0).sum

/-- The call `memcpy(dst + d, src + s, len*sizeof(double))`: the block `dst`
after the copy; it is a memory fault when either range leaves its block. -/
def memcpy (dst : List R) (d : Nat) (src : List R) (s : Nat) (len : Nat) :
    Except Abort (List R) :=
  if d + len ≤ dst.length ∧ s + len ≤ src.length then
    .ok ((List.range dst.length).map fun p =>
      if d ≤ p ∧ p < d + len then src.getD (s + (p - d)) 0 else dst.getD p 0)
  else .error .memory

/-- Runs `f myrank a` for the ranks `r, r+1, ...` holding the entries of the
list, in order; the first abnormal termination stops the run. -/
def onRanks {α β : Type} (f : Nat → α → Except Abort β) :
    Nat → List α → Except Abort (List β)
  | _, [] => .ok []
  | r, a :: rest =>
    match f r a with
    | .error e => .error e
    | .ok b =>
      match onRanks f (r + 1) rest with
      | .error e => .error e
      | .ok bs => .ok (b :: bs)

/-! ## The matrix -/

/-- The fields of `hiopMatrixDense`; `M` is the block `M[0]` of
`max_rows*n_local` values, the row pointers are computed. -/
structure hiopMatrixDense (R : Type) where
  m_local : Nat
  n_local : Nat
  n_global : Nat
  glob_jl : Nat
  glob_ju : Nat
  max_rows : Nat
  M : List R
deriving DecidableEq

/-- Modelled from the spec: `m()`, the row count (declared in
`hiopMatrix.hpp`, which is not among the sources). -/
def hiopMatrixDense.m (A : hiopMatrixDense R) : Nat := A.m_local

/-- Modelled from the spec: `n()`, the global column count (declared in
`hiopMatrix.hpp`, which is not among the sources). -/
def hiopMatrixDense.n (A : hiopMatrixDense R) : Nat := A.n_global

/-- The element `M[i][j]`, entry `i*n_local + j` of the block. -/
def hiopMatrixDense.elem (A : hiopMatrixDense R) (i j : Nat) : R :=
  A.M.getD (i * A.n_local + j) 0

/-- The state the constructors establish: the block has `max_rows*n_local`
values, the populated rows fit the allocated ones and the column slab is
`[glob_jl, glob_ju)` inside `[0, n_global)`. -/
def hiopMatrixDense.wf (A : hiopMatrixDense R) : Prop :=
  A.M.length = A.max_rows * A.n_local ∧ A.m_local ≤ A.max_rows ∧
    A.glob_jl + A.n_local = A.glob_ju ∧ A.glob_ju ≤ A.n_global

/-! ## Row manipulation -/

/-- `appendRow` (lines 121-129).  The two assertions exist in the
`DEEP_CHECKING` build only.  The table of row pointers has
`max_rows==0?1:max_rows` entries (line 87), so the read of the pointer
`M[m_local]` is a memory fault when `m_local` is not below that count.  With
`max_rows == 0` the one pointer `M[0]` is `NULL` and the block is empty: the
copy through it faults unless it copies no element.  The copy also faults
when the row or the block is too short. -/
def appendRow (deep : Bool) (A : hiopMatrixDense R) (row : hiopVectorPar R) :
    Except Abort (hiopMatrixDense R) :=
  if deep ∧ ¬ (row.get_local_size = A.n_local) then .error .assertion
  else if deep ∧ ¬ (A.m_local < A.max_rows) then .error .assertion
  else if ¬ (A.m_local < (if A.max_rows = 0 then 1 else A.max_rows)) then .error .memory
  else
    match memcpy A.M (A.m_local * A.n_local) row.data 0 A.n_local with
    | .error e => .error e
    | .ok buf => .ok { A with M := buf, m_local := A.m_local + 1 }

/-- The read `M[r][c]` with the indices the source computes (possibly
negative): `M[r]` must be one of the `max_rows` row pointers and the address
must lie inside the block. -/
def readElem (A : hiopMatrixDense R) (r c : Int) : Except Abort R :=
  if 0 ≤ r ∧ r < A.max_rows ∧ 0 ≤ r * A.n_local + c ∧ r * A.n_local + c < A.M.length then
    .ok (A.M.getD (r * A.n_local + c).toNat 0)
  else .error .memory

/-- The loop `for(row=0; row<m_local+shift; row++) memcpy(M[row], M[row-shift], ...)`
of `shiftRows` for `shift = -s < 0`, from `row` on, `cnt` iterations left. -/
def shiftRowsUp (n_local s : Nat) : Nat → Nat → List R → Except Abort (List R)
  | 0, _, buf => .ok buf
  | cnt + 1, row, buf =>
    match memcpy buf (row * n_local) buf ((row + s) * n_local) n_local with
    | .error e => .error e
    | .ok buf1 => shiftRowsUp n_local s cnt (row + 1) buf1

/-- The loop `for(row=m_local-1; row>=shift; row--) memcpy(M[row], M[row-shift], ...)`
of `shiftRows` for `shift = s > 0`: `cnt` iterations left, the next one
copies into row `s + cnt - 1`. -/
def shiftRowsDown (n_local s : Nat) : Nat → List R → Except Abort (List R)
  | 0, buf => .ok buf
  | cnt + 1, buf =>
    match memcpy buf ((s + cnt) * n_local) buf (cnt * n_local) n_local with
    | .error e => .error e
    | .ok buf1 => shiftRowsDown n_local s cnt buf1

/-- `shiftRows` (lines 193-221).  `fabs(shift) < m_local` is the comparison
of the absolute value; the `DEEP_CHECKING` sections sample two elements
before the copy and compare them after it. -/
def shiftRows [DecidableEq R] (deep : Bool) (A : hiopMatrixDense R) (shift : Int) :
    Except Abort (hiopMatrixDense R) :=
  if shift = 0 then .ok A
  else if -shift = (A.m_local : Int) then .ok A
  else if ¬ (|shift| < (A.m_local : Int)) then .error .assertion
  else
    let src : Int := if shift < 0 then -shift else (A.m_local : Int) - shift
    let chk : Int := if shift < 0 then 0 else (A.m_local : Int)
    match (if deep then readElem A src 0 else .ok 0),
          (if deep then readElem A src ((A.n_local : Int) - 1) else .ok 0) with
    | .error e, _ => .error e
    | .ok _, .error e => .error e
    | .ok test1, .ok test2 =>
      match (if shift < 0
              then shiftRowsUp A.n_local (-shift).toNat (A.m_local - (-shift).toNat) 0 A.M
              else shiftRowsDown A.n_local shift.toNat (A.m_local - shift.toNat) A.M) with
      | .error e => .error e
      | .ok buf =>
        let A1 : hiopMatrixDense R := { A with M := buf }
        if deep then
          match readElem A1 chk 0 with
          | .error e => .error e
          | .ok v1 =>
            if test1 ≠ v1 then .error .assertion
            else
              match readElem A1 chk ((A.n_local : Int) - 1) with
              | .error e => .error e
              | .ok v2 => if test2 ≠ v2 then .error .assertion else .ok A1
        else .ok A1

/-! ## Construction and copies -/

/-- The value an `int` object takes when a `long long` value is stored in
it: the value reduced modulo `2^32` into the range `[-2^31, 2^31)`. -/
def toInt32 (x : Int) : Int := (x + 2147483648) % 4294967296 - 2147483648

/-- The object a constructor call leaves, each integer field holding the
value of its C object.  The fields `m_local` and `n_local` are `int` objects:
the source hands their addresses to the Fortran kernels and prints them with
`%d`.  The fields `n_global`, `glob_jl`, `glob_ju` and `max_rows` take the
`long long` values of the arguments.  An `int` field can come out negative,
which no field of a `hiopMatrixDense` value of this development is. -/
structure hiopMatrixDenseObj (R : Type) where
  /-- rows held, `int` -/
  m_local : Int
  /-- columns held, `int` -/
  n_local : Int
  /-- global column count -/
  n_global : Int
  /-- first global column of the slab -/
  glob_jl : Int
  /-- one past the last global column of the slab -/
  glob_ju : Int
  /-- allocated rows -/
  max_rows : Int
  /-- the block `M[0]`, empty when `M[0]` is `NULL` -/
  M : List R
deriving DecidableEq

/-- The matrix value of a constructed object, when none of its integer
fields is negative. -/
def hiopMatrixDenseObj.toMatrix (o : hiopMatrixDenseObj R) : Option (hiopMatrixDense R) :=
  if 0 ≤ o.m_local ∧ 0 ≤ o.n_local ∧ 0 ≤ o.n_global ∧ 0 ≤ o.glob_jl ∧ 0 ≤ o.glob_ju ∧
      0 ≤ o.max_rows then
    some ⟨o.m_local.toNat, o.n_local.toNat, o.n_global.toNat, o.glob_jl.toNat,
      o.glob_ju.toNat, o.max_rows.toNat, o.M⟩
  else none

/-- The cut points `(glob_jl, glob_ju)` the constructor takes: `col_part[P]`
and `col_part[P+1]` for the rank `P` when a partition is given (`none` when
that reads past its end), `(0, glob_n)` otherwise. -/
def colSlab (glob_n : Int) (col_part : Option (List Int)) (myrank : Nat) : Option (Int × Int) :=
  match col_part with
  | some cp =>
    match cp[myrank]?, cp[myrank + 1]? with
    | some jl, some ju => some (jl, ju)
    | _, _ => none
  | none => some (0, glob_n)

/-- The constructor `hiopMatrixDense::hiopMatrixDense(m, glob_n, col_part,
comm, m_max_alloc)` (lines 63-96) on the rank `myrank` of `comm`; the
arguments are the `long long` values passed, `col_part` is `none` for the
`NULL` default and `m_max_alloc` is `-1` for its default.

* Line 69 stores `m` in the `int` field `m_local`, line 80 stores
  `glob_ju-glob_jl` in the `int` field `n_local`: both are narrowed.
* Reading `col_part` past its end is a memory fault.
* Lines 82-84: `max_rows` is `m_max_alloc`, or `m_local` when that is `-1`,
  and `assert(max_rows>=m_local)`.
* Line 87 allocates `max_rows==0?1:max_rows` row pointers and line 88 a
  block of `max_rows*n_local` values unless `max_rows==0`; a negative length
  in either `new[]` ends the call with an exception, reported as a memory
  fault.
* The loops of lines 89 and 93 count with an `int` up to `max_rows` and up
  to `max_rows*n_local`; a bound above `INT_MAX` overflows the counter,
  reported as a memory fault.  Exhaustion of the memory is not modelled.
* The block is `max_rows*n_local` zeros, empty when `max_rows == 0`. -/
def hiopMatrixDense.new (m glob_n : Int) (col_part : Option (List Int)) (myrank : Nat)
    (m_max_alloc : Int) : Except Abort (hiopMatrixDenseObj R) :=
  let m_local : Int := toInt32 m
  match colSlab glob_n col_part myrank with
  | none => .error .memory
  | some (glob_jl, glob_ju) =>
    let n_local : Int := toInt32 (glob_ju - glob_jl)
    let max_rows : Int := if m_max_alloc = -1 then m_local else m_max_alloc
    if ¬ (max_rows ≥ m_local) then .error .assertion
    else if max_rows < 0 then .error .memory
    else if max_rows ≠ 0 ∧ max_rows * n_local < 0 then .error .memory
    else if ¬ (max_rows ≤ 2147483647 ∧ max_rows * n_local ≤ 2147483647) then .error .memory
    else
      .ok { m_local := m_local, n_local := n_local, n_global := glob_n,
            glob_jl := glob_jl, glob_ju := glob_ju, max_rows := max_rows,
            M := List.replicate (max_rows * n_local).toNat 0 }

/-- The call `memcpy(dst + d, src + s, len*sizeof(double))` with the offsets
and the length the source computes, which may be negative: a negative
offset or length is a memory fault. -/
def memcpyAt (dst : List R) (d : Int) (src : List R) (s : Int) (len : Int) :
    Except Abort (List R) :=
  if 0 ≤ d ∧ 0 ≤ s ∧ 0 ≤ len then memcpy dst d.toNat src s.toNat len.toNat
  else .error .memory

/-- `copyRowsFrom` (lines 145-156): `this` is `A`. -/
def copyRowsFrom (deep : Bool) (A src : hiopMatrixDense R) (num_rows row_dest : Int) :
    Except Abort (hiopMatrixDense R) :=
  if deep ∧ ¬ (0 ≤ row_dest ∧ A.n_global = src.n_global ∧ A.n_local = src.n_local ∧
      row_dest + num_rows ≤ (A.m_local : Int) ∧ num_rows ≤ (src.m_local : Int)) then
    .error .assertion
  else if 0 < num_rows then
    match memcpyAt A.M (row_dest * (A.n_local : Int)) src.M 0
        ((A.n_local : Int) * num_rows) with
    | .error e => .error e
    | .ok buf => .ok { A with M := buf }
  else .ok A

/-- The loop of `copyBlockFromMatrix`,
`for(ii=0; ii<src.m_local; ii++) memcpy(M[ii+i_start]+j_start, src.M[ii], buffsize)`,
from `ii` on, `cnt` iterations left. -/
def copyBlockRows (n_local : Nat) (i_start j_start : Int) (src : hiopMatrixDense R) :
    Nat → Nat → List R → Except Abort (List R)
  | 0, _, buf => .ok buf
  | cnt + 1, ii, buf =>
    match memcpyAt buf (((ii : Int) + i_start) * (n_local : Int) + j_start) src.M
        ((ii : Int) * (src.n_local : Int)) (src.n_local : Int) with
    | .error e => .error e
    | .ok buf1 => copyBlockRows n_local i_start j_start src cnt (ii + 1) buf1

/-- `copyBlockFromMatrix` (lines 157-176): `this` is `A`. -/
def copyBlockFromMatrix (deep : Bool) (A : hiopMatrixDense R) (i_start j_start : Int)
    (src : hiopMatrixDense R) : Except Abort (hiopMatrixDense R) :=
  if ¬ (A.n_local = A.n_global) then .error .assertion
  else if ¬ (src.n_local = src.n_global) then .error .assertion
  else if ¬ ((A.m_local : Int) ≥ i_start + (src.m_local : Int)) then .error .assertion
  else if ¬ ((A.n_local : Int) ≥ j_start + (src.n_local : Int)) then .error .assertion
  else if src.n = 0 then .ok A
  else if src.m = 0 then .ok A
  else if deep ∧ ¬ ((i_start < (A.m_local : Int) ∨ A.m_local = 0) ∧
      (j_start < (A.n_local : Int) ∨ A.n_local = 0) ∧ 0 ≤ i_start ∧ 0 ≤ j_start) then
    .error .assertion
  else
    match copyBlockRows A.n_local i_start j_start src src.m_local 0 A.M with
    | .error e => .error e
    | .ok buf => .ok { A with M := buf }

/-- The row-by-row path of `copyFromMatrixBlock`,
`for(i=0; i<m_local; i++) memcpy(M[i], src.M[i+i_block]+j_block, n_local*sizeof(double))`,
from `i` on, `cnt` iterations left. -/
def copyFromBlockRows (n_local : Nat) (src : hiopMatrixDense R) (i_block j_block : Int) :
    Nat → Nat → List R → Except Abort (List R)
  | 0, _, buf => .ok buf
  | cnt + 1, i, buf =>
    match memcpyAt buf ((i : Int) * (n_local : Int)) src.M
        (((i : Int) + i_block) * (src.n_local : Int) + j_block) (n_local : Int) with
    | .error e => .error e
    | .ok buf1 => copyFromBlockRows n_local src i_block j_block cnt (i + 1) buf1

/-- The single bulk copy of `copyFromMatrixBlock`,
`memcpy(M[0], src.M[i_block], n_local*m_local*sizeof(double))`. -/
def copyFromBlockBulk (A src : hiopMatrixDense R) (i_block : Int) : Except Abort (List R) :=
  memcpyAt A.M 0 src.M (i_block * (src.n_local : Int)) ((A.n_local : Int) * (A.m_local : Int))

/-- `copyFromMatrixBlock` (lines 178-191): `this` is `A`. -/
def copyFromMatrixBlock (A src : hiopMatrixDense R) (i_block j_block : Int) :
    Except Abort (hiopMatrixDense R) :=
  if ¬ (A.n_local = A.n_global) then .error .assertion
  else if ¬ (src.n_local = src.n_global) then .error .assertion
  else if ¬ ((A.m_local : Int) + i_block ≤ (src.m_local : Int)) then .error .assertion
  else if ¬ ((A.n_local : Int) + j_block ≤ (src.n_local : Int)) then .error .assertion
  else
    match (if A.n_local = src.n_local then copyFromBlockBulk A src i_block
           else copyFromBlockRows A.n_local src i_block j_block A.m_local 0 A.M) with
    | .error e => .error e
    | .ok buf => .ok { A with M := buf }

/-! ## Element-wise operations -/

/-- The store `buf[idx] = v`; a memory fault outside the block. -/
def storeElem (buf : List R) (idx : Nat) (v : R) : Except Abort (List R) :=
  if idx < buf.length then
    .ok ((List.range buf.length).map fun p => if p = idx then v else buf.getD p 0)
  else .error .memory

/-- The update `buf[idx] += v`; a memory fault outside the block. -/
def addElem (buf : List R) (idx : Nat) (v : R) : Except Abort (List R) :=
  if idx < buf.length then
    .ok ((List.range buf.length).map fun p =>
      if p = idx then buf.getD p 0 + v else buf.getD p 0)
  else .error .memory

/-- The assignment `buf[dst] = buf[src]`; a memory fault outside the block. -/
def copyElem (buf : List R) (dst src : Nat) : Except Abort (List R) :=
  if dst < buf.length ∧ src < buf.length then
    .ok ((List.range buf.length).map fun p =>
      if p = dst then buf.getD src 0 else buf.getD p 0)
  else .error .memory

/-- Modelled from the spec: the BLAS level-1 kernel DCOPY, `y := x` on `n`
elements of strides `incx` and `incy`; the two vectors are given by a block
and an offset into it, because `setToConstant` passes two rows of the same
block; returns at once when `n = 0`. -/
def DCOPY (n : Nat) (x : List R) (xoff incx : Nat) (y : List R) (yoff incy : Nat) : List R :=
  if n = 0 then y
  else
    (List.range y.length).map fun p =>
      if yoff ≤ p ∧ (p - yoff) % incy = 0 ∧ (p - yoff) / incy < n then
        x.getD (xoff + (p - yoff) / incy * incx) 0
      else y.getD p 0

/-- The first loop of `setToConstant`, `for(j=0; j<n_local; j++) *(buf++)=c`
with `buf = M[0]`, from `j` on, `cnt` iterations left. -/
def setToConstantFirst (c : R) : Nat → Nat → List R → Except Abort (List R)
  | 0, _, buf => .ok buf
  | cnt + 1, j, buf =>
    match storeElem buf j c with
    | .error e => .error e
    | .ok buf1 => setToConstantFirst c cnt (j + 1) buf1

/-- The second loop of `setToConstant`,
`for(i=1; i<m_local; i++) DCOPY(&n_local, buf, &inc, M[i], &inc)` with
`buf = M[0]` and `inc = 1`, from `i` on, `cnt` iterations left. -/
def setToConstantRows (n_local : Nat) : Nat → Nat → List R → List R
  | 0, _, buf => buf
  | cnt + 1, i, buf =>
    setToConstantRows n_local cnt (i + 1) (DCOPY n_local buf 0 1 buf (i * n_local) 1)

/-- `setToConstant` (lines 274-285). -/
def setToConstant (A : hiopMatrixDense R) (c : R) : Except Abort (hiopMatrixDense R) :=
  match setToConstantFirst c A.n_local 0 A.M with
  | .error e => .error e
  | .ok buf => .ok { A with M := setToConstantRows A.n_local (A.m_local - 1) 1 buf }

/-- `setToZero` (lines 267-273). -/
def setToZero (A : hiopMatrixDense R) : Except Abort (hiopMatrixDense R) :=
  setToConstant A 0

/-- The loop of `addDiagonal(const double& value)`,
`for(i=0; i<n_local; i++) M[i][i] += value`, from `i` on, `cnt` iterations
left. -/
def addDiagonalLoop (n_local : Nat) (value : R) : Nat → Nat → List R → Except Abort (List R)
  | 0, _, buf => .ok buf
  | cnt + 1, i, buf =>
    match addElem buf (i * n_local + i) value with
    | .error e => .error e
    | .ok buf1 => addDiagonalLoop n_local value cnt (i + 1) buf1

/-- `addDiagonal(const double& value)` (lines 540-543). -/
def addDiagonal (A : hiopMatrixDense R) (value : R) : Except Abort (hiopMatrixDense R) :=
  match addDiagonalLoop A.n_local value A.n_local 0 A.M with
  | .error e => .error e
  | .ok buf => .ok { A with M := buf }

/-- The inner loop of `overwriteUpperTriangleWithLower`,
`for(j=i+1; j<n_local; j++) M[i][j] = M[j][i]`, from `j` on, `cnt`
iterations left. -/
def overwriteUpperRow (n_local i : Nat) : Nat → Nat → List R → Except Abort (List R)
  | 0, _, buf => .ok buf
  | cnt + 1, j, buf =>
    match copyElem buf (i * n_local + j) (j * n_local + i) with
    | .error e => .error e
    | .ok buf1 => overwriteUpperRow n_local i cnt (j + 1) buf1

/-- The outer loop of `overwriteUpperTriangleWithLower`, `for(i=0; i<m_local; i++)`,
from `i` on, `cnt` iterations left. -/
def overwriteUpperLoop (n_local : Nat) : Nat → Nat → List R → Except Abort (List R)
  | 0, _, buf => .ok buf
  | cnt + 1, i, buf =>
    match overwriteUpperRow n_local i (n_local - (i + 1)) (i + 1) buf with
    | .error e => .error e
    | .ok buf1 => overwriteUpperLoop n_local cnt (i + 1) buf1

/-- `overwriteUpperTriangleWithLower` (lines 238-244, `DEEP_CHECKING` build). -/
def overwriteUpperTriangleWithLower (A : hiopMatrixDense R) :
    Except Abort (hiopMatrixDense R) :=
  if ¬ (A.n_local = A.n_global) then .error .assertion
  else
    match overwriteUpperLoop A.n_local A.m_local 0 A.M with
    | .error e => .error e
    | .ok buf => .ok { A with M := buf }

/-- The inner loop of `overwriteLowerTriangleWithUpper`,
`for(j=0; j<i; j++) M[i][j] = M[j][i]`, from `j` on, `cnt` iterations left. -/
def overwriteLowerRow (n_local i : Nat) : Nat → Nat → List R → Except Abort (List R)
  | 0, _, buf => .ok buf
  | cnt + 1, j, buf =>
    match copyElem buf (i * n_local + j) (j * n_local + i) with
    | .error e => .error e
    | .ok buf1 => overwriteLowerRow n_local i cnt (j + 1) buf1

/-- The outer loop of `overwriteLowerTriangleWithUpper`, `for(i=1; i<m_local; i++)`,
from `i` on, `cnt` iterations left. -/
def overwriteLowerLoop (n_local : Nat) : Nat → Nat → List R → Except Abort (List R)
  | 0, _, buf => .ok buf
  | cnt + 1, i, buf =>
    match overwriteLowerRow n_local i i 0 buf with
    | .error e => .error e
    | .ok buf1 => overwriteLowerLoop n_local cnt (i + 1) buf1

/-- `overwriteLowerTriangleWithUpper` (lines 245-251, `DEEP_CHECKING` build). -/
def overwriteLowerTriangleWithUpper (A : hiopMatrixDense R) :
    Except Abort (hiopMatrixDense R) :=
  if ¬ (A.n_local = A.n_global) then .error .assertion
  else
    match overwriteLowerLoop A.n_local (A.m_local - 1) 1 A.M with
    | .error e => .error e
    | .ok buf => .ok { A with M := buf }

/-! ## Norm and symmetry check -/

/-- The maximum of `0, f 0, ..., f (n-1)`, accumulated in loop order. -/
def maxTo {S : Type} [LinearOrderedCommRing S] (n : Nat) (f : Nat → S) : S :=
  match n with
  | 0 => 0
  | k + 1 => max (maxTo k f) (f k)

/-- Modelled from the spec: the LAPACK routine DLANGE for the norm `'M'`, the
largest absolute value of the entries `a[i + j*lda]`, `i < m`, `j < n`, of a
column-major `m x n` matrix, and 0 for an empty matrix.  The other norms,
which the program never asks for, are not modelled (0). -/
def DLANGE {S : Type} [LinearOrderedCommRing S] (norm : Char) (m n : Nat) (a : List S)
    (lda : Nat) : S :=
  if norm = 'M' then maxTo n (fun j => maxTo m (fun i => |a.getD (i + j * lda) 0|))
  else 0

/-- Modelled from the spec: the all-reduce of the collective-communication
collaborator with the maximum operator on one value per rank: the largest of
the values the ranks send. -/
def MPI_Allreduce_MAX {S : Type} [LinearOrderedCommRing S] (vals : List S) : S :=
  match vals with
  | [] => 0
  | v :: rest => rest.foldl max v

/-- `max_abs_value` (lines 569-579) run collectively by the ranks of the
list: every rank takes the norm of its local block and receives the maximum
over the ranks. -/
def max_abs_value {S : Type} [LinearOrderedCommRing S] (ranks : List (hiopMatrixDense S)) :
    List S :=
  ranks.map fun _ =>
    MPI_Allreduce_MAX (ranks.map fun A => DLANGE 'M' A.n_local A.m_local A.M A.n_local)

/-- The inner loop of `assertSymmetry`, `for(j=0; j<n_local; j++)` with the
assertion `fabs(ij-ji)/(1+fabs(ij)) < tol`, from `j` on, `cnt` iterations
left. -/
def assertSymmetryRow {S : Type} [LinearOrderedField S] (A : hiopMatrixDense S) (tol : S)
    (i : Nat) : Nat → Nat → Except Abort Unit
  | 0, _ => .ok ()
  | cnt + 1, j =>
    match readElem A (i : Int) (j : Int), readElem A (j : Int) (i : Int) with
    | .error e, _ => .error e
    | .ok _, .error e => .error e
    | .ok ij, .ok ji =>
      if |ij - ji| / (1 + |ij|) < tol then assertSymmetryRow A tol i cnt (j + 1)
      else .error .assertion

/-- The outer loop of `assertSymmetry`, `for(i=0; i<n_local; i++)`, from `i`
on, `cnt` iterations left. -/
def assertSymmetryLoop {S : Type} [LinearOrderedField S] (A : hiopMatrixDense S) (tol : S) :
    Nat → Nat → Except Abort Unit
  | 0, _ => .ok ()
  | cnt + 1, i =>
    match assertSymmetryRow A tol i A.n_local 0 with
    | .error e => .error e
    | .ok _ => assertSymmetryLoop A tol cnt (i + 1)

/-- `assertSymmetry` (lines 582-595, `DEEP_CHECKING` build). -/
def assertSymmetry {S : Type} [LinearOrderedField S] (A : hiopMatrixDense S) (tol : S) :
    Except Abort Bool :=
  if A.m_local ≠ A.n_global then .error .assertion
  else
    match assertSymmetryLoop A tol A.n_local 0 with
    | .error e => .error e
    | .ok _ => .ok true

/-- Source `hiopMatrixDense::addDiagonal(const hiopVector& d_)`: under
`DEEP_CHECKING` four assertions require the vector to have the global and
the local size of both dimensions of the matrix; then
`for(int i=0; i<n_local; i++) M[i][i] += dd[i]`. -/
def addDiagonalVecLoop (n_local : Nat) (dd : List R) : Nat → Nat → List R → Except Abort (List R)
  | 0, _, buf => .ok buf
  | cnt + 1, i, buf =>
    if ¬ (i < dd.length) then .error .memory
    else
      match addElem buf (i * n_local + i) (dd.getD i 0) with
      | .error e => .error e
      | .ok buf1 => addDiagonalVecLoop n_local dd cnt (i + 1) buf1

/-- Source `hiopMatrixDense::addDiagonal(const hiopVector& d_)`, the overload
taking a vector (the name carries a suffix because the scalar overload has
the plain name). -/
def addDiagonal_vec (deep : Bool) (A : hiopMatrixDense R) (d : hiopVectorPar R) :
    Except Abort (hiopMatrixDense R) :=
  if deep = true ∧ ¬ (d.get_size = A.n) then .error .assertion
  else if deep = true ∧ ¬ (d.get_size = A.m) then .error .assertion
  else if deep = true ∧ ¬ (d.get_local_size = A.m_local) then .error .assertion
  else if deep = true ∧ ¬ (d.get_local_size = A.n_local) then .error .assertion
  else
    match addDiagonalVecLoop A.n_local d.data A.n_local 0 A.M with
    | .error e => .error e
    | .ok buf => .ok { A with M := buf }

/-! ## Local algebra kernels and their reductions -/

/-- The part of `timesVec` one process runs before the reduction (lines
329-355) on the rank `myrank`: under `WITH_MPI` every rank but 0 replaces
`beta` by 0.  In a build without `WITH_MPI` this, on rank 0, is the whole
of `timesVec`. -/
def timesVec_local (deep : Bool) (myrank : Nat) (A : hiopMatrixDense R) (beta : R)
    (y : hiopVectorPar R) (alpha : R) (x : hiopVectorPar R) :
    Except Abort (hiopVectorPar R) :=
  if deep ∧ ¬ (y.get_local_size = A.m_local ∧ y.get_size = A.m_local ∧
      x.get_local_size = A.n_local ∧ x.get_size = A.n_global) then .error .assertion
  else
    let beta1 : R := if myrank ≠ 0 then 0 else beta
    let MM := A.m_local
    let NN := A.n_local
    if MM ≠ 0 ∧ NN ≠ 0 then
      .ok { y with data := DGEMV 'T' NN MM alpha A.M NN x.data 1 beta1 y.data 1 }
    else if MM ≠ 0 then .ok (y.scale beta1)
    else .ok y

/-- `timesVec` (lines 326-364) run collectively: the ranks are the entries
`(this, y, x)` of the list; after the local part every rank receives the sum
over the ranks of the first `m_local` entries of `y` and copies it into its
`y`. -/
def timesVec (deep : Bool) (ranks : List (hiopMatrixDense R × hiopVectorPar R × hiopVectorPar R))
    (beta alpha : R) : Except Abort (List (hiopVectorPar R)) :=
  match onRanks (fun myrank (t : hiopMatrixDense R × hiopVectorPar R × hiopVectorPar R) =>
      timesVec_local deep myrank t.1 beta t.2.1 alpha t.2.2) 0 ranks with
  | .error e => .error e
  | .ok locals =>
    onRanks (fun _ (t : hiopMatrixDense R × hiopVectorPar R) =>
      match memcpy t.2.data 0
          (MPI_Allreduce_SUM (locals.map fun v => v.data) t.1.m_local) 0 t.1.m_local with
      | .error e => .error e
      | .ok d => .ok { t.2 with data := d }) 0 ((ranks.map fun t => t.1).zip locals)

/-- `transTimesVec` (lines 367-389); it has no reduction. -/
def transTimesVec (deep : Bool) (A : hiopMatrixDense R) (beta : R)
    (y : hiopVectorPar R) (alpha : R) (x : hiopVectorPar R) :
    Except Abort (hiopVectorPar R) :=
  if deep ∧ ¬ (x.get_local_size = A.m_local ∧ x.get_size = A.m_local ∧
      y.get_local_size = A.n_local ∧ y.get_size = A.n_global) then .error .assertion
  else
    let MM := A.m_local
    let NN := A.n_local
    if MM ≠ 0 ∧ NN ≠ 0 then
      .ok { y with data := DGEMV 'N' NN MM alpha A.M NN x.data 1 beta y.data 1 }
    else if NN ≠ 0 then .ok (y.scale beta)
    else .ok y

/-- `timesMat_local` (lines 417-447): `this` is `A`, the result is the new
`W`. -/
def timesMat_local (deep : Bool) (A : hiopMatrixDense R) (beta : R)
    (W : hiopMatrixDense R) (alpha : R) (X : hiopMatrixDense R) :
    Except Abort (hiopMatrixDense R) :=
  if deep ∧ ¬ (W.m = A.m ∧ X.m = A.n ∧ W.n = X.n) then .error .assertion
  else if ¬ (W.n_local = W.n_global) then .error .assertion
  else if W.m = 0 ∨ X.m = 0 ∨ W.n = 0 then .ok W
  else
    .ok { W with M := DGEMM 'N' 'N' X.n A.m_local X.m alpha X.M X.n A.M A.n_local
                        beta W.M X.n }

/-- The reduction that ends `timesMat` and `timesMatTrans` under `WITH_MPI`:
every rank receives the sum over the ranks of the first `W.m()*W.n()` values
of the block of `W` and copies it into its `W`. -/
def allreduceW (locals : List (hiopMatrixDense R)) : Except Abort (List (hiopMatrixDense R)) :=
  onRanks (fun _ (W : hiopMatrixDense R) =>
    match memcpy W.M 0 (MPI_Allreduce_SUM (locals.map fun V => V.M) (W.m * W.n)) 0
        (W.m * W.n) with
    | .error e => .error e
    | .ok d => .ok { W with M := d }) 0 locals

/-- `timesMat` (lines 394-412) under `WITH_MPI`, run collectively: the ranks
are the entries `(this, W, X)` of the list; rank 0 calls `timesMat_local`
with `beta`, the others with 0, then `W` is sum-reduced. -/
def timesMat (deep : Bool)
    (ranks : List (hiopMatrixDense R × hiopMatrixDense R × hiopMatrixDense R))
    (beta alpha : R) : Except Abort (List (hiopMatrixDense R)) :=
  match onRanks (fun myrank (t : hiopMatrixDense R × hiopMatrixDense R × hiopMatrixDense R) =>
      if 0 = myrank then timesMat_local deep t.1 beta t.2.1 alpha t.2.2
      else timesMat_local deep t.1 0 t.2.1 alpha t.2.2) 0 ranks with
  | .error e => .error e
  | .ok locals => allreduceW locals

/-- `transTimesMat` (lines 452-470). -/
def transTimesMat (deep : Bool) (A : hiopMatrixDense R) (beta : R)
    (W : hiopMatrixDense R) (alpha : R) (X : hiopMatrixDense R) :
    Except Abort (hiopMatrixDense R) :=
  if deep ∧ ¬ (W.m = A.n_local ∧ X.m = A.m_local ∧ W.n = X.n) then .error .assertion
  else if W.m = 0 then .ok W
  else
    .ok { W with M := DGEMM 'N' 'T' X.n A.n_local X.m alpha X.M X.n A.M A.n_local
                        beta W.M W.n }

/-- `timesMatTrans_local` (lines 475-503). -/
def timesMatTrans_local [DecidableEq R] (deep : Bool) (A : hiopMatrixDense R) (beta : R)
    (W : hiopMatrixDense R) (alpha : R) (X : hiopMatrixDense R) :
    Except Abort (hiopMatrixDense R) :=
  if deep ∧ ¬ (W.m = A.m_local ∧ W.n = X.m) then .error .assertion
  else if ¬ (W.n_local = W.n_global) then .error .assertion
  else if W.m = 0 then .ok W
  else if W.n = 0 then .ok W
  else if A.n_local = 0 then
    if beta ≠ 1 then .ok { W with M := DSCAL (W.m * W.n) beta W.M 1 }
    else .ok W
  else
    .ok { W with M := DGEMM 'T' 'N' X.m A.m_local A.n_local alpha X.M A.n_local
                        A.M A.n_local beta W.M W.n }

/-- `timesMatTrans` (lines 504-527) under `WITH_MPI`, run collectively: the
ranks are the entries `(this, W, X)` of the list. -/
def timesMatTrans [DecidableEq R] (deep : Bool)
    (ranks : List (hiopMatrixDense R × hiopMatrixDense R × hiopMatrixDense R))
    (beta alpha : R) : Except Abort (List (hiopMatrixDense R)) :=
  match onRanks (fun myrank (t : hiopMatrixDense R × hiopMatrixDense R × hiopMatrixDense R) =>
      if deep ∧ ¬ (t.2.1.n_local = t.2.1.n_global) then .error .assertion
      else if 0 = myrank then timesMatTrans_local deep t.1 beta t.2.1 alpha t.2.2
      else timesMatTrans_local deep t.1 0 t.2.1 alpha t.2.2) 0 ranks with
  | .error e => .error e
  | .ok locals => allreduceW locals

/-! ## Distribution of the operands over the ranks -/

/-- The ranks of the list hold, from column `c` on, contiguous column slabs
(possibly empty) of the global `m x n` matrix `G` and the matching parts of
the global vector `xg`; every rank holds the same `y`. -/
def slabsVec (m n : Nat) (G : Nat → Nat → R) (xg : Nat → R) (y : hiopVectorPar R) :
    Nat → List (hiopMatrixDense R × hiopVectorPar R × hiopVectorPar R) → Prop
  | c, [] => c = n
  | c, t :: rest =>
    t.1.wf ∧ t.1.m_local = m ∧ t.1.n_global = n ∧ t.1.glob_jl = c ∧
    (∀ i < m, ∀ j < t.1.n_local, t.1.elem i j = G i (c + j)) ∧
    t.2.1 = y ∧
    t.2.2.get_local_size = t.1.n_local ∧ t.2.2.get_size = n ∧
    (∀ j < t.1.n_local, t.2.2.elem j = xg (c + j)) ∧
    slabsVec m n G xg y (c + t.1.n_local) rest

/-- The ranks of the list hold, from column `c` on, contiguous column slabs
(possibly empty) of the global `m x n` matrix `G` (as `this`) and of the
global `k x n` matrix `H` (as `X`), split by the same partition; every rank
holds the same `W`. -/
def slabsMat (m k n : Nat) (G H : Nat → Nat → R) (W : hiopMatrixDense R) :
    Nat → List (hiopMatrixDense R × hiopMatrixDense R × hiopMatrixDense R) → Prop
  | c, [] => c = n
  | c, t :: rest =>
    t.1.wf ∧ t.1.m_local = m ∧ t.1.n_global = n ∧ t.1.glob_jl = c ∧
    (∀ i < m, ∀ j < t.1.n_local, t.1.elem i j = G i (c + j)) ∧
    t.2.1 = W ∧
    t.2.2.wf ∧ t.2.2.m_local = k ∧ t.2.2.n_global = n ∧ t.2.2.glob_jl = c ∧
    t.2.2.n_local = t.1.n_local ∧
    (∀ i < k, ∀ j < t.1.n_local, t.2.2.elem i j = H i (c + j)) ∧
    slabsMat m k n G H W (c + t.1.n_local) rest

/-! ## Concrete operands -/

/-- The dense matrix `[[1,2],[3,4],[5,6]]` held by a single rank. -/
def exM : hiopMatrixDense ℤ := ⟨3, 2, 2, 0, 2, 3, [1, 2, 3, 4, 5, 6]⟩

/-- Column 0 of `[[1,2],[3,4],[5,6]]`, the slab `[0,1)`. -/
def exMcol0 : hiopMatrixDense ℤ := ⟨3, 1, 2, 0, 1, 3, [1, 3, 5]⟩

/-- Column 1 of `[[1,2],[3,4],[5,6]]`, the slab `[1,2)`. -/
def exMcol1 : hiopMatrixDense ℤ := ⟨3, 1, 2, 1, 2, 3, [2, 4, 6]⟩

/-- The empty slab `[1,1)` of a matrix with 3 rows and 2 global columns. -/
def exMnone : hiopMatrixDense ℤ := ⟨3, 0, 2, 1, 1, 3, []⟩

/-- The global matrix `[[1,2],[3,4],[5,6]]` as a function of the indices. -/
def exG (i j : Nat) : ℤ := [1, 2, 3, 4, 5, 6].getD (i * 2 + j) 0

/-- The global vector `[1,1]` as a function of the index. -/
def exXg (_ : Nat) : ℤ := 1

/-- A replicated vector `y` of length 3 with arbitrary old contents. -/
def exY : hiopVectorPar ℤ := ⟨3, [9, 9, 9]⟩

/-- One rank holding `[[1,2],[3,4],[5,6]]` and `x = [1,1]`. -/
def exRanks1 : List (hiopMatrixDense ℤ × hiopVectorPar ℤ × hiopVectorPar ℤ) :=
  [(exM, exY, ⟨2, [1, 1]⟩)]

/-- Two ranks holding one column each. -/
def exRanks2 : List (hiopMatrixDense ℤ × hiopVectorPar ℤ × hiopVectorPar ℤ) :=
  [(exMcol0, exY, ⟨2, [1]⟩), (exMcol1, exY, ⟨2, [1]⟩)]

/-- Three ranks: column 0, an empty slab, column 1. -/
def exRanks3 : List (hiopMatrixDense ℤ × hiopVectorPar ℤ × hiopVectorPar ℤ) :=
  [(exMcol0, exY, ⟨2, [1]⟩), (exMnone, exY, ⟨2, []⟩), (exMcol1, exY, ⟨2, [1]⟩)]

/-- A matrix with one row and no column. -/
def exA10 : hiopMatrixDense ℤ := ⟨1, 0, 0, 0, 0, 1, []⟩

/-- The matrix `[[2]]`, as the slab `[0,1)` of a matrix with one global column. -/
def exA11 : hiopMatrixDense ℤ := ⟨1, 1, 1, 0, 1, 1, [2]⟩

/-- The empty slab `[1,1)` of a matrix with one row and one global column. -/
def exA1none : hiopMatrixDense ℤ := ⟨1, 0, 1, 1, 1, 1, []⟩

/-- The matrix `[[3]]`. -/
def exX11 : hiopMatrixDense ℤ := ⟨1, 1, 1, 0, 1, 1, [3]⟩

/-- A matrix with no row and one column. -/
def exX01 : hiopMatrixDense ℤ := ⟨0, 1, 1, 0, 1, 0, []⟩

/-- The matrix `[[5]]`. -/
def exW11 : hiopMatrixDense ℤ := ⟨1, 1, 1, 0, 1, 1, [5]⟩

/-- Two ranks for `timesMat`: rank 0 holds the only column of `[[2]]` and the
only row of `X = [[3]]`, rank 1 holds an empty slab; both hold `W = [[5]]`. -/
def exRanksMat : List (hiopMatrixDense ℤ × hiopMatrixDense ℤ × hiopMatrixDense ℤ) :=
  [(exA11, exW11, exX11), (exA1none, exW11, exX01)]

/-- The `2 x 3` matrix of ones. -/
def exOnes23 : hiopMatrixDense ℤ := ⟨2, 3, 3, 0, 3, 2, [1, 1, 1, 1, 1, 1]⟩

/-- The `3 x 3` identity. -/
def exI3 : hiopMatrixDense ℤ := ⟨3, 3, 3, 0, 3, 3, [1, 0, 0, 0, 1, 0, 0, 0, 1]⟩

/-- The `3 x 3` matrix of ones. -/
def exOnes33 : hiopMatrixDense ℤ := ⟨3, 3, 3, 0, 3, 3, [1, 1, 1, 1, 1, 1, 1, 1, 1]⟩

/-- Three ranks for `timesMatTrans`: `this` and `X` are both
`[[1,2],[3,4],[5,6]]`, split into column 0, an empty slab and column 1;
every rank holds the `3 x 3` matrix of ones as `W`. -/
def exRanksMatTrans : List (hiopMatrixDense ℤ × hiopMatrixDense ℤ × hiopMatrixDense ℤ) :=
  [(exMcol0, exOnes33, exMcol0), (exMnone, exOnes33, exMnone), (exMcol1, exOnes33, exMcol1)]

/-- Two populated rows `[[1,2],[3,4]]` in a block allocated for three rows. -/
def exCap : hiopMatrixDense ℤ := ⟨2, 2, 2, 0, 2, 3, [1, 2, 3, 4, 0, 0]⟩

/-- The row vector `[7,8]`. -/
def exRow : hiopVectorPar ℤ := ⟨2, [7, 8]⟩

/-- The matrix with no row, no column and no row capacity, as the
constructor builds it for `m = 0`, `glob_n = 0`. -/
def exEmpty : hiopMatrixDense ℤ := ⟨0, 0, 0, 0, 0, 0, []⟩

/-- A matrix with no row, no row capacity and two columns, as the
constructor builds it for `m = 0`, `glob_n = 2`. -/
def exNoRows : hiopMatrixDense ℤ := ⟨0, 2, 2, 0, 2, 0, []⟩

/-- A matrix with no row, capacity for one row and two columns, as the
constructor builds it for `m = 0`, `glob_n = 2`, `m_max_alloc = 1`. -/
def exNoRowsCap1 : hiopMatrixDense ℤ := ⟨0, 2, 2, 0, 2, 1, [0, 0]⟩

/-- The `3 x 3` matrix `[[1,2,3],[4,5,6],[7,8,9]]`. -/
def exSeq33 : hiopMatrixDense ℤ := ⟨3, 3, 3, 0, 3, 3, [1, 2, 3, 4, 5, 6, 7, 8, 9]⟩

/-- The `1 x 1` matrix `[[1]]` over the rationals. -/
def exOneQ : hiopMatrixDense ℚ := ⟨1, 1, 1, 0, 1, 1, [1]⟩

/-- The symmetric matrix `[[1,2],[2,3]]` over the rationals. -/
def exSymQ : hiopMatrixDense ℚ := ⟨2, 2, 2, 0, 2, 2, [1, 2, 2, 3]⟩

/-- The matrix `[[1,2],[3,3]]` over the rationals: `[[1,2],[2,3]]` with the
entry `(1,0)` perturbed by 1. -/
def exAsymQ : hiopMatrixDense ℚ := ⟨2, 2, 2, 0, 2, 2, [1, 2, 3, 3]⟩

/-- Two ranks holding the columns `[1,-3,5]` and `[2,4,-6]` of
`[[1,2],[-3,4],[5,-6]]`. -/
def exRanksMax : List (hiopMatrixDense ℤ) :=
  [⟨3, 1, 2, 0, 1, 3, [1, -3, 5]⟩, ⟨3, 1, 2, 1, 2, 3, [2, 4, -6]⟩]

/-- The matrix `[[1,2],[3,4],[5,6]]` in a block allocated for four rows. -/
def exMcap4 : hiopMatrixDense ℤ := ⟨3, 2, 2, 0, 2, 4, [1, 2, 3, 4, 5, 6, 0, 0]⟩

/-- One populated row `[1,2]` of a two-column matrix in a block allocated for
two rows. -/
def exWide12 : hiopMatrixDense ℤ := ⟨1, 2, 2, 0, 2, 2, [1, 2, 0, 0]⟩

end Model

/-! ## Auxiliary facts about blocks, sums and copies -/

section Proofs

variable {R : Type} [CommRing R]

theorem getD_map_range (f : Nat → R) (n p : Nat) :
    ((List.range n).map f).getD p 0 = if p < n then f p else 0 := by
  by_cases h : p < n
  · simp [List.getD_eq_getElem?_getD, List.getElem?_map, List.getElem?_range, h]
  · have h1 : (List.range n)[p]? = none := List.getElem?_eq_none (by simpa using h)
    simp [List.getD_eq_getElem?_getD, List.getElem?_map, h, h1]

theorem sumTo_eq_sum (n : Nat) (f : Nat → R) : sumTo n f = ∑ j ∈ Finset.range n, f j := by
  induction n with
  | zero => simp [sumTo]
  | succ k ih => simp [sumTo, ih, Finset.sum_range_succ]

theorem map_range_eq_self (l : List R) (f : Nat → R) (h : ∀ p < l.length, f p = l.getD p 0) :
    (List.range l.length).map f = l := by
  apply List.ext_getElem
  · simp
  · intro p h1 h2
    simp at h1
    simp [h p h1, List.getD_eq_getElem?_getD, List.getElem?_eq_getElem h1]

theorem memcpy_ok (dst : List R) (d : Nat) (src : List R) (s len : Nat)
    (h1 : d + len ≤ dst.length) (h2 : s + len ≤ src.length) :
    memcpy dst d src s len = .ok ((List.range dst.length).map fun p =>
      if d ≤ p ∧ p < d + len then src.getD (s + (p - d)) 0 else dst.getD p 0) := by
  simp [memcpy, h1, h2]

theorem DGEMV_T_getD (m n : Nat) (alpha beta : R) (a x y : List R) (hm : m ≠ 0) (hn : n ≠ 0)
    (i : Nat) (hi : i < n) (hy : y.length = n) :
    (DGEMV 'T' m n alpha a m x 1 beta y 1).getD i 0 =
      beta * y.getD i 0 + alpha * ∑ j ∈ Finset.range m, a.getD (i * m + j) 0 * x.getD j 0 := by
  have hT : ('T' : Char) ≠ 'N' := by decide
  simp [DGEMV, hm, hn, getD_map_range, hy, hi, hT, sumTo_eq_sum, Nat.add_comm, Nat.mod_one]

theorem DGEMV_N_getD (m n : Nat) (alpha beta : R) (a x y : List R) (hm : m ≠ 0) (hn : n ≠ 0)
    (i : Nat) (hi : i < m) (hy : y.length = m) :
    (DGEMV 'N' m n alpha a m x 1 beta y 1).getD i 0 =
      beta * y.getD i 0 + alpha * ∑ j ∈ Finset.range n, a.getD (j * m + i) 0 * x.getD j 0 := by
  simp [DGEMV, hm, hn, getD_map_range, hy, hi, sumTo_eq_sum, Nat.add_comm, Nat.mod_one]

theorem DGEMV_length (t : Char) (m n : Nat) (alpha beta : R) (a x y : List R) (lda ix iy : Nat) :
    (DGEMV t m n alpha a lda x ix beta y iy).length = y.length := by
  unfold DGEMV
  split <;> simp

theorem getD_map_mul (l : List R) (b : R) (i : Nat) :
    (l.map fun t => b * t).getD i 0 = b * l.getD i 0 := by
  by_cases h : i < l.length
  · simp [List.getD_eq_getElem?_getD, List.getElem?_map, List.getElem?_eq_getElem h]
  · have h1 : l[i]? = none := List.getElem?_eq_none (by simpa using h)
    simp [List.getD_eq_getElem?_getD, List.getElem?_map, h1]

/-- The local part of `timesVec` on the rank `r`, as a formula. -/
theorem timesVec_local_spec (deep : Bool) (r : Nat) (A : hiopMatrixDense R) (beta alpha : R)
    (y x : hiopVectorPar R)
    (hy : y.get_local_size = A.m_local) (hyn : y.get_size = A.m_local)
    (hx : x.get_local_size = A.n_local) (hxn : x.get_size = A.n_global) :
    ∃ y1, timesVec_local deep r A beta y alpha x = .ok y1 ∧ y1.n = y.n ∧
      y1.data.length = A.m_local ∧
      (∀ i < A.m_local, y1.elem i = (if r ≠ 0 then 0 else beta) * y.elem i +
          alpha * ∑ j ∈ Finset.range A.n_local, A.elem i j * x.elem j) ∧
      (A.n_local = 0 → 0 < A.m_local → y1 = y.scale (if r ≠ 0 then 0 else beta)) ∧
      (A.m_local = 0 → y1 = y) := by
  simp only [hiopVectorPar.get_local_size, hiopVectorPar.get_size] at hy hyn hx hxn
  by_cases hm : A.m_local = 0
  · refine ⟨y, ?_, rfl, by rw [hy], ?_, ?_, fun _ => rfl⟩
    · simp [timesVec_local, hm, hiopVectorPar.get_local_size, hiopVectorPar.get_size, hy, hyn, hx, hxn]
    · intro i hi; omega
    · intro _ h; omega
  · by_cases hn : A.n_local = 0
    · refine ⟨y.scale (if r ≠ 0 then 0 else beta), ?_, rfl, ?_, ?_, fun _ _ => rfl, fun h => absurd h hm⟩
      · simp [timesVec_local, hm, hn, hiopVectorPar.get_local_size, hiopVectorPar.get_size, hy, hyn, hx, hxn]
      · simp [hiopVectorPar.scale, hy]
      · intro i _
        simp only [hiopVectorPar.scale, hiopVectorPar.elem, getD_map_mul, hn, Finset.range_zero,
          Finset.sum_empty, mul_zero, add_zero]
    · refine ⟨⟨y.n, DGEMV 'T' A.n_local A.m_local alpha A.M A.n_local x.data 1
          (if r ≠ 0 then 0 else beta) y.data 1⟩, ?_, rfl, ?_, ?_, fun h => absurd h hn,
          fun h => absurd h hm⟩
      · simp [timesVec_local, hm, hn, hiopVectorPar.get_local_size, hiopVectorPar.get_size, hy, hyn, hx, hxn]
      · simp [DGEMV_length, hy]
      · intro i hi
        simp only [hiopVectorPar.elem, hiopMatrixDense.elem]
        exact DGEMV_T_getD A.n_local A.m_local alpha _ A.M x.data y.data hn hm i hi hy


theorem onRanks_forall₂ {α β : Type} (f : Nat → α → Except Abort β) (P : α → β → Prop)
    (l : List α) (lo : Nat) :
    ∀ r, lo ≤ r → (∀ t ∈ l, ∀ q, lo ≤ q → ∃ b, f q t = .ok b ∧ P t b) →
      ∃ bs, onRanks f r l = .ok bs ∧ List.Forall₂ P l bs := by
  induction l with
  | nil => intro r _ _; exact ⟨[], rfl, List.Forall₂.nil⟩
  | cons a rest ih =>
    intro r hr h
    obtain ⟨b, hb, hP⟩ := h a (List.mem_cons_self _ _) r hr
    obtain ⟨bs, hbs, hF⟩ := ih (r + 1) (by omega) (fun t ht q hq => h t (List.mem_cons_of_mem _ ht) q hq)
    exact ⟨b :: bs, by simp [onRanks, hb, hbs], List.Forall₂.cons hP hF⟩

theorem slabsVec_le (m n : Nat) (G : Nat → Nat → R) (xg : Nat → R) (y : hiopVectorPar R)
    (l : List (hiopMatrixDense R × hiopVectorPar R × hiopVectorPar R)) :
    ∀ c, slabsVec m n G xg y c l → c ≤ n := by
  induction l with
  | nil => intro c h; simp [slabsVec] at h; omega
  | cons t rest ih =>
    intro c h
    simp only [slabsVec] at h
    have := ih _ h.2.2.2.2.2.2.2.2.2
    omega

theorem sum_Ico_split (f : Nat → R) (c w n : Nat) (h : c + w ≤ n) :
    ∑ j ∈ Finset.range w, f (c + j) + ∑ j ∈ Finset.Ico (c + w) n, f j =
      ∑ j ∈ Finset.Ico c n, f j := by
  rw [← Finset.sum_Ico_consecutive f (Nat.le_add_right c w) h,
    Finset.sum_Ico_eq_sum_range f c (c + w), Nat.add_sub_cancel_left]


theorem allreduce_getD (bufs : List (List R)) (cnt k : Nat) (hk : k < cnt) :
    (MPI_Allreduce_SUM bufs cnt).getD k 0 = (bufs.map fun b => b.getD k 0).sum := by
  simp [MPI_Allreduce_SUM, getD_map_range, hk]

theorem sum_tail_vec (m n : Nat) (G : Nat → Nat → R) (xg : Nat → R) (y : hiopVectorPar R)
    (alpha : R) (l : List (hiopMatrixDense R × hiopVectorPar R × hiopVectorPar R))
    (bs : List (hiopVectorPar R))
    (hF : List.Forall₂ (fun t b => b.data.length = t.1.m_local ∧ ∀ i < t.1.m_local,
      hiopVectorPar.elem b i = alpha * ∑ j ∈ Finset.range t.1.n_local, t.1.elem i j * t.2.2.elem j) l bs) :
    ∀ c, slabsVec m n G xg y c l → ∀ i < m,
      ((bs.map fun v => v.data).map fun b => b.getD i 0).sum =
        alpha * ∑ j ∈ Finset.Ico c n, G i j * xg j := by
  induction hF with
  | nil =>
    intro c h i _
    simp only [slabsVec] at h
    simp [h]
  | @cons t b rest bs1 hP _ ih =>
    intro c h i hi
    simp only [slabsVec] at h
    obtain ⟨_, hm, _, _, hG, _, _, _, hx, hrest⟩ := h
    have hle := slabsVec_le m n G xg y rest _ hrest
    have h1 : b.data.getD i 0 =
        alpha * ∑ j ∈ Finset.range t.1.n_local, t.1.elem i j * t.2.2.elem j := hP.2 i (by omega)
    simp only [List.map_cons, List.sum_cons]
    rw [ih _ hrest i hi, h1, ← sum_Ico_split (fun j => G i j * xg j) c t.1.n_local n hle, mul_add]
    congr 2
    apply Finset.sum_congr rfl
    intro j hj
    rw [hG i hi j (Finset.mem_range.mp hj), hx j (Finset.mem_range.mp hj)]


theorem forall₂_mem_right {α β : Type} (P : α → β → Prop) (l : List α) (bs : List β)
    (h : List.Forall₂ P l bs) : ∀ b ∈ bs, ∃ a ∈ l, P a b := by
  induction h with
  | nil => intro b hb; simp at hb
  | @cons a b l1 bs1 hP _ ih =>
    intro b' hb'
    rcases List.mem_cons.mp hb' with h1 | h1
    · exact ⟨a, List.mem_cons_self _ _, h1 ▸ hP⟩
    · obtain ⟨a', ha', hP'⟩ := ih b' h1
      exact ⟨a', List.mem_cons_of_mem _ ha', hP'⟩

theorem slabsVec_mem (m n : Nat) (G : Nat → Nat → R) (xg : Nat → R) (y : hiopVectorPar R)
    (l : List (hiopMatrixDense R × hiopVectorPar R × hiopVectorPar R)) :
    ∀ c, slabsVec m n G xg y c l → ∀ t ∈ l, t.1.m_local = m ∧ t.1.n_global = n ∧ t.2.1 = y ∧
      t.2.2.get_local_size = t.1.n_local ∧ t.2.2.get_size = n := by
  induction l with
  | nil => intro c _ t ht; simp at ht
  | cons a rest ih =>
    intro c h t ht
    simp only [slabsVec] at h
    rcases List.mem_cons.mp ht with h1 | h1
    · subst h1
      exact ⟨h.2.1, h.2.2.1, h.2.2.2.2.2.1, h.2.2.2.2.2.2.1, h.2.2.2.2.2.2.2.1⟩
    · exact ih _ h.2.2.2.2.2.2.2.2.2 t h1

/-- C1: distributed `timesVec` is partition-independent.  For every number
of ranks `P >= 1` holding contiguous column slabs (possibly empty) of a
global `m x n` matrix `G`, with `x` split by the same partition and the same
`y` of length `m` on every rank, the collective call returns, and every rank
then holds `y[i] = beta*y_old[i] + alpha*sum_{j<n} G[i][j]*x[j]` for every
`i < m`: the term `beta*y_old` is counted once. -/
theorem timesVec_partition_independent (deep : Bool) (m n : Nat) (G : Nat → Nat → R)
    (xg : Nat → R) (y : hiopVectorPar R)
    (ranks : List (hiopMatrixDense R × hiopVectorPar R × hiopVectorPar R)) (beta alpha : R)
    (hP : 1 ≤ ranks.length) (hy : y.get_local_size = m) (hyn : y.get_size = m)
    (hs : slabsVec m n G xg y 0 ranks) :
    ∃ outs, timesVec deep ranks beta alpha = .ok outs ∧ outs.length = ranks.length ∧
      ∀ y1 ∈ outs, y1.get_local_size = m ∧ ∀ i < m,
        y1.elem i = beta * y.elem i + alpha * ∑ j ∈ Finset.range n, G i j * xg j := by
  cases ranks with
  | nil => simp at hP
  | cons t0 rest =>
    have hmem := slabsVec_mem m n G xg y _ 0 hs
    simp only [slabsVec] at hs
    obtain ⟨_, hm0, hn0, _, hG0, hy0, hxl0, hxn0, hx0, hrest⟩ := hs
    -- the local part on rank 0
    obtain ⟨b0, hb0, _, hb0len, hb0v, _, _⟩ := timesVec_local_spec deep 0 t0.1 beta alpha
      t0.2.1 t0.2.2 (by rw [hy0, hy, hm0]) (by rw [hy0, hyn, hm0]) hxl0 (by rw [hxn0, hn0])
    -- the local part on the other ranks
    obtain ⟨bs, hbs, hF⟩ := onRanks_forall₂
      (fun myrank (t : hiopMatrixDense R × hiopVectorPar R × hiopVectorPar R) =>
        timesVec_local deep myrank t.1 beta t.2.1 alpha t.2.2)
      (fun t b => b.data.length = t.1.m_local ∧ ∀ i < t.1.m_local,
        hiopVectorPar.elem b i =
          alpha * ∑ j ∈ Finset.range t.1.n_local, t.1.elem i j * t.2.2.elem j)
      rest 1 1 (le_refl 1) (by
        intro t ht q hq
        obtain ⟨h1, h2, h3, h4, h5⟩ := hmem t (List.mem_cons_of_mem _ ht)
        obtain ⟨b, hb, _, hblen, hbv, _, _⟩ := timesVec_local_spec deep q t.1 beta alpha
          t.2.1 t.2.2 (by rw [h3, hy, h1]) (by rw [h3, hyn, h1]) h4 (by rw [h5, h2])
        refine ⟨b, hb, hblen, fun i hi => ?_⟩
        have hq0 : q ≠ 0 := by omega
        simpa [hq0] using hbv i hi)
    have hloc : onRanks (fun myrank (t : hiopMatrixDense R × hiopVectorPar R × hiopVectorPar R) =>
        timesVec_local deep myrank t.1 beta t.2.1 alpha t.2.2) 0 (t0 :: rest) = .ok (b0 :: bs) := by
      simp only [onRanks, hb0]
      simp only [Nat.zero_add, hbs]
    have hsum : ∀ i < m, (((b0 :: bs).map fun v => v.data).map fun b => b.getD i 0).sum =
        beta * y.elem i + alpha * ∑ j ∈ Finset.range n, G i j * xg j := by
      intro i hi
      have h1 := sum_tail_vec m n G xg y alpha rest bs hF _ hrest i hi
      have h2 : b0.data.getD i 0 = beta * y.elem i +
          alpha * ∑ j ∈ Finset.range t0.1.n_local, t0.1.elem i j * t0.2.2.elem j := by
        have := hb0v i (by omega)
        rw [hy0] at this
        simp only [ne_eq, not_true_eq_false, if_false] at this
        exact this
      have hle := slabsVec_le m n G xg y rest _ hrest
      simp only [List.map_cons, List.sum_cons]
      rw [h1, h2, show Finset.range n = Finset.Ico 0 n from by rw [Finset.range_eq_Ico],
        ← sum_Ico_split (fun j => G i j * xg j) 0 t0.1.n_local n hle, mul_add, add_assoc]
      congr 3
      apply Finset.sum_congr rfl
      intro j hj
      rw [hG0 i hi j (by simpa using hj), hx0 j (by simpa using hj)]
    have hlen : ∀ b ∈ b0 :: bs, b.data.length = m := by
      intro b hb
      rcases List.mem_cons.mp hb with h1 | h1
      · rw [h1, hb0len, hm0]
      · obtain ⟨a, ha, hPa⟩ := forall₂_mem_right _ _ _ hF b h1
        rw [hPa.1]; exact (hmem a (List.mem_cons_of_mem _ ha)).1
    obtain ⟨outs, houts, hF2⟩ := onRanks_forall₂
      (fun _ (t : hiopMatrixDense R × hiopVectorPar R) =>
        match memcpy t.2.data 0
          (MPI_Allreduce_SUM ((b0 :: bs).map fun v => v.data) t.1.m_local) 0 t.1.m_local with
        | .error e => .error e
        | .ok d => (.ok { t.2 with data := d } : Except Abort (hiopVectorPar R)))
      (fun _ y1 => y1.get_local_size = m ∧ ∀ i < m,
        y1.elem i = beta * y.elem i + alpha * ∑ j ∈ Finset.range n, G i j * xg j)
      (((t0 :: rest).map fun t => t.1).zip (b0 :: bs)) 0 0 (le_refl 0) (by
        intro t ht q _
        have ht1 := (List.of_mem_zip ht).1
        have ht2 := (List.of_mem_zip ht).2
        obtain ⟨a, ha, hat⟩ := List.mem_map.mp ht1
        have hm1 : t.1.m_local = m := by rw [← hat]; exact (hmem a ha).1
        have hl2 := hlen t.2 ht2
        dsimp only
        rw [memcpy_ok _ _ _ _ _ (by rw [hl2, hm1]; omega) (by simp [MPI_Allreduce_SUM])]
        refine ⟨_, rfl, ?_, ?_⟩
        · simp [hiopVectorPar.get_local_size, hl2]
        · intro i hi
          simp only [hiopVectorPar.elem, getD_map_range, hl2, hi, hm1, if_true, Nat.zero_le,
            true_and, Nat.zero_add, Nat.sub_zero]
          rw [allreduce_getD _ _ _ hi]
          exact hsum i hi)
    refine ⟨outs, ?_, ?_, ?_⟩
    · simp only [timesVec, hloc]
      exact houts
    · rw [← hF2.length_eq]
      have := hF.length_eq
      simp [this]
    · intro y1 hy1
      obtain ⟨_, _, h⟩ := forall₂_mem_right _ _ _ hF2 y1 hy1
      exact h

theorem memcpy_allreduce_single (d : List R) (m : Nat) (hm : m ≤ d.length) :
    memcpy d 0 (MPI_Allreduce_SUM [d] m) 0 m = .ok d := by
  rw [memcpy_ok _ _ _ _ _ (by omega) (by simp [MPI_Allreduce_SUM])]
  congr 1
  apply map_range_eq_self
  intro p _
  by_cases hp : p < m
  · simp only [Nat.zero_le, Nat.zero_add, hp, and_self, if_true, Nat.sub_zero]
    rw [allreduce_getD _ _ _ hp]
    simp
  · simp [hp]

/-- C2: single-process `timesVec` computes `y <- beta*y + alpha*M*x` through
the row-major/column-major role swap of the DGEMV call.  For a matrix with
`m_local` rows and `n_local` columns, `y` of length `m_local` and `x` of
length `n_local`, the call returns (in both builds, without `WITH_MPI` and as
the collective of one rank) a `y` with
`y[i] = beta*y_old[i] + alpha*sum_{j<n_local} M[i][j]*x[j]`; with no column
and at least one row the result is `y_old` scaled by `beta`, and with no row
`y` is returned untouched. -/
theorem timesVec_single_process (deep : Bool) (A : hiopMatrixDense R) (beta alpha : R)
    (y x : hiopVectorPar R) (_hA : A.wf)
    (hy : y.get_local_size = A.m_local) (hyn : y.get_size = A.m_local)
    (hx : x.get_local_size = A.n_local) (hxn : x.get_size = A.n_global) :
    ∃ y1, timesVec_local deep 0 A beta y alpha x = .ok y1 ∧
      timesVec deep [(A, y, x)] beta alpha = .ok [y1] ∧
      y1.get_local_size = A.m_local ∧ y1.get_size = y.get_size ∧
      (∀ i < A.m_local, y1.elem i =
        beta * y.elem i + alpha * ∑ j ∈ Finset.range A.n_local, A.elem i j * x.elem j) ∧
      (A.n_local = 0 → 0 < A.m_local → y1 = y.scale beta) ∧
      (A.m_local = 0 → y1 = y) := by
  obtain ⟨y1, h1, h2, h3, h4, h5, h6⟩ := timesVec_local_spec deep 0 A beta alpha y x hy hyn hx hxn
  simp only [ne_eq, not_true_eq_false, if_false] at h4 h5
  refine ⟨y1, h1, ?_, h3, h2, h4, h5, h6⟩
  simp only [timesVec, onRanks, h1, List.map_cons, List.map_nil, List.zip_cons_cons,
    List.zip_nil_right, memcpy_allreduce_single y1.data A.m_local (le_of_eq h3.symm)]

/-- Witness of C2: `[[1,2],[3,4],[5,6]]*[1,1] + 2*[9,9,9] = [21,25,29]`. -/
theorem timesVec_single_process_witness :
    exM.wf ∧ timesVec_local true 0 exM 2 exY 1 ⟨2, [1, 1]⟩ = .ok ⟨3, [21, 25, 29]⟩ ∧
    ∃ y1, timesVec_local true 0 exM 2 exY 1 ⟨2, [1, 1]⟩ = .ok y1 ∧
      timesVec true [(exM, exY, ⟨2, [1, 1]⟩)] 2 1 = .ok [y1] ∧
      y1.get_local_size = exM.m_local ∧ y1.get_size = exY.get_size ∧
      (∀ i < exM.m_local, y1.elem i =
        2 * exY.elem i + 1 * ∑ j ∈ Finset.range exM.n_local,
          exM.elem i j * (⟨2, [1, 1]⟩ : hiopVectorPar ℤ).elem j) ∧
      (exM.n_local = 0 → 0 < exM.m_local → y1 = exY.scale 2) ∧
      (exM.m_local = 0 → y1 = exY) :=
  ⟨by simp only [hiopMatrixDense.wf]; decide, rfl,
    timesVec_single_process true exM 2 1 exY ⟨2, [1, 1]⟩
      (by simp only [hiopMatrixDense.wf]; decide) rfl rfl rfl rfl⟩

/-- Witness of C1: the matrix `[[1,2],[3,4],[5,6]]` with `x = [1,1]`,
`beta = 0` and `alpha = 1` gives `y = [3,7,11]` on every rank for one rank,
for two ranks holding a column each, and for three ranks of which the middle
one holds an empty slab; the last run is an instance of the theorem. -/
theorem timesVec_partition_independent_witness :
    timesVec true exRanks1 0 1 = .ok [⟨3, [3, 7, 11]⟩] ∧
    timesVec true exRanks2 0 1 = .ok [⟨3, [3, 7, 11]⟩, ⟨3, [3, 7, 11]⟩] ∧
    timesVec true exRanks3 0 1 = .ok [⟨3, [3, 7, 11]⟩, ⟨3, [3, 7, 11]⟩, ⟨3, [3, 7, 11]⟩] ∧
    1 ≤ exRanks3.length ∧ exY.get_local_size = 3 ∧ exY.get_size = 3 ∧
    slabsVec 3 2 exG exXg exY 0 exRanks3 ∧
    ∃ outs, timesVec true exRanks3 0 1 = .ok outs ∧ outs.length = exRanks3.length ∧
      ∀ y1 ∈ outs, y1.get_local_size = 3 ∧ ∀ i < 3,
        y1.elem i = 0 * exY.elem i + 1 * ∑ j ∈ Finset.range 2, exG i j * exXg j :=
  ⟨rfl, rfl, rfl, by decide, rfl, rfl, by simp only [slabsVec, hiopMatrixDense.wf]; decide,
    timesVec_partition_independent true 3 2 exG exXg exY exRanks3 0 1 (by decide) rfl rfl
      (by simp only [slabsVec, hiopMatrixDense.wf]; decide)⟩

/-- C6: `transTimesVec` computes `y <- beta*y + alpha*Mᵀ*x` with no
reduction.  For a matrix with `m_local` rows and `n_local` local columns,
`x` of length `m_local` and `y` of length `n_local`, the call returns a `y`
with `y[j] = beta*y_old[j] + alpha*sum_{i<m_local} M[i][j]*x[i]` for every
`j < n_local`; with no row and at least one column the result is `y_old`
scaled by `beta`, and with no column `y` is returned untouched. -/
theorem transTimesVec_spec (deep : Bool) (A : hiopMatrixDense R) (beta alpha : R)
    (y x : hiopVectorPar R) (_hA : A.wf)
    (hx : x.get_local_size = A.m_local) (hxn : x.get_size = A.m_local)
    (hy : y.get_local_size = A.n_local) (hyn : y.get_size = A.n_global) :
    ∃ y1, transTimesVec deep A beta y alpha x = .ok y1 ∧
      y1.get_local_size = A.n_local ∧ y1.get_size = y.get_size ∧
      (∀ j < A.n_local, y1.elem j =
        beta * y.elem j + alpha * ∑ i ∈ Finset.range A.m_local, A.elem i j * x.elem i) ∧
      (A.m_local = 0 → 0 < A.n_local → y1 = y.scale beta) ∧
      (A.n_local = 0 → y1 = y) := by
  simp only [hiopVectorPar.get_local_size, hiopVectorPar.get_size] at hy hyn hx hxn
  by_cases hn : A.n_local = 0
  · refine ⟨y, ?_, hy, rfl, ?_, ?_, fun _ => rfl⟩
    · simp [transTimesVec, hn, hiopVectorPar.get_local_size, hiopVectorPar.get_size, hy, hyn,
        hx, hxn]
    · intro i hi; omega
    · intro _ h; omega
  · by_cases hm : A.m_local = 0
    · refine ⟨y.scale beta, ?_, ?_, rfl, ?_, fun _ _ => rfl, fun h => absurd h hn⟩
      · simp [transTimesVec, hm, hn, hiopVectorPar.get_local_size, hiopVectorPar.get_size, hy,
          hyn, hx, hxn]
      · simp [hiopVectorPar.scale, hiopVectorPar.get_local_size, hy]
      · intro i _
        simp only [hiopVectorPar.scale, hiopVectorPar.elem, getD_map_mul, hm, Finset.range_zero,
          Finset.sum_empty, mul_zero, add_zero]
    · refine ⟨⟨y.n, DGEMV 'N' A.n_local A.m_local alpha A.M A.n_local x.data 1 beta y.data 1⟩,
        ?_, ?_, rfl, ?_, fun h => absurd h hm, fun h => absurd h hn⟩
      · simp [transTimesVec, hm, hn, hiopVectorPar.get_local_size, hiopVectorPar.get_size, hy,
          hyn, hx, hxn]
      · simp [hiopVectorPar.get_local_size, DGEMV_length, hy]
      · intro j hj
        simp only [hiopVectorPar.elem, hiopMatrixDense.elem]
        exact DGEMV_N_getD A.n_local A.m_local alpha _ A.M x.data y.data hn hm j hj hy

/-- Witness of C6: `[[1,2],[3,4],[5,6]]ᵀ*[1,1,1] + 10*[1,1] = [19,22]`. -/
theorem transTimesVec_spec_witness :
    transTimesVec true exM 10 ⟨2, [1, 1]⟩ 1 ⟨3, [1, 1, 1]⟩ = .ok ⟨2, [19, 22]⟩ ∧
    ∃ y1, transTimesVec true exM 10 ⟨2, [1, 1]⟩ 1 ⟨3, [1, 1, 1]⟩ = .ok y1 ∧
      y1.get_local_size = exM.n_local ∧ y1.get_size = (⟨2, [1, 1]⟩ : hiopVectorPar ℤ).get_size ∧
      (∀ j < exM.n_local, y1.elem j = 10 * (⟨2, [1, 1]⟩ : hiopVectorPar ℤ).elem j +
        1 * ∑ i ∈ Finset.range exM.m_local,
          exM.elem i j * (⟨3, [1, 1, 1]⟩ : hiopVectorPar ℤ).elem i) ∧
      (exM.m_local = 0 → 0 < exM.n_local →
        y1 = (⟨2, [1, 1]⟩ : hiopVectorPar ℤ).scale 10) ∧
      (exM.n_local = 0 → y1 = ⟨2, [1, 1]⟩) :=
  ⟨rfl, transTimesVec_spec true exM 10 1 ⟨2, [1, 1]⟩ ⟨3, [1, 1, 1]⟩
    (by simp only [hiopMatrixDense.wf]; decide) rfl rfl rfl rfl⟩

theorem idx_mod (i k c : Nat) (h : c < k) : (i * k + c) % k = c := by
  rw [Nat.add_comm, Nat.add_mul_mod_self_right, Nat.mod_eq_of_lt h]

theorem idx_div (i k c : Nat) (h : c < k) : (i * k + c) / k = i := by
  rw [Nat.add_comm, Nat.add_mul_div_right _ _ (by omega), Nat.div_eq_of_lt h, Nat.zero_add]

theorem idx_lt (i m k c : Nat) (hi : i < m) (hc : c < k) : i * k + c < m * k := by
  have : (i + 1) * k ≤ m * k := Nat.mul_le_mul_right k hi
  rw [Nat.add_mul, Nat.one_mul] at this
  omega

theorem DGEMM_length (ta tb : Char) (m n k : Nat) (alpha beta : R) (a b c : List R)
    (lda ldb ldc : Nat) : (DGEMM ta tb m n k alpha a lda b ldb beta c ldc).length = c.length := by
  unfold DGEMM
  split <;> simp

theorem DGEMM_getD (ta tb : Char) (m n k : Nat) (alpha beta : R) (a b c : List R)
    (lda ldb ldc : Nat) (hm : m ≠ 0) (hn : n ≠ 0) (i j : Nat) (hi : i < m) (hj : j < n)
    (hld : ldc = m) (hp : j * m + i < c.length) :
    (DGEMM ta tb m n k alpha a lda b ldb beta c ldc).getD (j * m + i) 0 =
      beta * c.getD (j * m + i) 0 + alpha * ∑ l ∈ Finset.range k,
        (if ta = 'N' then a.getD (i + l * lda) 0 else a.getD (l + i * lda) 0) *
        (if tb = 'N' then b.getD (l + j * ldb) 0 else b.getD (j + l * ldb) 0) := by
  subst hld
  simp only [DGEMM, hm, hn, or_self, if_false, getD_map_range, hp, if_true, idx_mod j ldc i hi,
    idx_div j ldc i hi, hi, hj, and_self, sumTo_eq_sum]

/-- The result of `timesMat_local` when the inner dimension is not zero. -/
theorem timesMat_local_spec (deep : Bool) (A W X : hiopMatrixDense R) (beta alpha : R)
    (hW : W.wf) (hWn : W.n_local = W.n_global) (hXn : X.n_local = X.n_global)
    (hWm : W.m_local = A.m_local) (hXm : X.m_local = A.n_local) (hk : W.n_global = X.n_global)
    (hdeep : deep = true → A.n_local = A.n_global) (hinner : A.n_local ≠ 0) :
    ∃ W1, timesMat_local deep A beta W alpha X = .ok W1 ∧
      W1.m_local = W.m_local ∧ W1.n_local = W.n_local ∧ W1.n_global = W.n_global ∧
      W1.max_rows = W.max_rows ∧ W1.M.length = W.M.length ∧
      ∀ i < W.m_local, ∀ c < W.n_local, W1.elem i c =
        beta * W.elem i c + alpha * ∑ j ∈ Finset.range A.n_local, A.elem i j * X.elem j c := by
  by_cases h0 : W.m_local = 0 ∨ W.n_global = 0
  · refine ⟨W, ?_, rfl, rfl, rfl, rfl, rfl, ?_⟩
    · have h1 : W.m = 0 ∨ X.m = 0 ∨ W.n = 0 := by
        simp only [hiopMatrixDense.m, hiopMatrixDense.n]; tauto
      have h2 : ¬ (deep = true ∧ ¬ (W.m = A.m ∧ X.m = A.n ∧ W.n = X.n)) := by
        rintro ⟨hd, hne⟩
        exact hne ⟨hWm, by simp only [hiopMatrixDense.m, hiopMatrixDense.n, hXm, hdeep hd], hk⟩
      unfold timesMat_local
      rw [if_neg h2, if_neg (not_not.mpr hWn), if_pos h1]
    · intro i hi c hc
      rcases h0 with h | h <;> omega
  · push_neg at h0
    refine ⟨{ W with M := DGEMM 'N' 'N' X.n A.m_local X.m alpha X.M X.n A.M A.n_local
                            beta W.M X.n }, ?_, rfl, rfl, rfl, rfl, ?_, ?_⟩
    · have h1 : ¬ (W.m = 0 ∨ X.m = 0 ∨ W.n = 0) := by
        simp only [hiopMatrixDense.m, hiopMatrixDense.n, hXm]; tauto
      have h2 : ¬ (deep = true ∧ ¬ (W.m = A.m ∧ X.m = A.n ∧ W.n = X.n)) := by
        rintro ⟨hd, hne⟩
        exact hne ⟨hWm, by simp only [hiopMatrixDense.m, hiopMatrixDense.n, hXm, hdeep hd], hk⟩
      unfold timesMat_local
      rw [if_neg h2, if_neg (not_not.mpr hWn), if_neg h1]
    · simp [DGEMM_length]
    · intro i hi c hc
      have hkk : X.n = W.n_local := by simp [hiopMatrixDense.n, ← hk, hWn]
      have hlen : i * W.n_local + c < W.M.length := by
        rw [hW.1]
        exact lt_of_lt_of_le (idx_lt i W.m_local _ c hi hc) (Nat.mul_le_mul_right _ hW.2.1)
      simp only [hiopMatrixDense.elem]
      rw [hkk, DGEMM_getD 'N' 'N' W.n_local A.m_local X.m alpha beta X.M A.M W.M W.n_local
        A.n_local W.n_local (by omega) (by omega) c i hc (by omega) rfl hlen]
      simp only [if_true, hiopMatrixDense.m, hXm, hXn, ← hk, ← hWn]
      congr 2
      apply Finset.sum_congr rfl
      intro l _
      rw [mul_comm, Nat.add_comm c, Nat.add_comm l]

/-- With an inner dimension of zero `timesMat_local` returns `W` as it was. -/
theorem timesMat_local_inner_zero (A W X : hiopMatrixDense R) (beta alpha : R)
    (hWn : W.n_local = W.n_global) (hX : X.m_local = 0) :
    timesMat_local false A beta W alpha X = .ok W := by
  simp [timesMat_local, hiopMatrixDense.m, hX, hWn]

/-- C4, the failing input: `timesMat_local` on a `1 x 0` matrix, `X` of size
`0 x 1`, `W = [[5]]`, `beta = 2`, `alpha = 1`.  The inner dimension is zero,
so the claim gives `W = beta*W_old = [[10]]`; the call returns early (in
both builds) and `W` stays `[[5]]`. -/
theorem timesMat_local_inner_zero_not_scaled :
    timesMat_local true exA10 2 exW11 1 exX01 = .ok exW11 ∧
    timesMat_local false exA10 2 exW11 1 exX01 = .ok exW11 ∧
    exW11.elem 0 0 = 5 ∧
    2 * exW11.elem 0 0 +
      1 * ∑ j ∈ Finset.range exA10.n_local, exA10.elem 0 j * exX01.elem j 0 = 10 :=
  ⟨rfl, rfl, rfl, by decide⟩

/-- C3, the failing input: `timesMat` on two ranks, rank 0 holding the only
column of `M = [[2]]` and the only row of `X = [[3]]`, rank 1 an empty slab,
`W = [[5]]` on both, `beta = 1`, `alpha = 1`.  The claim gives
`W = 1*5 + 1*(2*3) = [[11]]`; rank 1 returns early from `timesMat_local`
with its `W` still `[[5]]`, so the sum every rank receives is `[[16]]`. -/
theorem timesMat_counts_W_on_empty_rank :
    timesMat false exRanksMat 1 1 =
      .ok [⟨1, 1, 1, 0, 1, 1, [16]⟩, ⟨1, 1, 1, 0, 1, 1, [16]⟩] ∧
    timesMat_local false exA1none 0 exW11 1 exX01 = .ok exW11 ∧
    1 * exW11.elem 0 0 + 1 * (exA11.elem 0 0 * exX11.elem 0 0) = 11 :=
  ⟨rfl, rfl, by decide⟩

/-- C7: `transTimesMat` computes `W <- beta*W + alpha*Mᵀ*X` through the
role swap of the DGEMM call.  For a row-major `M` with `m_local` rows and
`n_local` columns, a non-distributed `X` with `m_local` rows and `k` columns
and a non-distributed `W` with `n_local` rows and `k` columns, the call
returns a `W` of the same shape with
`W[j][c] = beta*W_old[j][c] + alpha*sum_{i<m_local} M[i][j]*X[i][c]` for
every `j < n_local`, `c < k`. -/
theorem transTimesMat_spec (deep : Bool) (A W X : hiopMatrixDense R) (beta alpha : R)
    (_hA : A.wf) (_hX : X.wf) (hW : W.wf)
    (hWn : W.n_local = W.n_global) (hXn : X.n_local = X.n_global)
    (hWm : W.m_local = A.n_local) (hXm : X.m_local = A.m_local) (hk : W.n_global = X.n_global) :
    ∃ W1, transTimesMat deep A beta W alpha X = .ok W1 ∧
      W1.m_local = W.m_local ∧ W1.n_local = W.n_local ∧ W1.n_global = W.n_global ∧
      W1.max_rows = W.max_rows ∧ W1.M.length = W.M.length ∧
      ∀ j < A.n_local, ∀ c < W.n_local, W1.elem j c =
        beta * W.elem j c + alpha * ∑ i ∈ Finset.range A.m_local, A.elem i j * X.elem i c := by
  have h2 : ¬ (deep = true ∧ ¬ (W.m = A.n_local ∧ X.m = A.m_local ∧ W.n = X.n)) := by
    rintro ⟨_, hne⟩
    exact hne ⟨hWm, hXm, hk⟩
  by_cases h0 : W.m = 0
  · refine ⟨W, ?_, rfl, rfl, rfl, rfl, rfl, ?_⟩
    · unfold transTimesMat
      rw [if_neg h2, if_pos h0]
    · intro j hj c _
      simp only [hiopMatrixDense.m] at h0
      omega
  · refine ⟨{ W with M := DGEMM 'N' 'T' X.n A.n_local X.m alpha X.M X.n A.M A.n_local
                            beta W.M W.n }, ?_, rfl, rfl, rfl, rfl, ?_, ?_⟩
    · unfold transTimesMat
      rw [if_neg h2, if_neg h0]
    · simp [DGEMM_length]
    · intro j hj c hc
      have hT : ('T' : Char) ≠ 'N' := by decide
      have hkk : X.n = W.n_local := by simp [hiopMatrixDense.n, ← hk, hWn]
      have hkw : W.n = W.n_local := by simp [hiopMatrixDense.n, hWn]
      have hlen : j * W.n_local + c < W.M.length := by
        rw [hW.1]
        exact lt_of_lt_of_le (idx_lt j W.m_local _ c (by omega) hc)
          (Nat.mul_le_mul_right _ hW.2.1)
      simp only [hiopMatrixDense.elem]
      rw [hkk, hkw, DGEMM_getD 'N' 'T' W.n_local A.n_local X.m alpha beta X.M A.M W.M W.n_local
        A.n_local W.n_local (by omega) (by omega) c j hc hj rfl hlen]
      simp only [if_true, if_neg hT, hiopMatrixDense.m, hXm, hXn, ← hk, ← hWn]
      congr 2
      apply Finset.sum_congr rfl
      intro l _
      rw [mul_comm, Nat.add_comm c, Nat.add_comm j]

/-- Witness of C7: `[[1,2],[3,4],[5,6]]ᵀ * I + 10 * ones = [[11,13,15],[12,14,16]]`. -/
theorem transTimesMat_spec_witness :
    transTimesMat true exM 10 exOnes23 1 exI3 =
      .ok ⟨2, 3, 3, 0, 3, 2, [11, 13, 15, 12, 14, 16]⟩ ∧
    ∃ W1, transTimesMat true exM 10 exOnes23 1 exI3 = .ok W1 ∧
      W1.m_local = exOnes23.m_local ∧ W1.n_local = exOnes23.n_local ∧
      W1.n_global = exOnes23.n_global ∧ W1.max_rows = exOnes23.max_rows ∧
      W1.M.length = exOnes23.M.length ∧
      ∀ j < exM.n_local, ∀ c < exOnes23.n_local, W1.elem j c =
        10 * exOnes23.elem j c +
          1 * ∑ i ∈ Finset.range exM.m_local, exM.elem i j * exI3.elem i c :=
  ⟨rfl, transTimesMat_spec true exM exOnes23 exI3 10 1
    (by simp only [hiopMatrixDense.wf]; decide) (by simp only [hiopMatrixDense.wf]; decide)
    (by simp only [hiopMatrixDense.wf]; decide) rfl rfl rfl rfl rfl⟩

theorem DSCAL_length (n : Nat) (a : R) (x : List R) (inc : Nat) :
    (DSCAL n a x inc).length = x.length := by
  unfold DSCAL
  split <;> simp

theorem DSCAL_getD (n : Nat) (a : R) (x : List R) (p : Nat) (hp : p < n) (hl : p < x.length) :
    (DSCAL n a x 1).getD p 0 = a * x.getD p 0 := by
  have hn : n ≠ 0 := by omega
  simp only [DSCAL, hn, one_ne_zero, or_self, if_false, getD_map_range, hl, if_true,
    Nat.mod_one, Nat.div_one, hp, and_self]

/-- The result of `timesMatTrans_local`, entry by entry. -/
theorem timesMatTrans_local_spec [DecidableEq R] (deep : Bool) (A W X : hiopMatrixDense R)
    (beta alpha : R) (hW : W.wf) (hWn : W.n_local = W.n_global)
    (hWm : W.m_local = A.m_local) (hk : W.n_global = X.m_local) (hXn : X.n_local = A.n_local) :
    ∃ W1, timesMatTrans_local deep A beta W alpha X = .ok W1 ∧
      W1.m_local = W.m_local ∧ W1.n_local = W.n_local ∧ W1.n_global = W.n_global ∧
      W1.max_rows = W.max_rows ∧ W1.M.length = W.M.length ∧
      ∀ i < W.m_local, ∀ c < W.n_local, W1.elem i c =
        beta * W.elem i c + alpha * ∑ j ∈ Finset.range A.n_local, A.elem i j * X.elem c j := by
  have h2 : ¬ (deep = true ∧ ¬ (W.m = A.m_local ∧ W.n = X.m)) := by
    rintro ⟨_, hne⟩
    exact hne ⟨hWm, hk⟩
  have hlen : ∀ i < W.m_local, ∀ c < W.n_local, i * W.n_local + c < W.M.length := by
    intro i hi c hc
    rw [hW.1]
    exact lt_of_lt_of_le (idx_lt i W.m_local _ c hi hc) (Nat.mul_le_mul_right _ hW.2.1)
  by_cases hm0 : W.m = 0
  · refine ⟨W, ?_, rfl, rfl, rfl, rfl, rfl, ?_⟩
    · unfold timesMatTrans_local
      rw [if_neg h2, if_neg (not_not.mpr hWn), if_pos hm0]
    · intro i hi c _
      simp only [hiopMatrixDense.m] at hm0
      omega
  by_cases hn0 : W.n = 0
  · refine ⟨W, ?_, rfl, rfl, rfl, rfl, rfl, ?_⟩
    · unfold timesMatTrans_local
      rw [if_neg h2, if_neg (not_not.mpr hWn), if_neg hm0, if_pos hn0]
    · intro i _ c hc
      simp only [hiopMatrixDense.n] at hn0
      omega
  by_cases hz : A.n_local = 0
  · by_cases hb : beta = 1
    · refine ⟨W, ?_, rfl, rfl, rfl, rfl, rfl, ?_⟩
      · unfold timesMatTrans_local
        rw [if_neg h2, if_neg (not_not.mpr hWn), if_neg hm0, if_neg hn0, if_pos hz,
          if_neg (not_not.mpr hb)]
      · intro i _ c _
        simp [hz, hb]
    · refine ⟨{ W with M := DSCAL (W.m * W.n) beta W.M 1 }, ?_, rfl, rfl, rfl, rfl, ?_, ?_⟩
      · unfold timesMatTrans_local
        rw [if_neg h2, if_neg (not_not.mpr hWn), if_neg hm0, if_neg hn0, if_pos hz, if_pos hb]
      · simp [DSCAL_length]
      · intro i hi c hc
        simp only [hiopMatrixDense.elem, hz, Finset.range_zero, Finset.sum_empty, mul_zero,
          add_zero]
        apply DSCAL_getD _ _ _ _ _ (hlen i hi c hc)
        simp only [hiopMatrixDense.m, hiopMatrixDense.n, ← hWn]
        exact idx_lt i W.m_local _ c hi hc
  · refine ⟨{ W with M := DGEMM 'T' 'N' X.m A.m_local A.n_local alpha X.M A.n_local
                            A.M A.n_local beta W.M W.n }, ?_, rfl, rfl, rfl, rfl, ?_, ?_⟩
    · unfold timesMatTrans_local
      rw [if_neg h2, if_neg (not_not.mpr hWn), if_neg hm0, if_neg hn0, if_neg hz]
    · simp [DGEMM_length]
    · intro i hi c hc
      have hT : ('T' : Char) ≠ 'N' := by decide
      have hkk : X.m = W.n_local := by simp [hiopMatrixDense.m, ← hk, hWn]
      have hkw : W.n = W.n_local := by simp [hiopMatrixDense.n, hWn]
      simp only [hiopMatrixDense.m, hiopMatrixDense.n] at hm0 hn0
      simp only [hiopMatrixDense.elem]
      rw [hkk, hkw, DGEMM_getD 'T' 'N' W.n_local A.m_local A.n_local alpha beta X.M A.M W.M
        A.n_local A.n_local W.n_local (by omega) (by omega) c i hc (by omega) rfl (hlen i hi c hc)]
      simp only [if_true, if_neg hT, hXn]
      congr 2
      apply Finset.sum_congr rfl
      intro l _
      rw [mul_comm, Nat.add_comm l, Nat.add_comm l]

theorem slabsMat_le (m k n : Nat) (G H : Nat → Nat → R) (W : hiopMatrixDense R)
    (l : List (hiopMatrixDense R × hiopMatrixDense R × hiopMatrixDense R)) :
    ∀ c, slabsMat m k n G H W c l → c ≤ n := by
  induction l with
  | nil => intro c h; simp [slabsMat] at h; omega
  | cons t rest ih =>
    intro c h
    simp only [slabsMat] at h
    have := ih _ h.2.2.2.2.2.2.2.2.2.2.2.2
    omega

theorem slabsMat_mem (m k n : Nat) (G H : Nat → Nat → R) (W : hiopMatrixDense R)
    (l : List (hiopMatrixDense R × hiopMatrixDense R × hiopMatrixDense R)) :
    ∀ c, slabsMat m k n G H W c l → ∀ t ∈ l, t.1.m_local = m ∧ t.2.1 = W ∧
      t.2.2.m_local = k ∧ t.2.2.n_local = t.1.n_local := by
  induction l with
  | nil => intro c _ t ht; simp at ht
  | cons a rest ih =>
    intro c h t ht
    simp only [slabsMat] at h
    rcases List.mem_cons.mp ht with h1 | h1
    · subst h1
      exact ⟨h.2.1, h.2.2.2.2.2.1, h.2.2.2.2.2.2.2.1, h.2.2.2.2.2.2.2.2.2.2.1⟩
    · exact ih _ h.2.2.2.2.2.2.2.2.2.2.2.2 t h1

theorem sum_tail_mat (m k n : Nat) (G H : Nat → Nat → R) (W : hiopMatrixDense R)
    (alpha : R) (l : List (hiopMatrixDense R × hiopMatrixDense R × hiopMatrixDense R))
    (bs : List (hiopMatrixDense R))
    (hF : List.Forall₂ (fun t b => b.M.length = W.M.length ∧ b.n_local = k ∧
      ∀ i < m, ∀ c < k, hiopMatrixDense.elem b i c =
        alpha * ∑ j ∈ Finset.range t.1.n_local, t.1.elem i j * t.2.2.elem c j) l bs) :
    ∀ c0, slabsMat m k n G H W c0 l → ∀ i < m, ∀ c < k,
      ((bs.map fun V => V.M).map fun b => b.getD (i * k + c) 0).sum =
        alpha * ∑ j ∈ Finset.Ico c0 n, G i j * H c j := by
  induction hF with
  | nil =>
    intro c0 h i _ c _
    simp only [slabsMat] at h
    simp [h]
  | @cons t b rest bs1 hP _ ih =>
    intro c0 h i hi c hc
    simp only [slabsMat] at h
    obtain ⟨_, _, _, _, hG, _, _, _, _, _, _, hH, hrest⟩ := h
    have hle := slabsMat_le m k n G H W rest _ hrest
    have h1 : b.M.getD (i * k + c) 0 =
        alpha * ∑ j ∈ Finset.range t.1.n_local, t.1.elem i j * t.2.2.elem c j := by
      have := hP.2.2 i hi c hc
      simp only [hiopMatrixDense.elem, hP.2.1] at this
      exact this
    simp only [List.map_cons, List.sum_cons]
    rw [ih _ hrest i hi c hc, h1,
      ← sum_Ico_split (fun j => G i j * H c j) c0 t.1.n_local n hle, mul_add]
    congr 2
    apply Finset.sum_congr rfl
    intro j hj
    rw [hG i hi j (Finset.mem_range.mp hj), hH c hc j (Finset.mem_range.mp hj)]

/-- C5: `timesMatTrans` computes `W <- beta*W + alpha*M*Xᵀ` independently of
the column partition.  For every number of ranks `P >= 1` holding contiguous
column slabs (possibly empty) of a global `m x n` matrix `G` (as `this`) and
of a global `k x n` matrix `H` (as `X`), split alike, and the same
non-distributed `m x k` matrix `W` on every rank, the collective call
returns and every rank then holds
`W[i][c] = beta*W_old[i][c] + alpha*sum_{j<n} G[i][j]*H[c][j]`; and on a rank
whose local column count is zero `timesMatTrans_local(beta, ...)` returns
exactly `beta*W`. -/
theorem timesMatTrans_partition_independent [DecidableEq R] (deep : Bool) (m k n : Nat)
    (G H : Nat → Nat → R) (W : hiopMatrixDense R)
    (ranks : List (hiopMatrixDense R × hiopMatrixDense R × hiopMatrixDense R)) (beta alpha : R)
    (hP : 1 ≤ ranks.length) (hW : W.wf) (hWm : W.m_local = m) (hWk : W.n_local = k)
    (hWn : W.n_global = k) (hs : slabsMat m k n G H W 0 ranks) :
    (∃ outs, timesMatTrans deep ranks beta alpha = .ok outs ∧ outs.length = ranks.length ∧
      ∀ W1 ∈ outs, W1.m_local = m ∧ W1.n_local = k ∧ ∀ i < m, ∀ c < k,
        W1.elem i c = beta * W.elem i c + alpha * ∑ j ∈ Finset.range n, G i j * H c j) ∧
    (∀ t ∈ ranks, t.1.n_local = 0 →
      ∃ W1, timesMatTrans_local deep t.1 beta t.2.1 alpha t.2.2 = .ok W1 ∧
        ∀ i < m, ∀ c < k, W1.elem i c = beta * W.elem i c) := by
  have hmem := slabsMat_mem m k n G H W _ 0 hs
  -- the local call on any rank of the list, with any scaling factor
  have hlocal : ∀ t ∈ ranks, ∀ b : R, ∃ W1, timesMatTrans_local deep t.1 b t.2.1 alpha t.2.2 = .ok W1 ∧
      W1.m_local = m ∧ W1.n_local = k ∧ W1.n_global = k ∧ W1.M.length = W.M.length ∧
      ∀ i < m, ∀ c < k, W1.elem i c =
        b * W.elem i c + alpha * ∑ j ∈ Finset.range t.1.n_local, t.1.elem i j * t.2.2.elem c j := by
    intro t ht b
    obtain ⟨h1, h2, h3, h4⟩ := hmem t ht
    rw [h2]
    obtain ⟨W1, hr, e1, e2, e3, _, e5, e6⟩ := timesMatTrans_local_spec deep t.1 W t.2.2 b alpha hW
      (by rw [hWk, hWn]) (by rw [hWm, h1]) (by rw [hWn, h3]) h4
    refine ⟨W1, hr, by rw [e1, hWm], by rw [e2, hWk], by rw [e3, hWn], e5, ?_⟩
    intro i hi c hc
    exact e6 i (by omega) c (by omega)
  refine ⟨?_, ?_⟩
  · cases ranks with
    | nil => simp at hP
    | cons t0 rest =>
      simp only [slabsMat] at hs
      obtain ⟨_, _, _, _, hG0, hW0, _, _, _, _, _, hH0, hrest⟩ := hs
      have hnd : ∀ t ∈ t0 :: rest, ¬ (deep = true ∧ ¬ (t.2.1.n_local = t.2.1.n_global)) := by
        intro t ht
        rintro ⟨_, hne⟩
        exact hne (by rw [(hmem t ht).2.1, hWk, hWn])
      obtain ⟨b0, hb0, _, hb0k, _, hb0len, hb0v⟩ := hlocal t0 (List.mem_cons_self _ _) beta
      obtain ⟨bs, hbs, hF⟩ := onRanks_forall₂
        (fun myrank (t : hiopMatrixDense R × hiopMatrixDense R × hiopMatrixDense R) =>
          if deep ∧ ¬ (t.2.1.n_local = t.2.1.n_global) then .error .assertion
          else if 0 = myrank then timesMatTrans_local deep t.1 beta t.2.1 alpha t.2.2
          else timesMatTrans_local deep t.1 0 t.2.1 alpha t.2.2)
        (fun t b => b.M.length = W.M.length ∧ b.n_local = k ∧
          ∀ i < m, ∀ c < k, hiopMatrixDense.elem b i c =
            alpha * ∑ j ∈ Finset.range t.1.n_local, t.1.elem i j * t.2.2.elem c j)
        rest 1 1 (le_refl 1) (by
          intro t ht q hq
          obtain ⟨b, hb, _, hbk, _, hblen, hbv⟩ := hlocal t (List.mem_cons_of_mem _ ht) 0
          refine ⟨b, ?_, hblen, hbk, fun i hi c hc => ?_⟩
          · have hq0 : ¬ (0 = q) := by omega
            dsimp only
            rw [if_neg (hnd t (List.mem_cons_of_mem _ ht)), if_neg hq0]
            exact hb
          · simpa using hbv i hi c hc)
      have hloc : onRanks
          (fun myrank (t : hiopMatrixDense R × hiopMatrixDense R × hiopMatrixDense R) =>
          if deep ∧ ¬ (t.2.1.n_local = t.2.1.n_global) then .error .assertion
          else if 0 = myrank then timesMatTrans_local deep t.1 beta t.2.1 alpha t.2.2
          else timesMatTrans_local deep t.1 0 t.2.1 alpha t.2.2) 0 (t0 :: rest) =
          .ok (b0 :: bs) := by
        simp only [onRanks, if_neg (hnd t0 (List.mem_cons_self _ _)), if_true, hb0]
        simp only [Nat.zero_add, hbs]
      have hsum : ∀ i < m, ∀ c < k,
          (((b0 :: bs).map fun V => V.M).map fun b => b.getD (i * k + c) 0).sum =
          beta * W.elem i c + alpha * ∑ j ∈ Finset.range n, G i j * H c j := by
        intro i hi c hc
        have h1 := sum_tail_mat m k n G H W alpha rest bs hF _ hrest i hi c hc
        have h2 : b0.M.getD (i * k + c) 0 = beta * W.elem i c +
            alpha * ∑ j ∈ Finset.range t0.1.n_local, t0.1.elem i j * t0.2.2.elem c j := by
          have := hb0v i hi c hc
          simp only [hiopMatrixDense.elem, hb0k] at this
          exact this
        have hle := slabsMat_le m k n G H W rest _ hrest
        simp only [List.map_cons, List.sum_cons]
        rw [h1, h2, show Finset.range n = Finset.Ico 0 n from by rw [Finset.range_eq_Ico],
          ← sum_Ico_split (fun j => G i j * H c j) 0 t0.1.n_local n hle, mul_add, add_assoc]
        congr 3
        apply Finset.sum_congr rfl
        intro j hj
        rw [hG0 i hi j (by simpa using hj), hH0 c hc j (by simpa using hj)]
      have hprop : ∀ b ∈ b0 :: bs, b.m_local = m ∧ b.n_local = k ∧ b.n_global = k ∧
          b.M.length = W.M.length := by
        intro b hb
        have hall : List.Forall₂ (fun (t : hiopMatrixDense R × hiopMatrixDense R ×
            hiopMatrixDense R) (b : hiopMatrixDense R) => b.m_local = m ∧ b.n_local = k ∧
            b.n_global = k ∧ b.M.length = W.M.length) (t0 :: rest) (b0 :: bs) := by
          obtain ⟨bs', hbs', hF'⟩ := onRanks_forall₂
            (fun myrank (t : hiopMatrixDense R × hiopMatrixDense R × hiopMatrixDense R) =>
              if deep ∧ ¬ (t.2.1.n_local = t.2.1.n_global) then .error .assertion
              else if 0 = myrank then timesMatTrans_local deep t.1 beta t.2.1 alpha t.2.2
              else timesMatTrans_local deep t.1 0 t.2.1 alpha t.2.2)
            (fun _ b => b.m_local = m ∧ b.n_local = k ∧ b.n_global = k ∧
              b.M.length = W.M.length)
            (t0 :: rest) 0 0 (le_refl 0) (by
              intro t ht q _
              dsimp only
              rw [if_neg (hnd t ht)]
              by_cases hq : 0 = q
              · rw [if_pos hq]
                obtain ⟨b, hb, e1, e2, e3, e4, _⟩ := hlocal t ht beta
                exact ⟨b, hb, e1, e2, e3, e4⟩
              · rw [if_neg hq]
                obtain ⟨b, hb, e1, e2, e3, e4, _⟩ := hlocal t ht 0
                exact ⟨b, hb, e1, e2, e3, e4⟩)
          rw [hloc] at hbs'
          cases hbs'
          exact hF'
        obtain ⟨_, _, h⟩ := forall₂_mem_right _ _ _ hall b hb
        exact h
      obtain ⟨outs, houts, hF2⟩ := onRanks_forall₂
        (fun _ (V : hiopMatrixDense R) =>
          match memcpy V.M 0
            (MPI_Allreduce_SUM ((b0 :: bs).map fun V => V.M) (V.m * V.n)) 0 (V.m * V.n) with
          | .error e => .error e
          | .ok d => (.ok { V with M := d } : Except Abort (hiopMatrixDense R)))
        (fun _ W1 => W1.m_local = m ∧ W1.n_local = k ∧ ∀ i < m, ∀ c < k,
          W1.elem i c = beta * W.elem i c + alpha * ∑ j ∈ Finset.range n, G i j * H c j)
        (b0 :: bs) 0 0 (le_refl 0) (by
          intro V hV q _
          obtain ⟨e1, e2, e3, e4⟩ := hprop V hV
          have hmk : V.m * V.n = m * k := by simp only [hiopMatrixDense.m, hiopMatrixDense.n, e1, e3]
          have hfit : m * k ≤ V.M.length := by
            rw [e4, hW.1, hWk]
            exact Nat.mul_le_mul_right _ (hWm ▸ hW.2.1)
          dsimp only
          rw [hmk, memcpy_ok _ _ _ _ _ (by omega) (by simp [MPI_Allreduce_SUM])]
          refine ⟨_, rfl, e1, e2, ?_⟩
          intro i hi c hc
          have hlt := idx_lt i m k c hi hc
          simp only [hiopMatrixDense.elem, e2, getD_map_range, lt_of_lt_of_le hlt hfit, hlt,
            if_true, Nat.zero_le, true_and, Nat.zero_add, Nat.sub_zero]
          rw [allreduce_getD _ _ _ hlt]
          exact hsum i hi c hc)
      refine ⟨outs, ?_, ?_, ?_⟩
      · simp only [timesMatTrans, hloc, allreduceW]
        exact houts
      · rw [← hF2.length_eq]
        have := hF.length_eq
        simp [this]
      · intro W1 hW1
        obtain ⟨_, _, h⟩ := forall₂_mem_right _ _ _ hF2 W1 hW1
        exact h
  · intro t ht hz
    obtain ⟨W1, hr, _, _, _, _, hv⟩ := hlocal t ht beta
    refine ⟨W1, hr, fun i hi c hc => ?_⟩
    rw [hv i hi c hc, hz]
    simp

/-- Witness of C5: with `M = X = [[1,2],[3,4],[5,6]]` split over three ranks
(the middle one empty), `W` the matrix of ones, `beta = 10` and `alpha = 1`,
every rank ends with `M*Mᵀ + 10 = [[15,21,27],[21,35,49],[27,49,71]]`. -/
theorem timesMatTrans_partition_independent_witness :
    timesMatTrans true exRanksMatTrans 10 1 =
      .ok [⟨3, 3, 3, 0, 3, 3, [15, 21, 27, 21, 35, 49, 27, 49, 71]⟩,
           ⟨3, 3, 3, 0, 3, 3, [15, 21, 27, 21, 35, 49, 27, 49, 71]⟩,
           ⟨3, 3, 3, 0, 3, 3, [15, 21, 27, 21, 35, 49, 27, 49, 71]⟩] ∧
    1 ≤ exRanksMatTrans.length ∧ exOnes33.wf ∧ slabsMat 3 3 2 exG exG exOnes33 0 exRanksMatTrans ∧
    ((∃ outs, timesMatTrans true exRanksMatTrans 10 1 = .ok outs ∧
        outs.length = exRanksMatTrans.length ∧
        ∀ W1 ∈ outs, W1.m_local = 3 ∧ W1.n_local = 3 ∧ ∀ i < 3, ∀ c < 3,
          W1.elem i c = 10 * exOnes33.elem i c + 1 * ∑ j ∈ Finset.range 2, exG i j * exG c j) ∧
      (∀ t ∈ exRanksMatTrans, t.1.n_local = 0 →
        ∃ W1, timesMatTrans_local true t.1 10 t.2.1 1 t.2.2 = .ok W1 ∧
          ∀ i < 3, ∀ c < 3, W1.elem i c = 10 * exOnes33.elem i c)) :=
  ⟨rfl, by decide, by simp only [hiopMatrixDense.wf]; decide,
    by simp only [slabsMat, hiopMatrixDense.wf]; and_intros <;> decide,
    timesMatTrans_partition_independent true 3 3 2 exG exG exOnes33 exRanksMatTrans 10 1
      (by decide) (by simp only [hiopMatrixDense.wf]; decide) rfl rfl rfl
      (by simp only [slabsMat, hiopMatrixDense.wf]; and_intros <;> decide)⟩

theorem getD_of_length_le (l : List R) (p : Nat) (h : l.length ≤ p) : l.getD p 0 = 0 := by
  simp [List.getD_eq_getElem?_getD, List.getElem?_eq_none h]

theorem memcpy_spec (dst : List R) (d : Nat) (src : List R) (s len : Nat)
    (h1 : d + len ≤ dst.length) (h2 : s + len ≤ src.length) :
    ∃ b, memcpy dst d src s len = .ok b ∧ b.length = dst.length ∧
      ∀ p, b.getD p 0 =
        if d ≤ p ∧ p < d + len then src.getD (s + (p - d)) 0 else dst.getD p 0 := by
  refine ⟨_, memcpy_ok dst d src s len h1 h2, by simp, fun p => ?_⟩
  rw [getD_map_range]
  by_cases hp : p < dst.length
  · rw [if_pos hp]
  · have c : ¬ (d ≤ p ∧ p < d + len) := by omega
    rw [if_neg hp, if_neg c, getD_of_length_le _ _ (Nat.le_of_not_lt hp)]

theorem shiftRowsUp_spec (n s : Nat) : ∀ (cnt row : Nat) (buf : List R),
    (row + cnt + s) * n ≤ buf.length →
    ∃ buf1, shiftRowsUp n s cnt row buf = .ok buf1 ∧ buf1.length = buf.length ∧
      ∀ p, buf1.getD p 0 =
        if row * n ≤ p ∧ p < (row + cnt) * n then buf.getD (p + s * n) 0 else buf.getD p 0 := by
  intro cnt
  induction cnt with
  | zero =>
    intro row buf _
    refine ⟨buf, rfl, rfl, fun p => ?_⟩
    have : ¬ (row * n ≤ p ∧ p < (row + 0) * n) := by rw [Nat.add_zero]; omega
    rw [if_neg this]
  | succ cnt ih =>
    intro row buf hlen
    have e1 : (row + (cnt + 1) + s) * n = (row + s) * n + n + cnt * n := by ring
    have e2 : (row + s) * n = row * n + s * n := by ring
    have e3 : (row + (cnt + 1)) * n = row * n + n + cnt * n := by ring
    have e4 : (row + 1 + cnt + s) * n = (row + s) * n + n + cnt * n := by ring
    have e5 : (row + 1) * n = row * n + n := by ring
    have e6 : (row + 1 + cnt) * n = row * n + n + cnt * n := by ring
    obtain ⟨b0, hm, hb0l, hb0v⟩ :=
      memcpy_spec buf (row * n) buf ((row + s) * n) n (by omega) (by omega)
    obtain ⟨buf1, hr, hl, hv⟩ := ih (row + 1) b0 (by rw [hb0l, e4]; omega)
    refine ⟨buf1, ?_, ?_, fun p => ?_⟩
    · simp only [shiftRowsUp, hm]
      exact hr
    · rw [hl, hb0l]
    · rw [hv p]
      by_cases h1 : row * n ≤ p ∧ p < row * n + n
      · have c1 : ¬ ((row + 1) * n ≤ p ∧ p < (row + 1 + cnt) * n) := by omega
        have c2 : row * n ≤ p ∧ p < (row + (cnt + 1)) * n := by omega
        rw [if_neg c1, hb0v p, if_pos h1, if_pos c2]
        congr 1
        omega
      · by_cases h2 : (row + 1) * n ≤ p ∧ p < (row + 1 + cnt) * n
        · have c2 : row * n ≤ p ∧ p < (row + (cnt + 1)) * n := by omega
          have c4 : ¬ (row * n ≤ p + s * n ∧ p + s * n < row * n + n) := by omega
          rw [if_pos h2, hb0v, if_neg c4, if_pos c2]
        · have c2 : ¬ (row * n ≤ p ∧ p < (row + (cnt + 1)) * n) := by omega
          rw [if_neg h2, hb0v p, if_neg h1, if_neg c2]

theorem shiftRowsDown_spec (n s : Nat) : ∀ (cnt : Nat) (buf : List R),
    (s + cnt) * n ≤ buf.length →
    ∃ buf1, shiftRowsDown n s cnt buf = .ok buf1 ∧ buf1.length = buf.length ∧
      ∀ p, buf1.getD p 0 =
        if s * n ≤ p ∧ p < (s + cnt) * n then buf.getD (p - s * n) 0 else buf.getD p 0 := by
  intro cnt
  induction cnt with
  | zero =>
    intro buf _
    refine ⟨buf, rfl, rfl, fun p => ?_⟩
    have : ¬ (s * n ≤ p ∧ p < (s + 0) * n) := by rw [Nat.add_zero]; omega
    rw [if_neg this]
  | succ cnt ih =>
    intro buf hlen
    have e1 : (s + (cnt + 1)) * n = s * n + cnt * n + n := by ring
    have e2 : (s + cnt) * n = s * n + cnt * n := by ring
    obtain ⟨b0, hm, hb0l, hb0v⟩ :=
      memcpy_spec buf ((s + cnt) * n) buf (cnt * n) n (by omega) (by omega)
    obtain ⟨buf1, hr, hl, hv⟩ := ih b0 (by rw [hb0l]; omega)
    refine ⟨buf1, ?_, ?_, fun p => ?_⟩
    · simp only [shiftRowsDown, hm]
      exact hr
    · rw [hl, hb0l]
    · rw [hv p]
      by_cases h1 : (s + cnt) * n ≤ p ∧ p < (s + cnt) * n + n
      · have c1 : ¬ (s * n ≤ p ∧ p < (s + cnt) * n) := by omega
        have c2 : s * n ≤ p ∧ p < (s + (cnt + 1)) * n := by omega
        rw [if_neg c1, hb0v p, if_pos h1, if_pos c2]
        congr 1
        omega
      · by_cases h2 : s * n ≤ p ∧ p < (s + cnt) * n
        · have c2 : s * n ≤ p ∧ p < (s + (cnt + 1)) * n := by omega
          have c4 : ¬ ((s + cnt) * n ≤ p - s * n ∧ p - s * n < (s + cnt) * n + n) := by omega
          rw [if_pos h2, hb0v, if_neg c4, if_pos c2]
        · have c2 : ¬ (s * n ≤ p ∧ p < (s + (cnt + 1)) * n) := by omega
          rw [if_neg h2, hb0v p, if_neg h1, if_neg c2]

theorem shiftRows_deep_ok [DecidableEq R] (A A1 : hiopMatrixDense R) (shift : Int)
    (h : shiftRows true A shift = .ok A1) : shiftRows false A shift = .ok A1 := by
  unfold shiftRows at h ⊢
  by_cases h1 : shift = 0
  · rw [if_pos h1] at h ⊢; exact h
  rw [if_neg h1] at h ⊢
  by_cases h2 : -shift = (A.m_local : Int)
  · rw [if_pos h2] at h ⊢; exact h
  rw [if_neg h2] at h ⊢
  by_cases h3 : ¬ (|shift| < (A.m_local : Int))
  · rw [if_pos h3] at h; cases h
  rw [if_neg h3] at h ⊢
  simp only [if_true, Bool.false_eq_true, if_false] at h ⊢
  split at h
  · cases h
  · cases h
  · split at h
    · cases h
    · split at h
      · cases h
      · split at h
        · cases h
        · split at h
          · cases h
          · split at h
            · cases h
            · exact h

/-- The plain build of `shiftRows` for a legal shift: it returns, and the
rows still in range have moved. -/
theorem shiftRows_plain [DecidableEq R] (A : hiopMatrixDense R) (shift : Int) (hA : A.wf)
    (h0 : 0 < |shift|) (hlt : |shift| < (A.m_local : Int)) :
    ∃ A1, shiftRows false A shift = .ok A1 ∧
      A1.m_local = A.m_local ∧ A1.n_local = A.n_local ∧ A1.n_global = A.n_global ∧
      A1.glob_jl = A.glob_jl ∧ A1.glob_ju = A.glob_ju ∧ A1.max_rows = A.max_rows ∧
      A1.M.length = A.M.length ∧
      ∀ i : Nat, i < A.m_local → 0 ≤ (i : Int) - shift → (i : Int) - shift < A.m_local →
        ∀ j < A.n_local, A1.elem i j = A.elem ((i : Int) - shift).toNat j := by
  have h1 : ¬ shift = 0 := by
    intro h; rw [h] at h0; simp at h0
  have h2 : ¬ (-shift = (A.m_local : Int)) := by
    intro h
    have := abs_neg shift
    rw [h] at this
    rw [← this, abs_of_nonneg (Int.ofNat_nonneg _)] at hlt
    omega
  have h3 : ¬ ¬ (|shift| < (A.m_local : Int)) := not_not.mpr hlt
  have hfit : A.m_local * A.n_local ≤ A.M.length := by
    rw [hA.1]; exact Nat.mul_le_mul_right _ hA.2.1
  by_cases hneg : shift < 0
  · have hs : ((-shift).toNat : Int) = -shift := Int.toNat_of_nonneg (by omega)
    have habs : |shift| = -shift := abs_of_neg hneg
    have hsm : (-shift).toNat < A.m_local := by omega
    obtain ⟨buf, hr, hl, hv⟩ := shiftRowsUp_spec A.n_local (-shift).toNat
      (A.m_local - (-shift).toNat) 0 A.M (by
        rw [Nat.zero_add, Nat.sub_add_cancel (le_of_lt hsm)]; exact hfit)
    refine ⟨{ A with M := buf }, ?_, rfl, rfl, rfl, rfl, rfl, rfl, hl, ?_⟩
    · unfold shiftRows
      rw [if_neg h1, if_neg h2, if_neg h3]
      simp only [Bool.false_eq_true, if_false, if_pos hneg, hr]
    · intro i hi hlo hhi j hj
      have hi2 : i + (-shift).toNat < A.m_local := by omega
      have e : ((i : Int) - shift).toNat = i + (-shift).toNat := by omega
      simp only [hiopMatrixDense.elem]
      rw [hv, e, Nat.zero_mul, Nat.zero_add]
      have c : 0 ≤ i * A.n_local + j ∧
          i * A.n_local + j < (A.m_local - (-shift).toNat) * A.n_local :=
        ⟨Nat.zero_le _, idx_lt i _ _ j (by omega) hj⟩
      rw [if_pos c]
      congr 1
      ring
  · have hpos : 0 < shift := by omega
    have hs : (shift.toNat : Int) = shift := Int.toNat_of_nonneg (by omega)
    have habs : |shift| = shift := abs_of_pos hpos
    have hsm : shift.toNat < A.m_local := by omega
    obtain ⟨buf, hr, hl, hv⟩ := shiftRowsDown_spec A.n_local shift.toNat
      (A.m_local - shift.toNat) A.M (by
        rw [Nat.add_sub_cancel' (le_of_lt hsm)]; exact hfit)
    refine ⟨{ A with M := buf }, ?_, rfl, rfl, rfl, rfl, rfl, rfl, hl, ?_⟩
    · unfold shiftRows
      rw [if_neg h1, if_neg h2, if_neg h3]
      simp only [Bool.false_eq_true, if_false, if_neg hneg, hr]
    · intro i hi hlo hhi j hj
      have hi2 : shift.toNat ≤ i := by omega
      have e : ((i : Int) - shift).toNat = i - shift.toNat := by omega
      simp only [hiopMatrixDense.elem]
      rw [hv, e, Nat.add_sub_cancel' (le_of_lt hsm)]
      have c : shift.toNat * A.n_local ≤ i * A.n_local + j ∧
          i * A.n_local + j < A.m_local * A.n_local :=
        ⟨le_trans (Nat.mul_le_mul_right _ hi2) (Nat.le_add_right _ _), idx_lt i _ _ j hi hj⟩
      rw [if_pos c]
      congr 1
      rw [Nat.sub_mul]
      have := Nat.mul_le_mul_right A.n_local hi2
      omega

/-- C8: `shiftRows` moves the row window without overlap corruption.  For
every matrix and every shift with `0 < |shift| < m_local` the call returns
(plain build), and whenever it returns (in either build) the shape is
unchanged and, for every row index `i < m_local` with
`0 <= i - shift < m_local`, row `i` holds the `n_local` elements that row
`i - shift` held before the call. -/
theorem shiftRows_moves_rows [DecidableEq R] (A : hiopMatrixDense R) (shift : Int) (hA : A.wf)
    (h0 : 0 < |shift|) (hlt : |shift| < (A.m_local : Int)) :
    (∃ A1, shiftRows false A shift = .ok A1) ∧
    ∀ (deep : Bool) (A1 : hiopMatrixDense R), shiftRows deep A shift = .ok A1 →
      A1.m_local = A.m_local ∧ A1.n_local = A.n_local ∧ A1.max_rows = A.max_rows ∧
      A1.M.length = A.M.length ∧
      ∀ i : Nat, i < A.m_local → 0 ≤ (i : Int) - shift → (i : Int) - shift < A.m_local →
        ∀ j < A.n_local, A1.elem i j = A.elem ((i : Int) - shift).toNat j := by
  obtain ⟨A0, hr, e1, e2, _, _, _, e3, e4, hv⟩ := shiftRows_plain A shift hA h0 hlt
  refine ⟨⟨A0, hr⟩, ?_⟩
  intro deep A1 h
  have h' : shiftRows false A shift = .ok A1 := by
    cases deep
    · exact h
    · exact shiftRows_deep_ok A A1 shift h
  rw [hr] at h'
  cases h'
  exact ⟨e1, e2, e3, e4, hv⟩

/-- Witness of C8: on `[[1,2],[3,4],[5,6]]`, `shiftRows(1)` gives
`[[1,2],[1,2],[3,4]]` and `shiftRows(-1)` gives `[[3,4],[5,6],[5,6]]` (the
latter in both builds). -/
theorem shiftRows_moves_rows_witness :
    shiftRows false exM 1 = .ok ⟨3, 2, 2, 0, 2, 3, [1, 2, 1, 2, 3, 4]⟩ ∧
    shiftRows false exM (-1) = .ok ⟨3, 2, 2, 0, 2, 3, [3, 4, 5, 6, 5, 6]⟩ ∧
    shiftRows true exM (-1) = .ok ⟨3, 2, 2, 0, 2, 3, [3, 4, 5, 6, 5, 6]⟩ ∧
    exM.wf ∧ (0 : Int) < |1| ∧ |1| < (exM.m_local : Int) ∧
    ((∃ A1, shiftRows false exM 1 = .ok A1) ∧
      ∀ (deep : Bool) (A1 : hiopMatrixDense ℤ), shiftRows deep exM 1 = .ok A1 →
        A1.m_local = exM.m_local ∧ A1.n_local = exM.n_local ∧ A1.max_rows = exM.max_rows ∧
        A1.M.length = exM.M.length ∧
        ∀ i : Nat, i < exM.m_local → 0 ≤ (i : Int) - 1 → (i : Int) - 1 < exM.m_local →
          ∀ j < exM.n_local, A1.elem i j = exM.elem ((i : Int) - 1).toNat j) :=
  ⟨rfl, rfl, rfl, by simp only [hiopMatrixDense.wf]; decide, by decide, by decide,
    shiftRows_moves_rows exM 1 (by simp only [hiopMatrixDense.wf]; decide) (by decide)
      (by decide)⟩

/-- A shift by `+m_local` on a matrix with at least one row fails the
assertion `fabs(shift) < m_local`, in both builds. -/
theorem shiftRows_plus_rows_asserts [DecidableEq R] (deep : Bool) (A : hiopMatrixDense R)
    (hm : 0 < A.m_local) : shiftRows deep A (A.m_local : Int) = .error .assertion := by
  have h1 : ¬ ((A.m_local : Int) = 0) := by omega
  have h2 : ¬ (-(A.m_local : Int) = (A.m_local : Int)) := by omega
  have h3 : ¬ (|(A.m_local : Int)| < (A.m_local : Int)) := by
    rw [abs_of_nonneg (Int.ofNat_nonneg _)]; omega
  unfold shiftRows
  rw [if_neg h1, if_neg h2, if_pos h3]

/-- C9, counterexample: on the matrix `[[1,2],[3,4],[5,6]]` (3 rows) the
call `shiftRows(3)`, a shift by `+rowsLocal`, does not return normally: it
fails the assertion `fabs(shift) < m_local` in both builds. -/
theorem shiftRows_plus_rows_not_noop :
    shiftRows false exM (exM.m_local : Int) = .error .assertion ∧
    shiftRows true exM (exM.m_local : Int) = .error .assertion ∧
    ¬ (shiftRows false exM (exM.m_local : Int) = .ok exM) :=
  ⟨rfl, rfl, by rw [show shiftRows false exM (exM.m_local : Int) = .error .assertion from rfl]
                simp⟩

/-- C9, as amended: `shiftRows(0)` and `shiftRows(-rowsLocal)` are no-ops:
for every matrix and in both builds each of the two calls returns normally
with the matrix as it was (every stored element and `m_local` unchanged). -/
theorem shiftRows_noop [DecidableEq R] (deep : Bool) (A : hiopMatrixDense R) :
    shiftRows deep A 0 = .ok A ∧ shiftRows deep A (-(A.m_local : Int)) = .ok A := by
  constructor
  · unfold shiftRows
    rw [if_pos rfl]
  · unfold shiftRows
    by_cases h : -(A.m_local : Int) = 0
    · rw [if_pos h]
    · rw [if_neg h, if_pos (neg_neg _)]

/-- C10: `appendRow` adds exactly one row.  For every matrix with
`m_local < max_rows` and every row vector of width `n_local`, in both builds
the call returns a matrix with `m_local + 1` rows whose row `m_local` holds
the given vector, whose rows `0 .. m_local - 1` are unchanged and whose
`max_rows`, `n_local` and block size are unchanged. -/
theorem appendRow_adds_one_row (deep : Bool) (A : hiopMatrixDense R) (row : hiopVectorPar R)
    (hA : A.wf) (hcap : A.m_local < A.max_rows) (hrow : row.get_local_size = A.n_local) :
    ∃ A1, appendRow deep A row = .ok A1 ∧
      A1.m_local = A.m_local + 1 ∧ A1.max_rows = A.max_rows ∧ A1.n_local = A.n_local ∧
      A1.n_global = A.n_global ∧ A1.wf ∧
      (∀ j < A.n_local, A1.elem A.m_local j = row.elem j) ∧
      (∀ i < A.m_local, ∀ j < A.n_local, A1.elem i j = A.elem i j) := by
  have hfit : A.m_local * A.n_local + A.n_local ≤ A.M.length := by
    rw [hA.1]
    have := Nat.mul_le_mul_right A.n_local hcap
    rw [Nat.succ_mul] at this
    exact this
  obtain ⟨buf, hm, hl, hv⟩ := memcpy_spec A.M (A.m_local * A.n_local) row.data 0 A.n_local hfit
    (by rw [Nat.zero_add]; exact le_of_eq hrow.symm)
  refine ⟨{ A with M := buf, m_local := A.m_local + 1 }, ?_, rfl, rfl, rfl, rfl, ?_, ?_, ?_⟩
  · unfold appendRow
    rw [if_neg (by rintro ⟨_, h⟩; exact h hrow), if_neg (by rintro ⟨_, h⟩; exact h hcap),
      if_neg (by rw [if_neg (by omega)]; exact not_not.mpr hcap), hm]
  · exact ⟨by rw [hl]; exact hA.1, hcap, hA.2.2.1, hA.2.2.2⟩
  · intro j hj
    simp only [hiopMatrixDense.elem, hiopVectorPar.elem]
    rw [hv, if_pos ⟨Nat.le_add_right _ _, by omega⟩]
    congr 1
    omega
  · intro i hi j hj
    simp only [hiopMatrixDense.elem]
    have := idx_lt i A.m_local A.n_local j hi hj
    rw [hv, if_neg (by omega)]

/-- Witness of C10: appending `[7,8]` to `[[1,2],[3,4]]` (capacity 3) gives
`[[1,2],[3,4],[7,8]]`. -/
theorem appendRow_adds_one_row_witness :
    appendRow true exCap exRow = .ok ⟨3, 2, 2, 0, 2, 3, [1, 2, 3, 4, 7, 8]⟩ ∧
    appendRow false exCap exRow = .ok ⟨3, 2, 2, 0, 2, 3, [1, 2, 3, 4, 7, 8]⟩ ∧
    exCap.wf ∧ exCap.m_local < exCap.max_rows ∧ exRow.get_local_size = exCap.n_local ∧
    ∃ A1, appendRow true exCap exRow = .ok A1 ∧
      A1.m_local = exCap.m_local + 1 ∧ A1.max_rows = exCap.max_rows ∧
      A1.n_local = exCap.n_local ∧ A1.n_global = exCap.n_global ∧ A1.wf ∧
      (∀ j < exCap.n_local, A1.elem exCap.m_local j = exRow.elem j) ∧
      (∀ i < exCap.m_local, ∀ j < exCap.n_local, A1.elem i j = exCap.elem i j) :=
  ⟨rfl, rfl, by simp only [hiopMatrixDense.wf]; decide, by decide, rfl,
    appendRow_adds_one_row true exCap exRow (by simp only [hiopMatrixDense.wf]; decide)
      (by decide) rfl⟩

/-- C11, counterexample: in the build without `DEEP_CHECKING` the call
`appendRow` on a full matrix reports no contract violation and can store the
row.  The matrix with no row, no column and no row capacity is full; the
call copies no element through `M[0]` and returns with `m_local = 1`, above
`max_rows = 0`.  On the full matrix `[[1,2],[3,4],[5,6]]` (capacity 3) the
call goes on to the copy through `M[m_local]`, one past the row pointers,
without an assertion. -/
theorem appendRow_full_unchecked :
    exEmpty.wf ∧ exEmpty.m_local = exEmpty.max_rows ∧
    appendRow false exEmpty ⟨0, []⟩ = .ok ⟨1, 0, 0, 0, 0, 0, []⟩ ∧
    ¬ ((1 : Nat) ≤ exEmpty.max_rows) ∧
    exM.m_local = exM.max_rows ∧ appendRow false exM exRow = .error .memory ∧
    ¬ (appendRow false exM exRow = .error .assertion) :=
  ⟨by simp only [hiopMatrixDense.wf]; decide, rfl, rfl, by decide, rfl, rfl,
    by rw [show appendRow false exM exRow = .error .memory from rfl]; simp⟩

/-- C11, as amended: in the `DEEP_CHECKING` build `appendRow` fails when the
matrix is full: for every matrix with `m_local == max_rows` it stops at an
assertion instead of storing the row.  In the build without `DEEP_CHECKING`
there is no check and no contract violation is reported: the call goes on to
the copy, which is a memory fault when the matrix has a column, and which
returns with `m_local = 1 > max_rows = 0` when the matrix has neither a
column nor a row capacity. -/
theorem appendRow_full (A : hiopMatrixDense R) (row : hiopVectorPar R) (hA : A.wf)
    (hfull : A.m_local = A.max_rows) :
    appendRow true A row = .error .assertion ∧
    ¬ (appendRow false A row = .error .assertion) ∧
    (0 < A.n_local → appendRow false A row = .error .memory) ∧
    (A.max_rows = 0 → A.n_local = 0 →
      appendRow false A row = .ok { A with m_local := 1 }) := by
  have h : ¬ (A.m_local < A.max_rows) := by omega
  have hplain : appendRow false A row =
      if ¬ (A.m_local < (if A.max_rows = 0 then 1 else A.max_rows)) then .error .memory
      else
        match memcpy A.M (A.m_local * A.n_local) row.data 0 A.n_local with
        | .error e => .error e
        | .ok buf => .ok { A with M := buf, m_local := A.m_local + 1 } := by
    unfold appendRow
    rw [if_neg (by rintro ⟨h2, _⟩; cases h2), if_neg (by rintro ⟨h2, _⟩; cases h2)]
  have hmem : 0 < A.max_rows ∨ 0 < A.n_local → appendRow false A row = .error .memory := by
    intro hpos
    rw [hplain]
    by_cases h0 : A.max_rows = 0
    · have hn : 0 < A.n_local := by omega
      have hlen : A.M.length = 0 := by rw [hA.1, h0, Nat.zero_mul]
      rw [if_neg (by rw [if_pos h0]; omega)]
      unfold memcpy
      rw [if_neg (by rintro ⟨h1, _⟩; omega)]
    · rw [if_pos (by rw [if_neg h0]; exact h)]
  have hret : A.max_rows = 0 → A.n_local = 0 →
      appendRow false A row = .ok { A with m_local := 1 } := by
    intro h0 hn
    have hlen : A.M.length = 0 := by rw [hA.1, h0, Nat.zero_mul]
    have hM : A.M = [] := List.length_eq_zero.mp hlen
    have hm0 : A.m_local = 0 := by omega
    have hcpy : memcpy A.M (A.m_local * A.n_local) row.data 0 A.n_local = .ok A.M := by
      rw [memcpy_ok _ _ _ _ _ (by rw [hm0, hn]; omega) (by omega)]
      simp [hM]
    rw [hplain, if_neg (by rw [if_pos h0]; omega), hcpy, hm0]
  refine ⟨?_, ?_, fun hpos => hmem (Or.inr hpos), hret⟩
  · unfold appendRow
    by_cases h1 : row.get_local_size = A.n_local
    · rw [if_neg (by rintro ⟨_, h2⟩; exact h2 h1), if_pos ⟨rfl, h⟩]
    · rw [if_pos ⟨rfl, h1⟩]
  · by_cases hpos : 0 < A.max_rows ∨ 0 < A.n_local
    · rw [hmem hpos]
      intro hc
      cases hc
    · rw [hret (by omega) (by omega)]
      intro hc
      cases hc

/-- Witness of C11 (amended): the full matrix `[[1,2],[3,4],[5,6]]`. -/
theorem appendRow_full_witness :
    exM.wf ∧ exM.m_local = exM.max_rows ∧
    appendRow true exM exRow = .error .assertion ∧
    ¬ (appendRow false exM exRow = .error .assertion) ∧
    (0 < exM.n_local → appendRow false exM exRow = .error .memory) ∧
    (exM.max_rows = 0 → exM.n_local = 0 →
      appendRow false exM exRow = .ok { exM with m_local := 1 }) :=
  ⟨by simp only [hiopMatrixDense.wf]; decide, rfl,
    appendRow_full exM exRow (by simp only [hiopMatrixDense.wf]; decide) rfl⟩

theorem toInt32_eq (x : Int) (h0 : -2147483648 ≤ x) (h1 : x < 2147483648) : toInt32 x = x := by
  unfold toInt32
  omega

/-- C12, counterexample: the row count is stored in an `int`.  For
`rows = 2^32 + 1` and two columns the constructor succeeds with
`m_local = 1` and, by default, `max_rows = 1`; with the explicit capacity
`5`, which is below `rows`, it succeeds as well. -/
theorem new_narrows_rows :
    (0 : Int) ≤ 4294967297 ∧
    (hiopMatrixDense.new 4294967297 2 none 0 (-1) : Except Abort (hiopMatrixDenseObj ℤ)) =
      .ok ⟨1, 2, 2, 0, 2, 1, [0, 0]⟩ ∧
    ¬ ((4294967297 : Int) ≤ 5) ∧
    (hiopMatrixDense.new 4294967297 0 none 0 5 : Except Abort (hiopMatrixDenseObj ℤ)) =
      .ok ⟨1, 0, 0, 0, 0, 5, []⟩ :=
  ⟨by decide, rfl, by decide, rfl⟩

/-- C12, as amended: construction fixes the row capacity and validates it,
for a row count and a local column count that fit an `int` and a block whose
size fits an `int`.  Let `0 <= m < 2^31`, let the rank read the cut points
`jl <= ju` with `ju - jl < 2^31` (`0` and `glob_n` without a partition).
With the `-1` default the constructor succeeds with `max_rows = m`; with an
explicit capacity `c < 2^31` it succeeds iff `c >= m`, and every explicit
`c < m` stops at the assertion.  On success `max_rows = c` for an explicit
`c`, `m_local = m`, `n_local = glob_ju - glob_jl` (and `n_local == n_global`
without a partition), and the block holds `max_rows*n_local` values, all
zero. -/
theorem new_capacity (m glob_n : Int) (col_part : Option (List Int)) (myrank : Nat) (c : Int)
    (jl ju : Int) (hm : 0 ≤ m ∧ m < 2147483648) (hn : 0 ≤ glob_n)
    (hslab : colSlab glob_n col_part myrank = some (jl, ju))
    (hcols : 0 ≤ jl ∧ jl ≤ ju ∧ ju - jl < 2147483648) :
    (c = -1 → m * (ju - jl) < 2147483648 → ∃ A : hiopMatrixDenseObj R,
      hiopMatrixDense.new m glob_n col_part myrank c = .ok A ∧ A.max_rows = m) ∧
    (c ≠ -1 → c < 2147483648 → c * (ju - jl) < 2147483648 →
      ((∃ A : hiopMatrixDenseObj R,
        hiopMatrixDense.new m glob_n col_part myrank c = .ok A) ↔ m ≤ c)) ∧
    (c ≠ -1 → c < m →
      (hiopMatrixDense.new m glob_n col_part myrank c : Except Abort (hiopMatrixDenseObj R)) =
        .error .assertion) ∧
    (∀ A : hiopMatrixDenseObj R, hiopMatrixDense.new m glob_n col_part myrank c = .ok A →
      (c ≠ -1 → A.max_rows = c) ∧ A.m_local = m ∧ A.n_global = glob_n ∧
      A.m_local ≤ A.max_rows ∧ A.glob_jl = jl ∧ A.glob_ju = ju ∧
      A.n_local = A.glob_ju - A.glob_jl ∧
      (col_part = none → A.glob_jl = 0 ∧ A.glob_ju = glob_n ∧ A.n_local = A.n_global) ∧
      (∀ cp, col_part = some cp →
        cp[myrank]? = some A.glob_jl ∧ cp[myrank + 1]? = some A.glob_ju) ∧
      (A.M.length : Int) = A.max_rows * A.n_local ∧ (∀ p < A.M.length, A.M.getD p 0 = 0) ∧
      A.toMatrix = some ⟨m.toNat, (ju - jl).toNat, glob_n.toNat, jl.toNat, ju.toNat,
        A.max_rows.toNat, A.M⟩) := by
  have hml : toInt32 m = m := toInt32_eq m (by omega) hm.2
  have hnl : toInt32 (ju - jl) = ju - jl := toInt32_eq _ (by omega) hcols.2.2
  have hw : 0 ≤ ju - jl := by omega
  have hdef : (hiopMatrixDense.new m glob_n col_part myrank c :
      Except Abort (hiopMatrixDenseObj R)) =
      if ¬ ((if c = -1 then m else c) ≥ m) then .error .assertion
      else if (if c = -1 then m else c) < 0 then .error .memory
      else if (if c = -1 then m else c) ≠ 0 ∧ (if c = -1 then m else c) * (ju - jl) < 0 then
        .error .memory
      else if ¬ ((if c = -1 then m else c) ≤ 2147483647 ∧
          (if c = -1 then m else c) * (ju - jl) ≤ 2147483647) then .error .memory
      else .ok ⟨m, ju - jl, glob_n, jl, ju, (if c = -1 then m else c),
        List.replicate ((if c = -1 then m else c) * (ju - jl)).toNat 0⟩ := by
    unfold hiopMatrixDense.new
    rw [hslab]
    simp only [hml, hnl]
  have hok : ∀ cap : Int, (if c = -1 then m else c) = cap → m ≤ cap → cap < 2147483648 →
      cap * (ju - jl) < 2147483648 →
      (hiopMatrixDense.new m glob_n col_part myrank c : Except Abort (hiopMatrixDenseObj R)) =
        .ok ⟨m, ju - jl, glob_n, jl, ju, cap, List.replicate (cap * (ju - jl)).toNat 0⟩ := by
    intro cap hcap h1 h2 h3
    have hprod : 0 ≤ cap * (ju - jl) := Int.mul_nonneg (by omega) hw
    rw [hdef, hcap, if_neg (by omega), if_neg (by omega), if_neg (by rintro ⟨_, h⟩; omega),
      if_neg (by rw [not_not]; exact ⟨by omega, by omega⟩)]
  have hslabs : (col_part = none → jl = 0 ∧ ju = glob_n) ∧
      (∀ cp, col_part = some cp → cp[myrank]? = some jl ∧ cp[myrank + 1]? = some ju) := by
    cases col_part with
    | none =>
      simp only [colSlab, Option.some.injEq, Prod.mk.injEq] at hslab
      exact ⟨fun _ => ⟨hslab.1.symm, hslab.2.symm⟩, fun cp h => Option.noConfusion h⟩
    | some cp =>
      refine ⟨fun h => Option.noConfusion h, fun cp1 h => ?_⟩
      cases h
      simp only [colSlab] at hslab
      split at hslab
      · rename_i a b h1 h2
        simp only [Option.some.injEq, Prod.mk.injEq] at hslab
        rw [h1, h2, hslab.1, hslab.2]
        exact ⟨rfl, rfl⟩
      · cases hslab
  refine ⟨?_, ?_, ?_, ?_⟩
  · intro hc hfit
    exact ⟨_, hok m (by rw [if_pos hc]) (le_refl _) hm.2 hfit, rfl⟩
  · intro hc h2 h3
    constructor
    · rintro ⟨A, hA⟩
      by_contra hcon
      rw [hdef, if_neg hc, if_pos (by omega)] at hA
      cases hA
    · intro h
      exact ⟨_, hok c (by rw [if_neg hc]) h h2 h3⟩
  · intro hc hlt
    rw [hdef, if_neg hc, if_pos (by omega)]
  · intro A hA
    rw [hdef] at hA
    generalize hcapdef : (if c = -1 then m else c) = cap at hA
    by_cases g1 : cap ≥ m
    · by_cases g4 : cap ≤ 2147483647 ∧ cap * (ju - jl) ≤ 2147483647
      · have hprod : 0 ≤ cap * (ju - jl) := Int.mul_nonneg (by omega) hw
        rw [if_neg (not_not.mpr g1), if_neg (by omega), if_neg (by rintro ⟨_, h⟩; omega),
          if_neg (not_not.mpr g4)] at hA
        cases hA
        refine ⟨fun hc => by rw [← hcapdef, if_neg hc], rfl, rfl, g1, rfl, rfl, rfl, ?_,
          hslabs.2, ?_, ?_, ?_⟩
        · intro h
          obtain ⟨h1, h2⟩ := hslabs.1 h
          exact ⟨h1, h2, by show ju - jl = glob_n; omega⟩
        · show ((List.replicate (cap * (ju - jl)).toNat (0 : R)).length : Int) =
            cap * (ju - jl)
          rw [List.length_replicate]
          exact Int.toNat_of_nonneg hprod
        · intro p hp
          simp only [List.length_replicate] at hp
          simp [List.getD_eq_getElem?_getD, List.getElem?_replicate, hp]
        · have hcap0 : 0 ≤ cap := by omega
          have hju : 0 ≤ ju := by omega
          unfold hiopMatrixDenseObj.toMatrix
          rw [if_pos ⟨hm.1, hw, hn, hcols.1, hju, hcap0⟩]
      · rw [if_neg (not_not.mpr g1)] at hA
        split at hA
        · cases hA
        · split at hA
          · cases hA
          · cases hA
    · rw [if_pos g1] at hA
      cases hA

/-- Witness of C12 (amended): rank 1 of the partition `[0,1,3]` of 3
columns, 2 rows with capacity 4, gives the slab `[1,3)` and a block of 8
zeros; capacity 1 stops at the assertion. -/
theorem new_capacity_witness :
    (hiopMatrixDense.new 2 3 (some [0, 1, 3]) 1 4 : Except Abort (hiopMatrixDenseObj ℤ)) =
      .ok ⟨2, 2, 3, 1, 3, 4, [0, 0, 0, 0, 0, 0, 0, 0]⟩ ∧
    (hiopMatrixDense.new 2 3 none 0 (-1) : Except Abort (hiopMatrixDenseObj ℤ)) =
      .ok ⟨2, 3, 3, 0, 3, 2, [0, 0, 0, 0, 0, 0]⟩ ∧
    (hiopMatrixDense.new 2 3 none 0 1 : Except Abort (hiopMatrixDenseObj ℤ)) =
      .error .assertion ∧
    ((0 : Int) ≤ 2 ∧ (2 : Int) < 2147483648) ∧ (0 : Int) ≤ 3 ∧
    colSlab 3 (some [0, 1, 3]) 1 = some (1, 3) ∧
    ((0 : Int) ≤ 1 ∧ (1 : Int) ≤ 3 ∧ (3 : Int) - 1 < 2147483648) ∧
    ((4 : Int) ≠ -1 → (4 : Int) < 2147483648 → (4 : Int) * (3 - 1) < 2147483648 →
      ((∃ A : hiopMatrixDenseObj ℤ,
        hiopMatrixDense.new 2 3 (some [0, 1, 3]) 1 4 = .ok A) ↔ (2 : Int) ≤ 4)) :=
  ⟨rfl, rfl, rfl, by decide, by decide, rfl, by decide,
    (new_capacity 2 3 (some [0, 1, 3]) 1 4 1 3 (by decide) (by decide) rfl (by decide)).2.1⟩

theorem memcpyAt_spec (dst : List R) (d : Nat) (src : List R) (s len : Nat)
    (h1 : d + len ≤ dst.length) (h2 : s + len ≤ src.length) :
    ∃ b, memcpyAt dst (d : Int) src (s : Int) (len : Int) = .ok b ∧ b.length = dst.length ∧
      ∀ p, b.getD p 0 =
        if d ≤ p ∧ p < d + len then src.getD (s + (p - d)) 0 else dst.getD p 0 := by
  obtain ⟨b, hb, hl, hv⟩ := memcpy_spec dst d src s len h1 h2
  refine ⟨b, ?_, hl, hv⟩
  unfold memcpyAt
  rw [if_pos ⟨Int.ofNat_nonneg _, Int.ofNat_nonneg _, Int.ofNat_nonneg _⟩]
  simpa using hb

theorem idx_cases (n i r c j : Nat) (hc : c < n) (hj : j < n) :
    (r < i → r * n + c < i * n + j) ∧ (i < r → i * n + j < r * n + c) := by
  constructor
  · intro h
    have := Nat.mul_le_mul_right n (Nat.succ_le_of_lt h)
    rw [Nat.succ_mul] at this
    omega
  · intro h
    have := Nat.mul_le_mul_right n (Nat.succ_le_of_lt h)
    rw [Nat.succ_mul] at this
    omega

/-- C13: `copyRowsFrom` copies the first `count` rows of the source
verbatim.  For a destination and a source with equal `n_local` and
`n_global`, `count <= src.m_local` and `dest + count <= m_local`, the call
returns in both builds; row `dest + r` of the result equals row `r` of the
source for every `r < count`, every other row of the block is unchanged, the
shape is unchanged, and with `count == 0` the matrix is returned as it
was. -/
theorem copyRowsFrom_spec (deep : Bool) (A src : hiopMatrixDense R) (count dest : Nat)
    (hA : A.wf) (hS : src.wf) (hn : A.n_local = src.n_local) (hg : A.n_global = src.n_global)
    (hcnt : count ≤ src.m_local) (hfit : dest + count ≤ A.m_local) :
    ∃ A1, copyRowsFrom deep A src (count : Int) (dest : Int) = .ok A1 ∧
      A1.m_local = A.m_local ∧ A1.n_local = A.n_local ∧ A1.n_global = A.n_global ∧
      A1.max_rows = A.max_rows ∧ A1.M.length = A.M.length ∧
      (∀ r < count, ∀ j < A.n_local, A1.elem (dest + r) j = src.elem r j) ∧
      (∀ i, (i < dest ∨ dest + count ≤ i) → ∀ j < A.n_local, A1.elem i j = A.elem i j) ∧
      (count = 0 → A1 = A) := by
  have hd : ¬ (deep = true ∧ ¬ (0 ≤ (dest : Int) ∧ A.n_global = src.n_global ∧
      A.n_local = src.n_local ∧ (dest : Int) + (count : Int) ≤ (A.m_local : Int) ∧
      (count : Int) ≤ (src.m_local : Int))) := by
    rintro ⟨_, h⟩
    exact h ⟨Int.ofNat_nonneg _, hg, hn, by omega, by omega⟩
  by_cases h0 : count = 0
  · refine ⟨A, ?_, rfl, rfl, rfl, rfl, rfl, ?_, fun _ _ _ _ => rfl, fun _ => rfl⟩
    · unfold copyRowsFrom
      rw [if_neg hd, if_neg (by omega)]
    · intro r hr; omega
  · have e1 : dest * A.n_local + A.n_local * count ≤ A.M.length := by
      rw [hA.1, Nat.mul_comm A.n_local count, ← Nat.add_mul]
      exact Nat.mul_le_mul_right _ (le_trans hfit hA.2.1)
    have e2 : 0 + A.n_local * count ≤ src.M.length := by
      rw [hS.1, Nat.zero_add, Nat.mul_comm, hn]
      exact Nat.mul_le_mul_right _ (le_trans hcnt hS.2.1)
    obtain ⟨b, hb, hl, hv⟩ := memcpyAt_spec A.M (dest * A.n_local) src.M 0
      (A.n_local * count) e1 e2
    refine ⟨{ A with M := b }, ?_, rfl, rfl, rfl, rfl, hl, ?_, ?_, fun h => absurd h h0⟩
    · unfold copyRowsFrom
      rw [if_neg hd, if_pos (by omega)]
      have : memcpyAt A.M ((dest : Int) * (A.n_local : Int)) src.M 0
          ((A.n_local : Int) * (count : Int)) = .ok b := by
        have := hb
        push_cast at this
        exact this
      rw [this]
    · intro r hr j hj
      simp only [hiopMatrixDense.elem]
      have hlt := idx_lt r count A.n_local j hr hj
      rw [hv, if_pos ⟨by rw [Nat.add_mul]; omega, by
        rw [Nat.add_mul, Nat.mul_comm A.n_local count]; omega⟩, ← hn]
      congr 1
      rw [Nat.add_mul]
      omega
    · intro i hi j hj
      simp only [hiopMatrixDense.elem]
      rw [hv, if_neg]
      rintro ⟨h1, h2⟩
      rcases hi with hi | hi
      · have := (idx_cases A.n_local dest i j 0 hj (by omega)).1 hi
        omega
      · have := Nat.mul_le_mul_right A.n_local hi
        rw [Nat.add_mul, Nat.mul_comm count] at this
        omega

/-- Witness of C13: copying the 2 rows of `[[1,2],[3,4]]` to row 1 of
`[[1,2],[3,4],[5,6]]` gives `[[1,2],[1,2],[3,4]]`. -/
theorem copyRowsFrom_spec_witness :
    copyRowsFrom true exM exCap 2 1 = .ok ⟨3, 2, 2, 0, 2, 3, [1, 2, 1, 2, 3, 4]⟩ ∧
    exM.wf ∧ exCap.wf ∧ 2 ≤ exCap.m_local ∧ 1 + 2 ≤ exM.m_local ∧
    ∃ A1, copyRowsFrom true exM exCap ((2 : Nat) : Int) ((1 : Nat) : Int) = .ok A1 ∧
      A1.m_local = exM.m_local ∧ A1.n_local = exM.n_local ∧ A1.n_global = exM.n_global ∧
      A1.max_rows = exM.max_rows ∧ A1.M.length = exM.M.length ∧
      (∀ r < 2, ∀ j < exM.n_local, A1.elem (1 + r) j = exCap.elem r j) ∧
      (∀ i, (i < 1 ∨ 1 + 2 ≤ i) → ∀ j < exM.n_local, A1.elem i j = exM.elem i j) ∧
      (2 = 0 → A1 = exM) :=
  ⟨rfl, by simp only [hiopMatrixDense.wf]; decide, by simp only [hiopMatrixDense.wf]; decide,
    by decide, by decide,
    copyRowsFrom_spec true exM exCap 2 1 (by simp only [hiopMatrixDense.wf]; decide)
      (by simp only [hiopMatrixDense.wf]; decide) rfl rfl (by decide) (by decide)⟩

theorem copyBlockRows_spec (n i0 j0 : Nat) (src : hiopMatrixDense R)
    (hw : j0 + src.n_local ≤ n) : ∀ (cnt ii : Nat) (buf : List R),
    (i0 + ii + cnt) * n ≤ buf.length → (ii + cnt) * src.n_local ≤ src.M.length →
    ∃ b, copyBlockRows n (i0 : Int) (j0 : Int) src cnt ii buf = .ok b ∧
      b.length = buf.length ∧
      ∀ r c, c < n → b.getD (r * n + c) 0 =
        if i0 + ii ≤ r ∧ r < i0 + ii + cnt ∧ j0 ≤ c ∧ c < j0 + src.n_local then
          src.M.getD ((r - i0) * src.n_local + (c - j0)) 0
        else buf.getD (r * n + c) 0 := by
  intro cnt
  induction cnt with
  | zero =>
    intro ii buf _ _
    refine ⟨buf, rfl, rfl, fun r c _ => ?_⟩
    rw [if_neg (by omega)]
  | succ cnt ih =>
    intro ii buf hb hs
    have e1 : (i0 + ii + (cnt + 1)) * n = (ii + i0) * n + n + cnt * n := by ring
    have e2 : (ii + (cnt + 1)) * src.n_local = ii * src.n_local + src.n_local +
        cnt * src.n_local := by ring
    obtain ⟨b0, hm, hl0, hv0⟩ := memcpyAt_spec buf ((ii + i0) * n + j0) src.M
      (ii * src.n_local) src.n_local (by omega) (by omega)
    obtain ⟨b, hr, hl, hv⟩ := ih (ii + 1) b0
      (by rw [hl0]; have : (i0 + (ii + 1) + cnt) * n = (ii + i0) * n + n + cnt * n := by ring
          omega)
      (by have : (ii + 1 + cnt) * src.n_local = ii * src.n_local + src.n_local +
            cnt * src.n_local := by ring
          omega)
    refine ⟨b, ?_, by rw [hl, hl0], fun r c hc => ?_⟩
    · simp only [copyBlockRows]
      have : memcpyAt buf (((ii : Int) + (i0 : Int)) * (n : Int) + (j0 : Int)) src.M
          ((ii : Int) * (src.n_local : Int)) (src.n_local : Int) = .ok b0 := by
        have := hm
        push_cast at this
        exact this
      rw [this]
      exact hr
    · rw [hv r c hc, hv0]
      by_cases hrow : r = ii + i0
      · subst hrow
        by_cases hcol : j0 ≤ c ∧ c < j0 + src.n_local
        · rw [if_neg (by omega), if_pos (by omega), if_pos (by omega)]
          congr 1
          have : ii + i0 - i0 = ii := by omega
          rw [this]
          omega
        · rw [if_neg (by omega), if_neg (by omega), if_neg (by omega)]
      · have hne : ¬ ((ii + i0) * n + j0 ≤ r * n + c ∧
            r * n + c < (ii + i0) * n + j0 + src.n_local) := by
          rintro ⟨h1, h2⟩
          rcases Nat.lt_or_gt_of_ne hrow with h | h
          · have := (idx_cases n (ii + i0) r c 0 hc (by omega)).1 h
            omega
          · have := (idx_cases n (ii + i0) r c (n - 1) hc (by omega)).2 h
            omega
        by_cases hin : i0 + (ii + 1) ≤ r ∧ r < i0 + (ii + 1) + cnt ∧ j0 ≤ c ∧
            c < j0 + src.n_local
        · rw [if_pos hin, if_pos (by omega)]
        · rw [if_neg hin, if_neg hne, if_neg (by omega)]

/-- C14: `copyBlockFromMatrix` writes the source as a sub-block and nothing
else.  For two non-distributed matrices and offsets `i_start`, `j_start`
with `i_start + src.m_local <= m_local` and `j_start + src.n_local <= n_local`
the call returns in both builds; the entry `(i_start + i, j_start + j)` of
the result is the entry `(i, j)` of the source, every entry of the block
outside that sub-block is unchanged, the shape is unchanged, and for a
source with no row or no column the matrix is returned as it was. -/
theorem copyBlockFromMatrix_spec (deep : Bool) (A src : hiopMatrixDense R)
    (i_start j_start : Nat) (hA : A.wf) (hS : src.wf)
    (hAn : A.n_local = A.n_global) (hSn : src.n_local = src.n_global)
    (hrows : i_start + src.m_local ≤ A.m_local) (hcols : j_start + src.n_local ≤ A.n_local) :
    ∃ A1, copyBlockFromMatrix deep A (i_start : Int) (j_start : Int) src = .ok A1 ∧
      A1.m_local = A.m_local ∧ A1.n_local = A.n_local ∧ A1.n_global = A.n_global ∧
      A1.max_rows = A.max_rows ∧ A1.M.length = A.M.length ∧
      (∀ i < src.m_local, ∀ j < src.n_local,
        A1.elem (i_start + i) (j_start + j) = src.elem i j) ∧
      (∀ r c, c < A.n_local →
        ¬ (i_start ≤ r ∧ r < i_start + src.m_local ∧ j_start ≤ c ∧ c < j_start + src.n_local) →
        A1.elem r c = A.elem r c) ∧
      (src.m_local = 0 ∨ src.n_local = 0 → A1 = A) := by
  have c1 : ¬ ¬ (A.n_local = A.n_global) := not_not.mpr hAn
  have c2 : ¬ ¬ (src.n_local = src.n_global) := not_not.mpr hSn
  have c3 : ¬ ¬ ((A.m_local : Int) ≥ (i_start : Int) + (src.m_local : Int)) := by
    rw [not_not]; omega
  have c4 : ¬ ¬ ((A.n_local : Int) ≥ (j_start : Int) + (src.n_local : Int)) := by
    rw [not_not]; omega
  by_cases hn0 : src.n = 0
  · refine ⟨A, ?_, rfl, rfl, rfl, rfl, rfl, ?_, fun _ _ _ _ => rfl, fun _ => rfl⟩
    · unfold copyBlockFromMatrix
      rw [if_neg c1, if_neg c2, if_neg c3, if_neg c4, if_pos hn0]
    · intro i _ j hj
      simp only [hiopMatrixDense.n, ← hSn] at hn0
      omega
  by_cases hm0 : src.m = 0
  · refine ⟨A, ?_, rfl, rfl, rfl, rfl, rfl, ?_, fun _ _ _ _ => rfl, fun _ => rfl⟩
    · unfold copyBlockFromMatrix
      rw [if_neg c1, if_neg c2, if_neg c3, if_neg c4, if_neg hn0, if_pos hm0]
    · intro i hi
      simp only [hiopMatrixDense.m] at hm0
      omega
  have hn1 : src.n_local ≠ 0 := by
    simp only [hiopMatrixDense.n, ← hSn] at hn0; exact hn0
  have hm1 : src.m_local ≠ 0 := by
    simp only [hiopMatrixDense.m] at hm0; exact hm0
  have c5 : ¬ (deep = true ∧ ¬ (((i_start : Int) < (A.m_local : Int) ∨ A.m_local = 0) ∧
      ((j_start : Int) < (A.n_local : Int) ∨ A.n_local = 0) ∧ 0 ≤ (i_start : Int) ∧
      0 ≤ (j_start : Int))) := by
    rintro ⟨_, h⟩
    exact h ⟨Or.inl (by omega), Or.inl (by omega), Int.ofNat_nonneg _, Int.ofNat_nonneg _⟩
  obtain ⟨b, hb, hl, hv⟩ := copyBlockRows_spec A.n_local i_start j_start src hcols
    src.m_local 0 A.M
    (by rw [hA.1, Nat.add_zero]; exact Nat.mul_le_mul_right _ (le_trans hrows hA.2.1))
    (by rw [hS.1, Nat.zero_add]; exact Nat.mul_le_mul_right _ hS.2.1)
  refine ⟨{ A with M := b }, ?_, rfl, rfl, rfl, rfl, hl, ?_, ?_, ?_⟩
  · unfold copyBlockFromMatrix
    rw [if_neg c1, if_neg c2, if_neg c3, if_neg c4, if_neg hn0, if_neg hm0, if_neg c5, hb]
  · intro i hi j hj
    simp only [hiopMatrixDense.elem]
    rw [hv _ _ (by omega), if_pos (by omega)]
    congr 1
    have : i_start + i - i_start = i := by omega
    rw [this]
    omega
  · intro r c hc hout
    simp only [hiopMatrixDense.elem]
    rw [hv r c hc, if_neg (by omega)]
  · rintro (h | h)
    · exact absurd h hm1
    · exact absurd h hn1

/-- Witness of C14: writing `[[2]]` at `(1,1)` of the `3 x 3` identity gives
`[[1,0,0],[0,2,0],[0,0,1]]`. -/
theorem copyBlockFromMatrix_spec_witness :
    copyBlockFromMatrix true exI3 1 1 exA11 =
      .ok ⟨3, 3, 3, 0, 3, 3, [1, 0, 0, 0, 2, 0, 0, 0, 1]⟩ ∧
    exI3.wf ∧ exA11.wf ∧ 1 + exA11.m_local ≤ exI3.m_local ∧ 1 + exA11.n_local ≤ exI3.n_local ∧
    ∃ A1, copyBlockFromMatrix true exI3 ((1 : Nat) : Int) ((1 : Nat) : Int) exA11 = .ok A1 ∧
      A1.m_local = exI3.m_local ∧ A1.n_local = exI3.n_local ∧ A1.n_global = exI3.n_global ∧
      A1.max_rows = exI3.max_rows ∧ A1.M.length = exI3.M.length ∧
      (∀ i < exA11.m_local, ∀ j < exA11.n_local, A1.elem (1 + i) (1 + j) = exA11.elem i j) ∧
      (∀ r c, c < exI3.n_local →
        ¬ (1 ≤ r ∧ r < 1 + exA11.m_local ∧ 1 ≤ c ∧ c < 1 + exA11.n_local) →
        A1.elem r c = exI3.elem r c) ∧
      (exA11.m_local = 0 ∨ exA11.n_local = 0 → A1 = exI3) :=
  ⟨rfl, by simp only [hiopMatrixDense.wf]; decide, by simp only [hiopMatrixDense.wf]; decide,
    by decide, by decide,
    copyBlockFromMatrix_spec true exI3 exA11 1 1 (by simp only [hiopMatrixDense.wf]; decide)
      (by simp only [hiopMatrixDense.wf]; decide) rfl rfl (by decide) (by decide)⟩

theorem copyFromBlockRows_spec (n ib jb : Nat) (src : hiopMatrixDense R)
    (hw : jb + n ≤ src.n_local) : ∀ (cnt i : Nat) (buf : List R),
    (i + cnt) * n ≤ buf.length → (i + cnt + ib) * src.n_local ≤ src.M.length →
    ∃ b, copyFromBlockRows n src (ib : Int) (jb : Int) cnt i buf = .ok b ∧
      b.length = buf.length ∧
      ∀ r c, c < n → b.getD (r * n + c) 0 =
        if i ≤ r ∧ r < i + cnt then src.M.getD ((r + ib) * src.n_local + (jb + c)) 0
        else buf.getD (r * n + c) 0 := by
  intro cnt
  induction cnt with
  | zero =>
    intro i buf _ _
    refine ⟨buf, rfl, rfl, fun r c _ => ?_⟩
    rw [if_neg (by omega)]
  | succ cnt ih =>
    intro i buf hb hs
    have e1 : (i + (cnt + 1)) * n = i * n + n + cnt * n := by ring
    have e2 : (i + (cnt + 1) + ib) * src.n_local = (i + ib) * src.n_local + src.n_local +
        cnt * src.n_local := by ring
    obtain ⟨b0, hm, hl0, hv0⟩ := memcpyAt_spec buf (i * n) src.M
      ((i + ib) * src.n_local + jb) n (by omega) (by omega)
    obtain ⟨b, hr, hl, hv⟩ := ih (i + 1) b0
      (by rw [hl0]; have : (i + 1 + cnt) * n = i * n + n + cnt * n := by ring
          omega)
      (by have : (i + 1 + cnt + ib) * src.n_local = (i + ib) * src.n_local + src.n_local +
            cnt * src.n_local := by ring
          omega)
    refine ⟨b, ?_, by rw [hl, hl0], fun r c hc => ?_⟩
    · simp only [copyFromBlockRows]
      have : memcpyAt buf ((i : Int) * (n : Int)) src.M
          (((i : Int) + (ib : Int)) * (src.n_local : Int) + (jb : Int)) (n : Int) = .ok b0 := by
        have := hm
        push_cast at this
        exact this
      rw [this]
      exact hr
    · rw [hv r c hc, hv0]
      by_cases hrow : r = i
      · subst hrow
        rw [if_neg (by omega), if_pos (by omega), if_pos (by omega)]
        congr 1
        omega
      · have hne : ¬ (i * n ≤ r * n + c ∧ r * n + c < i * n + n) := by
          rintro ⟨h1, h2⟩
          rcases Nat.lt_or_gt_of_ne hrow with h | h
          · have := (idx_cases n i r c 0 hc (by omega)).1 h
            omega
          · have := (idx_cases n i r c (n - 1) hc (by omega)).2 h
            omega
        by_cases hin : i + 1 ≤ r ∧ r < i + 1 + cnt
        · rw [if_pos hin, if_pos (by omega)]
        · rw [if_neg hin, if_neg hne, if_neg (by omega)]

theorem list_ext_getD (l1 l2 : List R) (hl : l1.length = l2.length)
    (h : ∀ p < l1.length, l1.getD p 0 = l2.getD p 0) : l1 = l2 := by
  apply List.ext_getElem hl
  intro p h1 h2
  have := h p h1
  simpa [List.getD_eq_getElem?_getD, List.getElem?_eq_getElem h1,
    List.getElem?_eq_getElem h2] using this

theorem copyFromBlockBulk_spec (A src : hiopMatrixDense R) (ib : Nat) (hA : A.wf)
    (hS : src.wf) (hn : A.n_local = src.n_local) (hrows : A.m_local + ib ≤ src.m_local) :
    ∃ b, copyFromBlockBulk A src (ib : Int) = .ok b ∧ b.length = A.M.length ∧
      ∀ r c, c < A.n_local → b.getD (r * A.n_local + c) 0 =
        if r < A.m_local then src.M.getD ((r + ib) * src.n_local + c) 0
        else A.M.getD (r * A.n_local + c) 0 := by
  have e1 : 0 + A.n_local * A.m_local ≤ A.M.length := by
    rw [hA.1, Nat.zero_add, Nat.mul_comm]; exact Nat.mul_le_mul_right _ hA.2.1
  have e2 : ib * src.n_local + A.n_local * A.m_local ≤ src.M.length := by
    rw [hS.1, hn, Nat.mul_comm src.n_local A.m_local, ← Nat.add_mul]
    exact Nat.mul_le_mul_right _ (by have := hS.2.1; omega)
  obtain ⟨b, hb, hl, hv⟩ := memcpyAt_spec A.M 0 src.M (ib * src.n_local)
    (A.n_local * A.m_local) e1 e2
  refine ⟨b, ?_, hl, fun r c hc => ?_⟩
  · unfold copyFromBlockBulk
    have := hb
    push_cast at this
    exact this
  · have e0 : A.n_local * A.m_local = A.m_local * A.n_local := Nat.mul_comm _ _
    rw [hv, e0, Nat.zero_add]
    by_cases hr : r < A.m_local
    · have := idx_lt r A.m_local A.n_local c hr hc
      rw [if_pos ⟨Nat.zero_le _, this⟩, if_pos hr, ← hn]
      congr 1
      rw [Nat.add_mul]
      omega
    · have := Nat.mul_le_mul_right A.n_local (Nat.le_of_not_lt hr)
      rw [if_neg (by omega), if_neg hr]

/-- C15, counterexample: destination `[[1,2],[3,4]]` and source
`[[1,2],[3,4],[5,6]]` have equal widths; the offsets `i_block = 0`,
`j_block = -1` pass both checks of `copyFromMatrixBlock`
(`2 + 0 <= 3`, `2 + (-1) <= 2`).  The bulk copy runs although the column
offset is not 0, and the destination entry `(0,1)` becomes the source entry
`(0,1) = 2`, not the entry `(0 + 0, 1 + (-1)) = (0,0) = 1`. -/
theorem copyFromMatrixBlock_negative_offset :
    (exCap.m_local : Int) + 0 ≤ (exM.m_local : Int) ∧
    (exCap.n_local : Int) + (-1) ≤ (exM.n_local : Int) ∧
    exCap.n_local = exM.n_local ∧
    copyFromBlockBulk exCap exM 0 = .ok [1, 2, 3, 4, 0, 0] ∧
    copyFromMatrixBlock exCap exM 0 (-1) = .ok ⟨2, 2, 2, 0, 2, 3, [1, 2, 3, 4, 0, 0]⟩ ∧
    (⟨2, 2, 2, 0, 2, 3, [1, 2, 3, 4, 0, 0]⟩ : hiopMatrixDense ℤ).elem 0 1 = 2 ∧
    exM.elem 0 0 = 1 :=
  ⟨by decide, by decide, rfl, rfl, rfl, rfl, rfl⟩

/-- C15, as amended: `copyFromMatrixBlock` extracts the block at
`(i_block, j_block)` whichever copy path runs, for offsets that are not
negative.  For two non-distributed matrices and offsets `i_block >= 0`,
`j_block >= 0` that pass the checks (`m_local + i_block <= src.m_local`,
`n_local + j_block <= src.n_local`) the call returns, the entry `(i, j)` of
the result is the source entry `(i + i_block, j + j_block)` for every
`i < m_local`, `j < n_local`, the rows of the block past `m_local` and the
shape are unchanged; when the widths are equal (the bulk copy runs)
`j_block` is 0 and the bulk copy gives the same block as the row-by-row
copy. -/
theorem copyFromMatrixBlock_spec (A src : hiopMatrixDense R) (i_block j_block : Nat)
    (hA : A.wf) (hS : src.wf) (hAn : A.n_local = A.n_global)
    (hSn : src.n_local = src.n_global) (hrows : A.m_local + i_block ≤ src.m_local)
    (hcols : A.n_local + j_block ≤ src.n_local) :
    ∃ A1, copyFromMatrixBlock A src (i_block : Int) (j_block : Int) = .ok A1 ∧
      A1.m_local = A.m_local ∧ A1.n_local = A.n_local ∧ A1.n_global = A.n_global ∧
      A1.max_rows = A.max_rows ∧ A1.M.length = A.M.length ∧
      (∀ i < A.m_local, ∀ j < A.n_local,
        A1.elem i j = src.elem (i + i_block) (j + j_block)) ∧
      (∀ i, A.m_local ≤ i → ∀ j < A.n_local, A1.elem i j = A.elem i j) ∧
      (A.n_local = src.n_local → j_block = 0 ∧
        copyFromBlockBulk A src (i_block : Int) =
          copyFromBlockRows A.n_local src (i_block : Int) (j_block : Int) A.m_local 0 A.M) := by
  have c1 : ¬ ¬ (A.n_local = A.n_global) := not_not.mpr hAn
  have c2 : ¬ ¬ (src.n_local = src.n_global) := not_not.mpr hSn
  have c3 : ¬ ¬ ((A.m_local : Int) + (i_block : Int) ≤ (src.m_local : Int)) := by
    rw [not_not]; omega
  have c4 : ¬ ¬ ((A.n_local : Int) + (j_block : Int) ≤ (src.n_local : Int)) := by
    rw [not_not]; omega
  obtain ⟨b2, hb2, hl2, hv2⟩ := copyFromBlockRows_spec A.n_local i_block j_block src
    (by omega) A.m_local 0 A.M
    (by rw [hA.1, Nat.zero_add]; exact Nat.mul_le_mul_right _ hA.2.1)
    (by rw [hS.1, Nat.zero_add]
        exact Nat.mul_le_mul_right _ (by have := hS.2.1; omega))
  -- the two paths agree when the widths are equal
  have hsame : A.n_local = src.n_local → j_block = 0 ∧
      copyFromBlockBulk A src (i_block : Int) = .ok b2 := by
    intro hn
    have hj : j_block = 0 := by omega
    obtain ⟨b1, hb1, hl1, hv1⟩ := copyFromBlockBulk_spec A src i_block hA hS hn hrows
    refine ⟨hj, ?_⟩
    rw [hb1]
    congr 1
    apply list_ext_getD _ _ (by rw [hl1, hl2])
    intro p hp
    rw [hl1, hA.1] at hp
    have hpos : 0 < A.n_local := by
      rcases Nat.eq_zero_or_pos A.n_local with h | h
      · rw [h] at hp; simp at hp
      · exact h
    have hdec : p = p / A.n_local * A.n_local + p % A.n_local := by
      rw [Nat.mul_comm]; exact (Nat.div_add_mod p A.n_local).symm
    have hc := Nat.mod_lt p hpos
    rw [hdec, hv1 _ _ hc, hv2 _ _ hc, hj]
    by_cases hr : p / A.n_local < A.m_local
    · rw [if_pos hr, if_pos ⟨Nat.zero_le _, by omega⟩, Nat.zero_add]
    · rw [if_neg hr, if_neg (by omega)]
  have hres : (if A.n_local = src.n_local then copyFromBlockBulk A src (i_block : Int)
      else copyFromBlockRows A.n_local src (i_block : Int) (j_block : Int) A.m_local 0 A.M) =
      .ok b2 := by
    by_cases hn : A.n_local = src.n_local
    · rw [if_pos hn]; exact (hsame hn).2
    · rw [if_neg hn]; exact hb2
  refine ⟨{ A with M := b2 }, ?_, rfl, rfl, rfl, rfl, hl2, ?_, ?_, ?_⟩
  · unfold copyFromMatrixBlock
    rw [if_neg c1, if_neg c2, if_neg c3, if_neg c4, hres]
  · intro i hi j hj
    simp only [hiopMatrixDense.elem]
    rw [hv2 i j hj, if_pos ⟨Nat.zero_le _, by omega⟩]
    congr 1
    omega
  · intro i hi j hj
    simp only [hiopMatrixDense.elem]
    rw [hv2 i j hj, if_neg (by omega)]
  · intro hn
    exact ⟨(hsame hn).1, by rw [(hsame hn).2, hb2]⟩

/-- Witness of C15 (amended): rows 1 and 2 of `[[1,2],[3,4],[5,6]]` land in
the destination by the bulk copy, and the entry `(1,1)` of the identity
lands in a `1 x 1` destination by the row-by-row copy. -/
theorem copyFromMatrixBlock_spec_witness :
    copyFromMatrixBlock exCap exM 1 0 = .ok ⟨2, 2, 2, 0, 2, 3, [3, 4, 5, 6, 0, 0]⟩ ∧
    copyFromMatrixBlock exA11 exI3 1 1 = .ok ⟨1, 1, 1, 0, 1, 1, [1]⟩ ∧
    exCap.wf ∧ exM.wf ∧ exCap.m_local + 1 ≤ exM.m_local ∧ exCap.n_local + 0 ≤ exM.n_local ∧
    ∃ A1, copyFromMatrixBlock exCap exM ((1 : Nat) : Int) ((0 : Nat) : Int) = .ok A1 ∧
      A1.m_local = exCap.m_local ∧ A1.n_local = exCap.n_local ∧
      A1.n_global = exCap.n_global ∧ A1.max_rows = exCap.max_rows ∧
      A1.M.length = exCap.M.length ∧
      (∀ i < exCap.m_local, ∀ j < exCap.n_local, A1.elem i j = exM.elem (i + 1) (j + 0)) ∧
      (∀ i, exCap.m_local ≤ i → ∀ j < exCap.n_local, A1.elem i j = exCap.elem i j) ∧
      (exCap.n_local = exM.n_local → 0 = 0 ∧
        copyFromBlockBulk exCap exM ((1 : Nat) : Int) =
          copyFromBlockRows exCap.n_local exM ((1 : Nat) : Int) ((0 : Nat) : Int)
            exCap.m_local 0 exCap.M) :=
  ⟨rfl, rfl, by simp only [hiopMatrixDense.wf]; decide,
    by simp only [hiopMatrixDense.wf]; decide, by decide, by decide,
    copyFromMatrixBlock_spec exCap exM 1 0 (by simp only [hiopMatrixDense.wf]; decide)
      (by simp only [hiopMatrixDense.wf]; decide) rfl rfl (by decide) (by decide)⟩

/-- C16, the failing inputs: a matrix with no row and two columns.  With no
row capacity (`M[0]` is `NULL`) the first loop of `setToConstant(7)` stores
through `M[0]` and the call does not complete (memory fault); with capacity
for one row the call completes after writing `7` into row 0, which is not a
populated row.  Both matrices are what the constructor returns. -/
theorem setToConstant_without_rows :
    (hiopMatrixDense.new 0 2 none 0 (-1) : Except Abort (hiopMatrixDenseObj ℤ)) =
      .ok ⟨0, 2, 2, 0, 2, 0, []⟩ ∧
    (⟨0, 2, 2, 0, 2, 0, []⟩ : hiopMatrixDenseObj ℤ).toMatrix = some exNoRows ∧
    setToConstant exNoRows 7 = .error .memory ∧
    setToZero exNoRows = .error .memory ∧
    (hiopMatrixDense.new 0 2 none 0 1 : Except Abort (hiopMatrixDenseObj ℤ)) =
      .ok ⟨0, 2, 2, 0, 2, 1, [0, 0]⟩ ∧
    (⟨0, 2, 2, 0, 2, 1, [0, 0]⟩ : hiopMatrixDenseObj ℤ).toMatrix = some exNoRowsCap1 ∧
    exNoRowsCap1.m_local = 0 ∧
    setToConstant exNoRowsCap1 7 = .ok ⟨0, 2, 2, 0, 2, 1, [7, 7]⟩ :=
  ⟨rfl, rfl, rfl, rfl, rfl, rfl, rfl, rfl⟩

theorem storeElem_spec (buf : List R) (idx : Nat) (v : R) (h : idx < buf.length) :
    ∃ b, storeElem buf idx v = .ok b ∧ b.length = buf.length ∧
      ∀ p, b.getD p 0 = if p = idx then v else buf.getD p 0 := by
  refine ⟨_, by unfold storeElem; rw [if_pos h], by simp, fun p => ?_⟩
  rw [getD_map_range]
  by_cases hp : p < buf.length
  · rw [if_pos hp]
  · rw [if_neg hp, if_neg (by omega), getD_of_length_le _ _ (Nat.le_of_not_lt hp)]

theorem setToConstantFirst_spec (c : R) : ∀ (cnt j : Nat) (buf : List R),
    j + cnt ≤ buf.length →
    ∃ b, setToConstantFirst c cnt j buf = .ok b ∧ b.length = buf.length ∧
      ∀ p, b.getD p 0 = if j ≤ p ∧ p < j + cnt then c else buf.getD p 0 := by
  intro cnt
  induction cnt with
  | zero =>
    intro j buf _
    exact ⟨buf, rfl, rfl, fun p => by rw [if_neg (by omega)]⟩
  | succ cnt ih =>
    intro j buf h
    obtain ⟨b0, h0, hl0, hv0⟩ := storeElem_spec buf j c (by omega)
    obtain ⟨b, hr, hl, hv⟩ := ih (j + 1) b0 (by omega)
    refine ⟨b, ?_, by rw [hl, hl0], fun p => ?_⟩
    · simp only [setToConstantFirst, h0]
      exact hr
    · rw [hv, hv0]
      by_cases h1 : p = j
      · rw [if_neg (by omega), if_pos h1, if_pos (by omega)]
      · by_cases h2 : j + 1 ≤ p ∧ p < j + 1 + cnt
        · rw [if_pos h2, if_pos (by omega)]
        · rw [if_neg h2, if_neg h1, if_neg (by omega)]

theorem DCOPY_length (n : Nat) (x : List R) (xo ix : Nat) (y : List R) (yo iy : Nat) :
    (DCOPY n x xo ix y yo iy).length = y.length := by
  unfold DCOPY
  split <;> simp

theorem DCOPY_getD (n : Nat) (x y : List R) (yo p : Nat) (hp : p < y.length) :
    (DCOPY n x 0 1 y yo 1).getD p 0 =
      if yo ≤ p ∧ p < yo + n then x.getD (p - yo) 0 else y.getD p 0 := by
  unfold DCOPY
  by_cases hn : n = 0
  · rw [if_pos hn, if_neg (by omega)]
  · rw [if_neg hn, getD_map_range, if_pos hp]
    simp only [Nat.mod_one, Nat.div_one, Nat.mul_one, Nat.zero_add, true_and]
    by_cases h : yo ≤ p ∧ p < yo + n
    · rw [if_pos (by omega), if_pos h]
    · rw [if_neg (by omega), if_neg h]

theorem setToConstantRows_spec (n : Nat) (c : R) : ∀ (cnt i : Nat) (buf : List R),
    1 ≤ i → (i + cnt) * n ≤ buf.length → (∀ p < n, buf.getD p 0 = c) →
    (setToConstantRows n cnt i buf).length = buf.length ∧
      ∀ p < buf.length, (setToConstantRows n cnt i buf).getD p 0 =
        if i * n ≤ p ∧ p < (i + cnt) * n then c else buf.getD p 0 := by
  intro cnt
  induction cnt with
  | zero =>
    intro i buf _ _ _
    exact ⟨rfl, fun p _ => by rw [if_neg (by rw [Nat.add_zero]; omega)]; rfl⟩
  | succ cnt ih =>
    intro i buf hi hlen hrow
    have e1 : (i + (cnt + 1)) * n = i * n + n + cnt * n := by ring
    have e2 : (i + 1 + cnt) * n = i * n + n + cnt * n := by ring
    have e3 : n ≤ i * n := Nat.le_mul_of_pos_left n hi
    have hl0 := DCOPY_length n buf 0 1 buf (i * n) 1
    obtain ⟨hl, hv⟩ := ih (i + 1) (DCOPY n buf 0 1 buf (i * n) 1) (by omega)
      (by rw [hl0]; omega)
      (by intro p hp
          rw [DCOPY_getD _ _ _ _ _ (by omega), if_neg (by omega)]
          exact hrow p hp)
    refine ⟨?_, fun p hp => ?_⟩
    · simp only [setToConstantRows]
      rw [hl, hl0]
    · simp only [setToConstantRows]
      rw [hv p (by rw [hl0]; exact hp), DCOPY_getD _ _ _ _ _ hp]
      have e4 : (i + 1) * n = i * n + n := by ring
      by_cases h1 : i * n ≤ p ∧ p < i * n + n
      · rw [if_neg (by omega), if_pos h1, if_pos (by omega)]
        exact hrow _ (by omega)
      · by_cases h2 : (i + 1) * n ≤ p ∧ p < (i + 1 + cnt) * n
        · rw [if_pos h2, if_pos (by omega)]
        · rw [if_neg h2, if_neg h1, if_neg (by omega)]

/-- With at least one populated row `setToConstant` completes, every
populated element equals the constant and the storage past the populated
rows is unchanged. -/
theorem setToConstant_spec (A : hiopMatrixDense R) (c : R) (hA : A.wf) (hm : 0 < A.m_local) :
    ∃ A1, setToConstant A c = .ok A1 ∧
      A1.m_local = A.m_local ∧ A1.n_local = A.n_local ∧ A1.max_rows = A.max_rows ∧
      A1.M.length = A.M.length ∧
      (∀ i < A.m_local, ∀ j < A.n_local, A1.elem i j = c) ∧
      (∀ p, A.m_local * A.n_local ≤ p → A1.M.getD p 0 = A.M.getD p 0) := by
  have hfit : A.m_local * A.n_local ≤ A.M.length := by
    rw [hA.1]; exact Nat.mul_le_mul_right _ hA.2.1
  have hrow0 : A.n_local ≤ A.m_local * A.n_local := Nat.le_mul_of_pos_left _ hm
  obtain ⟨b0, h0, hl0, hv0⟩ := setToConstantFirst_spec c A.n_local 0 A.M (by omega)
  have hcnt : (1 + (A.m_local - 1)) * A.n_local = A.m_local * A.n_local := by
    congr 1; omega
  obtain ⟨hl, hv⟩ := setToConstantRows_spec A.n_local c (A.m_local - 1) 1 b0 (le_refl 1)
    (by rw [hcnt, hl0]; exact hfit)
    (by intro p hp; rw [hv0, if_pos (by omega)])
  refine ⟨{ A with M := setToConstantRows A.n_local (A.m_local - 1) 1 b0 }, ?_, rfl, rfl, rfl,
    by rw [hl, hl0], ?_, ?_⟩
  · unfold setToConstant
    rw [h0]
  · intro i hi j hj
    have hlt := idx_lt i A.m_local A.n_local j hi hj
    simp only [hiopMatrixDense.elem]
    rw [hv _ (by omega), hcnt, Nat.one_mul]
    by_cases h1 : A.n_local ≤ i * A.n_local + j
    · rw [if_pos ⟨h1, hlt⟩]
    · rw [if_neg (by omega), hv0, if_pos (by omega)]
  · intro p hp
    show (setToConstantRows A.n_local (A.m_local - 1) 1 b0).getD p 0 = A.M.getD p 0
    by_cases hlen : p < A.M.length
    · rw [hv _ (by omega), hcnt, if_neg (by omega), hv0, if_neg (by omega)]
    · rw [getD_of_length_le _ _ (by rw [hl, hl0]; omega), getD_of_length_le _ _ (by omega)]

theorem idx_inj (n r c r1 c1 : Nat) (hc : c < n) (hc1 : c1 < n)
    (h : r * n + c = r1 * n + c1) : r = r1 ∧ c = c1 := by
  have hr : r = r1 := by
    rcases Nat.lt_trichotomy r r1 with h1 | h1 | h1
    · have := (idx_cases n r1 r c c1 hc hc1).1 h1; omega
    · exact h1
    · have := (idx_cases n r1 r c c1 hc hc1).2 h1; omega
  subst hr
  exact ⟨rfl, by omega⟩

theorem addElem_spec (buf : List R) (idx : Nat) (v : R) (h : idx < buf.length) :
    ∃ b, addElem buf idx v = .ok b ∧ b.length = buf.length ∧
      ∀ p, b.getD p 0 = if p = idx then buf.getD p 0 + v else buf.getD p 0 := by
  refine ⟨_, by unfold addElem; rw [if_pos h], by simp, fun p => ?_⟩
  rw [getD_map_range]
  by_cases hp : p < buf.length
  · rw [if_pos hp]
  · rw [if_neg hp, if_neg (by omega), getD_of_length_le _ _ (Nat.le_of_not_lt hp)]

theorem addDiagonalLoop_spec (n : Nat) (v : R) : ∀ (cnt i : Nat) (buf : List R),
    i + cnt ≤ n → n * n ≤ buf.length →
    ∃ b, addDiagonalLoop n v cnt i buf = .ok b ∧ b.length = buf.length ∧
      ∀ r c, c < n → b.getD (r * n + c) 0 =
        if i ≤ r ∧ r < i + cnt ∧ r = c then buf.getD (r * n + c) 0 + v
        else buf.getD (r * n + c) 0 := by
  intro cnt
  induction cnt with
  | zero =>
    intro i buf _ _
    exact ⟨buf, rfl, rfl, fun r c _ => by rw [if_neg (by omega)]⟩
  | succ cnt ih =>
    intro i buf hi hlen
    have hidx := idx_lt i n n i (by omega) (by omega)
    obtain ⟨b0, h0, hl0, hv0⟩ := addElem_spec buf (i * n + i) v (by omega)
    obtain ⟨b, hr, hl, hv⟩ := ih (i + 1) b0 (by omega) (by omega)
    refine ⟨b, ?_, by rw [hl, hl0], fun r c hc => ?_⟩
    · simp only [addDiagonalLoop, h0]
      exact hr
    · rw [hv r c hc, hv0]
      by_cases h1 : r = i ∧ c = i
      · obtain ⟨h1r, h1c⟩ := h1
        subst h1r; subst h1c
        rw [if_neg (by omega), if_pos rfl, if_pos (by omega)]
      · have hne : ¬ (r * n + c = i * n + i) := by
          intro h
          exact h1 (idx_inj n r c i i hc (by omega) h)
        by_cases h2 : i + 1 ≤ r ∧ r < i + 1 + cnt ∧ r = c
        · rw [if_pos h2, if_neg hne, if_pos (by omega)]
        · rw [if_neg h2, if_neg hne, if_neg (by omega)]

/-- C17: `addDiagonal(value)` on a square matrix changes the diagonal only.
For every non-distributed `n x n` matrix and every scalar `v` the call
returns, the shape is unchanged, `M[i][i] = M_old[i][i] + v` for every
`i < n` and `M[i][j] = M_old[i][j]` for every `i != j`. -/
theorem addDiagonal_square (A : hiopMatrixDense R) (v : R) (hA : A.wf)
    (hsq : A.m_local = A.n_local) (_hn : A.n_local = A.n_global) :
    ∃ A1, addDiagonal A v = .ok A1 ∧
      A1.m_local = A.m_local ∧ A1.n_local = A.n_local ∧ A1.n_global = A.n_global ∧
      A1.max_rows = A.max_rows ∧ A1.M.length = A.M.length ∧
      (∀ i < A.n_local, A1.elem i i = A.elem i i + v) ∧
      (∀ i < A.n_local, ∀ j < A.n_local, i ≠ j → A1.elem i j = A.elem i j) := by
  have hfit : A.n_local * A.n_local ≤ A.M.length := by
    rw [hA.1]; exact Nat.mul_le_mul_right _ (hsq ▸ hA.2.1)
  obtain ⟨b, hb, hl, hv⟩ := addDiagonalLoop_spec A.n_local v A.n_local 0 A.M (by omega) hfit
  refine ⟨{ A with M := b }, ?_, rfl, rfl, rfl, rfl, hl, ?_, ?_⟩
  · unfold addDiagonal
    rw [hb]
  · intro i hi
    simp only [hiopMatrixDense.elem]
    rw [hv i i hi, if_pos (by omega)]
  · intro i _ j hj hne
    simp only [hiopMatrixDense.elem]
    rw [hv i j hj, if_neg (by omega)]

/-- Witness of C17: `addDiagonal(5)` on the `3 x 3` identity gives
`[[6,0,0],[0,6,0],[0,0,6]]`. -/
theorem addDiagonal_square_witness :
    addDiagonal exI3 5 = .ok ⟨3, 3, 3, 0, 3, 3, [6, 0, 0, 0, 6, 0, 0, 0, 6]⟩ ∧
    exI3.wf ∧ exI3.m_local = exI3.n_local ∧ exI3.n_local = exI3.n_global ∧
    ∃ A1, addDiagonal exI3 5 = .ok A1 ∧
      A1.m_local = exI3.m_local ∧ A1.n_local = exI3.n_local ∧ A1.n_global = exI3.n_global ∧
      A1.max_rows = exI3.max_rows ∧ A1.M.length = exI3.M.length ∧
      (∀ i < exI3.n_local, A1.elem i i = exI3.elem i i + 5) ∧
      (∀ i < exI3.n_local, ∀ j < exI3.n_local, i ≠ j → A1.elem i j = exI3.elem i j) :=
  ⟨rfl, by simp only [hiopMatrixDense.wf]; decide, rfl, rfl,
    addDiagonal_square exI3 5 (by simp only [hiopMatrixDense.wf]; decide) rfl rfl⟩

theorem copyElem_spec (buf : List R) (dst src : Nat) (h1 : dst < buf.length)
    (h2 : src < buf.length) :
    ∃ b, copyElem buf dst src = .ok b ∧ b.length = buf.length ∧
      ∀ p, b.getD p 0 = if p = dst then buf.getD src 0 else buf.getD p 0 := by
  refine ⟨_, by unfold copyElem; rw [if_pos ⟨h1, h2⟩], by simp, fun p => ?_⟩
  rw [getD_map_range]
  by_cases hp : p < buf.length
  · rw [if_pos hp]
  · rw [if_neg hp, if_neg (by omega), getD_of_length_le _ _ (Nat.le_of_not_lt hp)]

theorem overwriteUpperRow_spec (n i : Nat) (hi : i < n) : ∀ (cnt j : Nat) (buf : List R),
    (i < j ∨ j + cnt ≤ i) → j + cnt ≤ n → n * n ≤ buf.length →
    ∃ b, overwriteUpperRow n i cnt j buf = .ok b ∧ b.length = buf.length ∧
      ∀ r c, c < n → b.getD (r * n + c) 0 =
        if r = i ∧ j ≤ c ∧ c < j + cnt then buf.getD (c * n + i) 0
        else buf.getD (r * n + c) 0 := by
  intro cnt
  induction cnt with
  | zero =>
    intro j buf _ _ _
    exact ⟨buf, rfl, rfl, fun r c _ => by rw [if_neg (by omega)]⟩
  | succ cnt ih =>
    intro j buf hij hj hlen
    have hd := idx_lt i n n j hi (by omega)
    have hs := idx_lt j n n i (by omega) hi
    obtain ⟨b0, h0, hl0, hv0⟩ := copyElem_spec buf (i * n + j) (j * n + i) (by omega) (by omega)
    obtain ⟨b, hr, hl, hv⟩ := ih (j + 1) b0 (by omega) (by omega) (by omega)
    refine ⟨b, ?_, by rw [hl, hl0], fun r c hc => ?_⟩
    · simp only [overwriteUpperRow, h0]
      exact hr
    · rw [hv r c hc]
      by_cases h2 : r = i ∧ j + 1 ≤ c ∧ c < j + 1 + cnt
      · have hne : ¬ (c * n + i = i * n + j) := by
          intro h
          have := idx_inj n c i i j hi (by omega) h
          omega
        rw [if_pos h2, hv0, if_neg hne, if_pos (by omega)]
      · rw [if_neg h2, hv0]
        by_cases h1 : r = i ∧ c = j
        · obtain ⟨h1r, h1c⟩ := h1
          subst h1r; subst h1c
          rw [if_pos rfl, if_pos (by omega)]
        · have hne : ¬ (r * n + c = i * n + j) := by
            intro h
            exact h1 (idx_inj n r c i j hc (by omega) h)
          rw [if_neg hne, if_neg (by omega)]

theorem overwriteLowerRow_eq (n i : Nat) : ∀ (cnt j : Nat) (buf : List R),
    overwriteLowerRow n i cnt j buf = overwriteUpperRow n i cnt j buf := by
  intro cnt
  induction cnt with
  | zero => intro j buf; rfl
  | succ cnt ih =>
    intro j buf
    simp only [overwriteLowerRow, overwriteUpperRow]
    cases copyElem buf (i * n + j) (j * n + i) with
    | error e => rfl
    | ok b => exact ih (j + 1) b

theorem overwriteUpperLoop_spec (n : Nat) : ∀ (cnt i : Nat) (buf : List R),
    i + cnt ≤ n → n * n ≤ buf.length →
    ∃ b, overwriteUpperLoop n cnt i buf = .ok b ∧ b.length = buf.length ∧
      ∀ r c, c < n → b.getD (r * n + c) 0 =
        if i ≤ r ∧ r < i + cnt ∧ r < c then buf.getD (c * n + r) 0
        else buf.getD (r * n + c) 0 := by
  intro cnt
  induction cnt with
  | zero =>
    intro i buf _ _
    exact ⟨buf, rfl, rfl, fun r c _ => by rw [if_neg (by omega)]⟩
  | succ cnt ih =>
    intro i buf hi hlen
    obtain ⟨b0, h0, hl0, hv0⟩ := overwriteUpperRow_spec n i (by omega) (n - (i + 1)) (i + 1) buf
      (by omega) (by omega) hlen
    obtain ⟨b, hr, hl, hv⟩ := ih (i + 1) b0 (by omega) (by omega)
    refine ⟨b, ?_, by rw [hl, hl0], fun r c hc => ?_⟩
    · simp only [overwriteUpperLoop, h0]
      exact hr
    · rw [hv r c hc]
      by_cases h2 : i + 1 ≤ r ∧ r < i + 1 + cnt ∧ r < c
      · rw [if_pos h2, hv0 c r (by omega), if_neg (by omega), if_pos (by omega)]
      · rw [if_neg h2, hv0 r c hc]
        by_cases h1 : r = i ∧ i + 1 ≤ c ∧ c < i + 1 + (n - (i + 1))
        · rw [if_pos h1, if_pos (by omega), h1.1]
        · rw [if_neg h1, if_neg (by omega)]

theorem overwriteLowerLoop_spec (n : Nat) : ∀ (cnt i : Nat) (buf : List R),
    i + cnt ≤ n → n * n ≤ buf.length →
    ∃ b, overwriteLowerLoop n cnt i buf = .ok b ∧ b.length = buf.length ∧
      ∀ r c, c < n → b.getD (r * n + c) 0 =
        if i ≤ r ∧ r < i + cnt ∧ c < r then buf.getD (c * n + r) 0
        else buf.getD (r * n + c) 0 := by
  intro cnt
  induction cnt with
  | zero =>
    intro i buf _ _
    exact ⟨buf, rfl, rfl, fun r c _ => by rw [if_neg (by omega)]⟩
  | succ cnt ih =>
    intro i buf hi hlen
    obtain ⟨b0, h0, hl0, hv0⟩ := overwriteUpperRow_spec n i (by omega) i 0 buf
      (by omega) (by omega) hlen
    rw [← overwriteLowerRow_eq] at h0
    obtain ⟨b, hr, hl, hv⟩ := ih (i + 1) b0 (by omega) (by omega)
    refine ⟨b, ?_, by rw [hl, hl0], fun r c hc => ?_⟩
    · simp only [overwriteLowerLoop, h0]
      exact hr
    · rw [hv r c hc]
      by_cases h2 : i + 1 ≤ r ∧ r < i + 1 + cnt ∧ c < r
      · rw [if_pos h2, hv0 c r (by omega), if_neg (by omega), if_pos (by omega)]
      · rw [if_neg h2, hv0 r c hc]
        by_cases h1 : r = i ∧ 0 ≤ c ∧ c < 0 + i
        · rw [if_pos h1, if_pos (by omega), h1.1]
        · rw [if_neg h1, if_neg (by omega)]

theorem block_ext (n k : Nat) (b1 b2 : List R) (hl : b1.length = b2.length)
    (hk : b1.length = k * n)
    (h : ∀ r c, c < n → b1.getD (r * n + c) 0 = b2.getD (r * n + c) 0) : b1 = b2 := by
  apply list_ext_getD _ _ hl
  intro p hp
  rw [hk] at hp
  have hpos : 0 < n := by
    rcases Nat.eq_zero_or_pos n with h0 | h0
    · rw [h0] at hp; simp at hp
    · exact h0
  have hdec : p = p / n * n + p % n := by
    rw [Nat.mul_comm]; exact (Nat.div_add_mod p n).symm
  rw [hdec]
  exact h _ _ (Nat.mod_lt p hpos)

theorem overwriteUpper_result (A : hiopMatrixDense R) (hA : A.wf)
    (hsq : A.m_local = A.n_local) (hn : A.n_local = A.n_global) :
    ∃ b, overwriteUpperTriangleWithLower A = .ok { A with M := b } ∧
      b.length = A.M.length ∧
      ∀ r c, c < A.n_local → b.getD (r * A.n_local + c) 0 =
        if r < c then A.M.getD (c * A.n_local + r) 0 else A.M.getD (r * A.n_local + c) 0 := by
  have hfit : A.n_local * A.n_local ≤ A.M.length := by
    rw [hA.1]; exact Nat.mul_le_mul_right _ (hsq ▸ hA.2.1)
  obtain ⟨b, hb, hl, hv⟩ := overwriteUpperLoop_spec A.n_local A.m_local 0 A.M (by omega) hfit
  refine ⟨b, ?_, hl, fun r c hc => ?_⟩
  · unfold overwriteUpperTriangleWithLower
    rw [if_neg (not_not.mpr hn), hb]
  · rw [hv r c hc]
    by_cases h : r < c
    · rw [if_pos (by omega), if_pos h]
    · rw [if_neg (by omega), if_neg h]

theorem overwriteLower_result (A : hiopMatrixDense R) (hA : A.wf)
    (hsq : A.m_local = A.n_local) (hn : A.n_local = A.n_global) :
    ∃ b, overwriteLowerTriangleWithUpper A = .ok { A with M := b } ∧
      b.length = A.M.length ∧
      ∀ r c, c < A.n_local → b.getD (r * A.n_local + c) 0 =
        if c < r ∧ r < A.n_local then A.M.getD (c * A.n_local + r) 0
        else A.M.getD (r * A.n_local + c) 0 := by
  have hfit : A.n_local * A.n_local ≤ A.M.length := by
    rw [hA.1]; exact Nat.mul_le_mul_right _ (hsq ▸ hA.2.1)
  by_cases h0 : A.n_local = 0
  · refine ⟨A.M, ?_, rfl, fun r c hc => by omega⟩
    unfold overwriteLowerTriangleWithUpper
    rw [if_neg (not_not.mpr hn), hsq, h0]
    rfl
  · obtain ⟨b, hb, hl, hv⟩ := overwriteLowerLoop_spec A.n_local (A.m_local - 1) 1 A.M
      (by omega) hfit
    refine ⟨b, ?_, hl, fun r c hc => ?_⟩
    · unfold overwriteLowerTriangleWithUpper
      rw [if_neg (not_not.mpr hn), hb]
    · rw [hv r c hc]
      by_cases h : c < r ∧ r < A.n_local
      · rw [if_pos (by omega), if_pos h]
      · rw [if_neg (by omega), if_neg h]

/-- C20: the triangle overwrites force exact symmetry.  For every
non-distributed `n x n` matrix, `overwriteUpperTriangleWithLower` returns a
matrix `U` of the same shape with `U[i][j] == U[j][i]` for all `i, j < n`
and every entry with `j <= i` unchanged, and applying it to `U` returns `U`
again; `overwriteLowerTriangleWithUpper` returns a matrix `L` of the same
shape with `L[i][j] == L[j][i]` for all `i, j < n` and every entry with
`j >= i` unchanged, and applying it to `L` returns `L` again. -/
theorem overwriteTriangle_symmetric (A : hiopMatrixDense R) (hA : A.wf)
    (hsq : A.m_local = A.n_local) (hn : A.n_local = A.n_global) :
    (∃ U, overwriteUpperTriangleWithLower A = .ok U ∧
      U.m_local = A.m_local ∧ U.n_local = A.n_local ∧ U.max_rows = A.max_rows ∧
      (∀ i < A.n_local, ∀ j < A.n_local, U.elem i j = U.elem j i) ∧
      (∀ i < A.n_local, ∀ j < A.n_local, j ≤ i → U.elem i j = A.elem i j) ∧
      overwriteUpperTriangleWithLower U = .ok U) ∧
    (∃ L, overwriteLowerTriangleWithUpper A = .ok L ∧
      L.m_local = A.m_local ∧ L.n_local = A.n_local ∧ L.max_rows = A.max_rows ∧
      (∀ i < A.n_local, ∀ j < A.n_local, L.elem i j = L.elem j i) ∧
      (∀ i < A.n_local, ∀ j < A.n_local, i ≤ j → L.elem i j = A.elem i j) ∧
      overwriteLowerTriangleWithUpper L = .ok L) := by
  constructor
  · obtain ⟨b, hb, hl, hv⟩ := overwriteUpper_result A hA hsq hn
    have hU : ({ A with M := b } : hiopMatrixDense R).wf :=
      ⟨by rw [hl]; exact hA.1, hA.2.1, hA.2.2.1, hA.2.2.2⟩
    refine ⟨{ A with M := b }, hb, rfl, rfl, rfl, ?_, ?_, ?_⟩
    · intro i hi j hj
      simp only [hiopMatrixDense.elem]
      rw [hv i j hj, hv j i hi]
      rcases Nat.lt_trichotomy i j with h | h | h
      · rw [if_pos h, if_neg (by omega)]
      · rw [h]
      · rw [if_neg (by omega), if_pos h]
    · intro i _ j hj hji
      simp only [hiopMatrixDense.elem]
      rw [hv i j hj, if_neg (by omega)]
    · obtain ⟨b2, hb2, hl2, hv2⟩ := overwriteUpper_result { A with M := b } hU hsq hn
      rw [hb2]
      have : b2 = b := by
        apply block_ext A.n_local A.max_rows b2 b hl2 (by rw [hl2]; exact hU.1)
        intro r c hc
        have h2 := hv2 r c hc
        simp only at h2
        rw [h2]
        by_cases h : r < c
        · rw [if_pos h, hv c r (by omega), if_neg (by omega), hv r c hc, if_pos h]
        · rw [if_neg h]
      rw [this]
  · obtain ⟨b, hb, hl, hv⟩ := overwriteLower_result A hA hsq hn
    have hL : ({ A with M := b } : hiopMatrixDense R).wf :=
      ⟨by rw [hl]; exact hA.1, hA.2.1, hA.2.2.1, hA.2.2.2⟩
    refine ⟨{ A with M := b }, hb, rfl, rfl, rfl, ?_, ?_, ?_⟩
    · intro i hi j hj
      simp only [hiopMatrixDense.elem]
      rw [hv i j hj, hv j i hi]
      rcases Nat.lt_trichotomy i j with h | h | h
      · rw [if_neg (by omega), if_pos ⟨h, hj⟩]
      · rw [h]
      · rw [if_pos ⟨h, hi⟩, if_neg (by omega)]
    · intro i _ j hj hij
      simp only [hiopMatrixDense.elem]
      rw [hv i j hj, if_neg (by omega)]
    · obtain ⟨b2, hb2, hl2, hv2⟩ := overwriteLower_result { A with M := b } hL hsq hn
      rw [hb2]
      have : b2 = b := by
        apply block_ext A.n_local A.max_rows b2 b hl2 (by rw [hl2]; exact hL.1)
        intro r c hc
        have h2 := hv2 r c hc
        simp only at h2
        rw [h2]
        by_cases h : c < r ∧ r < A.n_local
        · rw [if_pos h, hv c r (by omega), if_neg (by omega), hv r c hc, if_pos h]
        · rw [if_neg h]
      rw [this]

/-- Witness of C20: on `[[1,2,3],[4,5,6],[7,8,9]]` the two overwrites give
`[[1,4,7],[4,5,8],[7,8,9]]` and `[[1,2,3],[2,5,6],[3,6,9]]`. -/
theorem overwriteTriangle_symmetric_witness :
    overwriteUpperTriangleWithLower exSeq33 = .ok ⟨3, 3, 3, 0, 3, 3, [1, 4, 7, 4, 5, 8, 7, 8, 9]⟩ ∧
    overwriteLowerTriangleWithUpper exSeq33 = .ok ⟨3, 3, 3, 0, 3, 3, [1, 2, 3, 2, 5, 6, 3, 6, 9]⟩ ∧
    exSeq33.wf ∧ exSeq33.m_local = exSeq33.n_local ∧ exSeq33.n_local = exSeq33.n_global ∧
    ∃ U, overwriteUpperTriangleWithLower exSeq33 = .ok U ∧
      U.m_local = exSeq33.m_local ∧ U.n_local = exSeq33.n_local ∧
      U.max_rows = exSeq33.max_rows ∧
      (∀ i < exSeq33.n_local, ∀ j < exSeq33.n_local, U.elem i j = U.elem j i) ∧
      (∀ i < exSeq33.n_local, ∀ j < exSeq33.n_local, j ≤ i → U.elem i j = exSeq33.elem i j) ∧
      overwriteUpperTriangleWithLower U = .ok U :=
  ⟨rfl, rfl, by simp only [hiopMatrixDense.wf]; decide, rfl, rfl,
    (overwriteTriangle_symmetric exSeq33 (by simp only [hiopMatrixDense.wf]; decide) rfl rfl).1⟩

theorem maxTo_nonneg {S : Type} [LinearOrderedCommRing S] (f : Nat → S) :
    ∀ n, 0 ≤ maxTo n f := by
  intro n
  induction n with
  | zero => exact le_refl _
  | succ k ih => exact le_trans ih (le_max_left _ _)

theorem maxTo_ge {S : Type} [LinearOrderedCommRing S] (f : Nat → S) :
    ∀ n k, k < n → f k ≤ maxTo n f := by
  intro n
  induction n with
  | zero => intro k hk; omega
  | succ m ih =>
    intro k hk
    rcases Nat.lt_succ_iff_lt_or_eq.mp hk with h | h
    · exact le_trans (ih k h) (le_max_left _ _)
    · rw [h]; exact le_max_right _ _

theorem maxTo_attained {S : Type} [LinearOrderedCommRing S] (f : Nat → S) :
    ∀ n, maxTo n f = 0 ∨ ∃ k < n, maxTo n f = f k := by
  intro n
  induction n with
  | zero => exact Or.inl rfl
  | succ m ih =>
    rcases max_choice (maxTo m f) (f m) with h | h
    · rcases ih with h0 | ⟨k, hk, hv⟩
      · exact Or.inl (by show max (maxTo m f) (f m) = 0; rw [h, h0])
      · exact Or.inr ⟨k, by omega, by show max (maxTo m f) (f m) = f k; rw [h, hv]⟩
    · exact Or.inr ⟨m, by omega, h⟩

theorem foldl_max_ge {S : Type} [LinearOrderedCommRing S] :
    ∀ (l : List S) (v : S), v ≤ l.foldl max v ∧ ∀ x ∈ l, x ≤ l.foldl max v := by
  intro l
  induction l with
  | nil => intro v; exact ⟨le_refl _, fun x hx => by simp at hx⟩
  | cons a rest ih =>
    intro v
    obtain ⟨h1, h2⟩ := ih (max v a)
    refine ⟨le_trans (le_max_left _ _) h1, fun x hx => ?_⟩
    rcases List.mem_cons.mp hx with h | h
    · rw [h]; exact le_trans (le_max_right _ _) h1
    · exact h2 x h

theorem foldl_max_mem {S : Type} [LinearOrderedCommRing S] :
    ∀ (l : List S) (v : S), l.foldl max v = v ∨ l.foldl max v ∈ l := by
  intro l
  induction l with
  | nil => intro v; exact Or.inl rfl
  | cons a rest ih =>
    intro v
    rcases ih (max v a) with h | h
    · rcases max_choice v a with h1 | h1
      · exact Or.inl (by show rest.foldl max (max v a) = v; rw [h, h1])
      · exact Or.inr (by
          show rest.foldl max (max v a) ∈ a :: rest
          rw [h, h1]; exact List.mem_cons_self _ _)
    · exact Or.inr (List.mem_cons_of_mem _ h)

theorem allreduce_max_ge {S : Type} [LinearOrderedCommRing S] (vals : List S) :
    ∀ x ∈ vals, x ≤ MPI_Allreduce_MAX vals := by
  intro x hx
  cases vals with
  | nil => simp at hx
  | cons v rest =>
    obtain ⟨h1, h2⟩ := foldl_max_ge rest v
    rcases List.mem_cons.mp hx with h | h
    · rw [h]; exact h1
    · exact h2 x h

theorem allreduce_max_mem {S : Type} [LinearOrderedCommRing S] (vals : List S)
    (h : vals ≠ []) : MPI_Allreduce_MAX vals ∈ vals := by
  cases vals with
  | nil => exact absurd rfl h
  | cons v rest =>
    rcases foldl_max_mem rest v with h1 | h1
    · show rest.foldl max v ∈ v :: rest
      rw [h1]; exact List.mem_cons_self _ _
    · exact List.mem_cons_of_mem _ h1

/-- The local norm of `max_abs_value`: a bound of every populated element,
not negative, and either 0 or the absolute value of a populated element. -/
theorem DLANGE_local {S : Type} [LinearOrderedCommRing S] (A : hiopMatrixDense S) :
    (∀ i < A.m_local, ∀ j < A.n_local,
      |A.elem i j| ≤ DLANGE 'M' A.n_local A.m_local A.M A.n_local) ∧
    0 ≤ DLANGE 'M' A.n_local A.m_local A.M A.n_local ∧
    (DLANGE 'M' A.n_local A.m_local A.M A.n_local = 0 ∨
      ∃ i < A.m_local, ∃ j < A.n_local,
        DLANGE 'M' A.n_local A.m_local A.M A.n_local = |A.elem i j|) := by
  have hdef : DLANGE 'M' A.n_local A.m_local A.M A.n_local =
      maxTo A.m_local (fun i => maxTo A.n_local (fun j => |A.elem i j|)) := by
    unfold DLANGE
    rw [if_pos rfl]
    congr 1
    funext i
    congr 1
    funext j
    simp only [hiopMatrixDense.elem, Nat.add_comm]
  rw [hdef]
  refine ⟨fun i hi j hj => ?_, maxTo_nonneg _ _, ?_⟩
  · exact le_trans (maxTo_ge (fun j => |A.elem i j|) A.n_local j hj)
      (maxTo_ge (fun i => maxTo A.n_local (fun j => |A.elem i j|)) A.m_local i hi)
  · rcases maxTo_attained (fun i => maxTo A.n_local (fun j => |A.elem i j|)) A.m_local with
      h | ⟨i, hi, hv⟩
    · exact Or.inl h
    · rcases maxTo_attained (fun j => |A.elem i j|) A.n_local with h | ⟨j, hj, hw⟩
      · exact Or.inl (by rw [hv]; exact h)
      · exact Or.inr ⟨i, hi, j, hj, by rw [hv]; exact hw⟩

/-- C18: `max_abs_value` returns the global maximum.  For every list of
ranks (any column partition), the value every rank receives is an upper
bound of `|M[i][j]|` for every populated local element of every rank, and,
when some rank has at least one element, it is `|M[i][j]|` for one of
them. -/
theorem max_abs_value_global {S : Type} [LinearOrderedCommRing S]
    (ranks : List (hiopMatrixDense S)) :
    (max_abs_value ranks).length = ranks.length ∧
    ∀ v ∈ max_abs_value ranks,
      (∀ A ∈ ranks, ∀ i < A.m_local, ∀ j < A.n_local, |A.elem i j| ≤ v) ∧
      ((∃ A ∈ ranks, 0 < A.m_local ∧ 0 < A.n_local) →
        ∃ A ∈ ranks, ∃ i < A.m_local, ∃ j < A.n_local, v = |A.elem i j|) := by
  refine ⟨by simp [max_abs_value], ?_⟩
  intro v hv
  have hv' : v = MPI_Allreduce_MAX
      (ranks.map fun A => DLANGE 'M' A.n_local A.m_local A.M A.n_local) := by
    simp only [max_abs_value, List.mem_map] at hv
    obtain ⟨_, _, h⟩ := hv
    exact h.symm
  have hbound : ∀ A ∈ ranks, ∀ i < A.m_local, ∀ j < A.n_local, |A.elem i j| ≤ v := by
    intro A hA i hi j hj
    rw [hv']
    exact le_trans ((DLANGE_local A).1 i hi j hj)
      (allreduce_max_ge _ _ (List.mem_map.mpr ⟨A, hA, rfl⟩))
  refine ⟨hbound, ?_⟩
  rintro ⟨A0, hA0, hm0, hn0⟩
  have hne : (ranks.map fun A => DLANGE 'M' A.n_local A.m_local A.M A.n_local) ≠ [] := by
    intro h
    rw [List.map_eq_nil_iff] at h
    rw [h] at hA0
    simp at hA0
  obtain ⟨B, hB, hBv⟩ := List.mem_map.mp (allreduce_max_mem _ hne)
  rw [← hv'] at hBv
  rcases (DLANGE_local B).2.2 with h | ⟨i, hi, j, hj, h⟩
  · -- the maximum is 0: every element has absolute value 0
    refine ⟨A0, hA0, 0, hm0, 0, hn0, ?_⟩
    have h1 : |A0.elem 0 0| ≤ v := hbound A0 hA0 0 hm0 0 hn0
    have h2 : v = 0 := by rw [← hBv, h]
    rw [h2] at h1 ⊢
    exact (le_antisymm h1 (abs_nonneg _)).symm
  · exact ⟨B, hB, i, hi, j, hj, by rw [← hBv, h]⟩

/-- Witness of C18: the columns `[1,-3,5]` and `[2,4,-6]` on two ranks give
6 on both ranks. -/
theorem max_abs_value_global_witness :
    max_abs_value exRanksMax = [6, 6] ∧
    (max_abs_value exRanksMax).length = exRanksMax.length ∧
    ∀ v ∈ max_abs_value exRanksMax,
      (∀ A ∈ exRanksMax, ∀ i < A.m_local, ∀ j < A.n_local, |A.elem i j| ≤ v) ∧
      ((∃ A ∈ exRanksMax, 0 < A.m_local ∧ 0 < A.n_local) →
        ∃ A ∈ exRanksMax, ∃ i < A.m_local, ∃ j < A.n_local, v = |A.elem i j|) :=
  ⟨rfl, max_abs_value_global exRanksMax⟩

theorem readElem_ok {S : Type} [LinearOrderedField S] (A : hiopMatrixDense S) (hA : A.wf)
    (i j : Nat) (hi : i < A.m_local) (hj : j < A.n_local) :
    readElem A (i : Int) (j : Int) = .ok (A.elem i j) := by
  have hlt := idx_lt i A.m_local A.n_local j hi hj
  have hfit : A.m_local * A.n_local ≤ A.M.length := by
    rw [hA.1]; exact Nat.mul_le_mul_right _ hA.2.1
  have hcast : (i : Int) * (A.n_local : Int) + (j : Int) = ((i * A.n_local + j : Nat) : Int) := by
    push_cast; rfl
  have hmax := hA.2.1
  have htn : ((i : Int) * (A.n_local : Int) + (j : Int)).toNat = i * A.n_local + j := by
    rw [hcast]; exact Int.toNat_natCast _
  unfold readElem
  rw [if_pos ⟨Int.ofNat_nonneg _, by omega, by omega, by omega⟩, htn]
  rfl

theorem assertSymmetryRow_spec {S : Type} [LinearOrderedField S] (A : hiopMatrixDense S)
    (tol : S) (hA : A.wf) (hsq : A.m_local = A.n_local) (i : Nat) (hi : i < A.n_local) :
    ∀ cnt j, j + cnt ≤ A.n_local →
      (assertSymmetryRow A tol i cnt j = .ok () ∧
        ∀ c, j ≤ c → c < j + cnt →
          |A.elem i c - A.elem c i| / (1 + |A.elem i c|) < tol) ∨
      (assertSymmetryRow A tol i cnt j = .error .assertion ∧
        ∃ c, j ≤ c ∧ c < j + cnt ∧
          ¬ (|A.elem i c - A.elem c i| / (1 + |A.elem i c|) < tol)) := by
  intro cnt
  induction cnt with
  | zero =>
    intro j _
    exact Or.inl ⟨rfl, fun c h1 h2 => by omega⟩
  | succ cnt ih =>
    intro j hj
    have r1 := readElem_ok A hA i j (by omega) (by omega)
    have r2 := readElem_ok A hA j i (by omega) hi
    by_cases hok : |A.elem i j - A.elem j i| / (1 + |A.elem i j|) < tol
    · rcases ih (j + 1) (by omega) with ⟨h1, h2⟩ | ⟨h1, c, hc1, hc2, hc3⟩
      · refine Or.inl ⟨?_, fun c hc1 hc2 => ?_⟩
        · simp only [assertSymmetryRow, r1, r2, if_pos hok]
          exact h1
        · rcases Nat.eq_or_lt_of_le hc1 with h | h
          · rw [← h]; exact hok
          · exact h2 c (by omega) (by omega)
      · refine Or.inr ⟨?_, c, by omega, by omega, hc3⟩
        simp only [assertSymmetryRow, r1, r2, if_pos hok]
        exact h1
    · refine Or.inr ⟨?_, j, le_refl _, by omega, hok⟩
      simp only [assertSymmetryRow, r1, r2, if_neg hok]

theorem assertSymmetryLoop_spec {S : Type} [LinearOrderedField S] (A : hiopMatrixDense S)
    (tol : S) (hA : A.wf) (hsq : A.m_local = A.n_local) :
    ∀ cnt i, i + cnt ≤ A.n_local →
      (assertSymmetryLoop A tol cnt i = .ok () ∧
        ∀ r, i ≤ r → r < i + cnt → ∀ c < A.n_local,
          |A.elem r c - A.elem c r| / (1 + |A.elem r c|) < tol) ∨
      (assertSymmetryLoop A tol cnt i = .error .assertion ∧
        ∃ r c, r < A.n_local ∧ c < A.n_local ∧
          ¬ (|A.elem r c - A.elem c r| / (1 + |A.elem r c|) < tol)) := by
  intro cnt
  induction cnt with
  | zero =>
    intro i _
    exact Or.inl ⟨rfl, fun r h1 h2 => by omega⟩
  | succ cnt ih =>
    intro i hi
    rcases assertSymmetryRow_spec A tol hA hsq i (by omega) A.n_local 0 (by omega) with
      ⟨h1, h2⟩ | ⟨h1, c, _, hc2, hc3⟩
    · rcases ih (i + 1) (by omega) with ⟨g1, g2⟩ | ⟨g1, r, c, hr, hc, hbad⟩
      · refine Or.inl ⟨?_, fun r hr1 hr2 c hc => ?_⟩
        · simp only [assertSymmetryLoop, h1]
          exact g1
        · rcases Nat.eq_or_lt_of_le hr1 with h | h
          · rw [← h]; exact h2 c (Nat.zero_le _) (by omega)
          · exact g2 r (by omega) (by omega) c hc
      · refine Or.inr ⟨?_, r, c, hr, hc, hbad⟩
        simp only [assertSymmetryLoop, h1]
        exact g1
    · refine Or.inr ⟨?_, i, c, by omega, by omega, hc3⟩
      simp only [assertSymmetryLoop, h1]

/-- What `assertSymmetry` accepts: exactly the square matrices whose every
pair passes the strict test of the assertion; it stops at the assertion
otherwise. -/
theorem assertSymmetry_iff {S : Type} [LinearOrderedField S] (A : hiopMatrixDense S) (tol : S)
    (hA : A.wf) (hsq : A.m_local = A.n_local) (hn : A.n_local = A.n_global) :
    (assertSymmetry A tol = .ok true ↔
      ∀ i < A.n_local, ∀ j < A.n_local,
        |A.elem i j - A.elem j i| < tol * (1 + |A.elem i j|)) ∧
    (assertSymmetry A tol = .ok true ∨ assertSymmetry A tol = .error .assertion) := by
  have hpos : ∀ x : S, 0 < 1 + |x| := fun x =>
    lt_of_lt_of_le zero_lt_one (le_add_of_nonneg_right (abs_nonneg x))
  have hdiv : ∀ i j, (|A.elem i j - A.elem j i| / (1 + |A.elem i j|) < tol ↔
      |A.elem i j - A.elem j i| < tol * (1 + |A.elem i j|)) := fun i j =>
    div_lt_iff₀ (hpos _)
  have hm : ¬ (A.m_local ≠ A.n_global) := by
    rw [not_not, hsq, hn]
  rcases assertSymmetryLoop_spec A tol hA hsq A.n_local 0 (by omega) with
    ⟨h1, h2⟩ | ⟨h1, r, c, hr, hc, hbad⟩
  · have hres : assertSymmetry A tol = .ok true := by
      unfold assertSymmetry
      rw [if_neg hm, h1]
    refine ⟨⟨fun _ i hi j hj => (hdiv i j).mp (h2 i (Nat.zero_le _) (by omega) j hj),
      fun _ => hres⟩, Or.inl hres⟩
  · have hres : assertSymmetry A tol = .error .assertion := by
      unfold assertSymmetry
      rw [if_neg hm, h1]
    refine ⟨⟨fun h => ?_, fun h => ?_⟩, Or.inr hres⟩
    · rw [hres] at h
      cases h
    · exact absurd ((hdiv r c).mpr (h r hr c hc)) hbad

/-- C19, counterexample: the `1 x 1` matrix `[[1]]` is symmetric and
satisfies `|M[i][j] - M[j][i]| <= tol*(1 + |M[i][j]|)` for the tolerance
`tol = 0 >= 0`, but `assertSymmetry(0)` does not succeed: the assertion is
the strict test `relerr < tol`, and `0 < 0` fails. -/
theorem assertSymmetry_zero_tolerance :
    (0 : ℚ) ≤ 0 ∧
    (∀ i < exOneQ.n_local, ∀ j < exOneQ.n_local, exOneQ.elem i j = exOneQ.elem j i) ∧
    (∀ i < exOneQ.n_local, ∀ j < exOneQ.n_local,
      |exOneQ.elem i j - exOneQ.elem j i| ≤ 0 * (1 + |exOneQ.elem i j|)) ∧
    assertSymmetry exOneQ 0 = .error .assertion := by
  have hsym : ∀ i < exOneQ.n_local, ∀ j < exOneQ.n_local,
      exOneQ.elem i j = exOneQ.elem j i := by
    intro i hi j hj
    have hi' : i = 0 := by
      have : i < 1 := hi
      omega
    have hj' : j = 0 := by
      have : j < 1 := hj
      omega
    rw [hi', hj']
  have hwf : exOneQ.wf := by simp only [hiopMatrixDense.wf]; decide
  refine ⟨le_refl _, hsym, fun i hi j hj => ?_, ?_⟩
  · rw [hsym i hi j hj, sub_self, abs_zero, zero_mul]
  · obtain ⟨hiff, hor⟩ := assertSymmetry_iff exOneQ 0 hwf rfl rfl
    rcases hor with h | h
    · have := hiff.mp h 0 (by decide) 0 (by decide)
      rw [sub_self, abs_zero, zero_mul] at this
      exact absurd this (lt_irrefl _)
    · exact h

/-- C19, as amended: `assertSymmetry` accepts exactly the matrices that are
symmetric strictly within the tolerance.  For every square non-distributed
matrix and every tolerance `tol`, `assertSymmetry(tol)` succeeds iff
`|M[i][j] - M[j][i]| < tol*(1 + |M[i][j]|)` for all `i, j`, and stops at its
assertion otherwise.  So for `tol > 0` it accepts every matrix with
`M[i][j] == M[j][i]` for all `i, j`, and it rejects a matrix in which some
pair differs by `tol*(1 + |M[i][j]|)` or more. -/
theorem assertSymmetry_strict {S : Type} [LinearOrderedField S] (A : hiopMatrixDense S)
    (tol : S) (hA : A.wf) (hsq : A.m_local = A.n_local) (hn : A.n_local = A.n_global) :
    (assertSymmetry A tol = .ok true ↔
      ∀ i < A.n_local, ∀ j < A.n_local,
        |A.elem i j - A.elem j i| < tol * (1 + |A.elem i j|)) ∧
    (assertSymmetry A tol = .ok true ∨ assertSymmetry A tol = .error .assertion) ∧
    (0 < tol → (∀ i < A.n_local, ∀ j < A.n_local, A.elem i j = A.elem j i) →
      assertSymmetry A tol = .ok true) ∧
    (∀ i < A.n_local, ∀ j < A.n_local,
      tol * (1 + |A.elem i j|) ≤ |A.elem i j - A.elem j i| →
      assertSymmetry A tol = .error .assertion) := by
  obtain ⟨hiff, hor⟩ := assertSymmetry_iff A tol hA hsq hn
  refine ⟨hiff, hor, fun htol hsym => ?_, fun i hi j hj hbad => ?_⟩
  · apply hiff.mpr
    intro i hi j hj
    rw [hsym i hi j hj, sub_self, abs_zero]
    exact mul_pos htol (lt_of_lt_of_le zero_lt_one (le_add_of_nonneg_right (abs_nonneg _)))
  · rcases hor with h | h
    · exact absurd (hiff.mp h i hi j hj) (not_lt.mpr hbad)
    · exact h

/-- Witness of C19 (amended): with the tolerance `1/2` the symmetric matrix
`[[1,2],[2,3]]` is accepted. -/
theorem assertSymmetry_strict_witness :
    exSymQ.wf ∧ exSymQ.m_local = exSymQ.n_local ∧ exSymQ.n_local = exSymQ.n_global ∧
    ((assertSymmetry exSymQ (1 / 2) = .ok true ↔
      ∀ i < exSymQ.n_local, ∀ j < exSymQ.n_local,
        |exSymQ.elem i j - exSymQ.elem j i| < 1 / 2 * (1 + |exSymQ.elem i j|)) ∧
    (assertSymmetry exSymQ (1 / 2) = .ok true ∨
      assertSymmetry exSymQ (1 / 2) = .error .assertion) ∧
    ((0 : ℚ) < 1 / 2 →
      (∀ i < exSymQ.n_local, ∀ j < exSymQ.n_local, exSymQ.elem i j = exSymQ.elem j i) →
      assertSymmetry exSymQ (1 / 2) = .ok true) ∧
    (∀ i < exSymQ.n_local, ∀ j < exSymQ.n_local,
      1 / 2 * (1 + |exSymQ.elem i j|) ≤ |exSymQ.elem i j - exSymQ.elem j i| →
      assertSymmetry exSymQ (1 / 2) = .error .assertion)) :=
  ⟨by simp only [hiopMatrixDense.wf]; decide, rfl, rfl,
    assertSymmetry_strict exSymQ (1 / 2) (by simp only [hiopMatrixDense.wf]; decide) rfl rfl⟩

/-- With the tolerance `1/10` the matrix `[[1,2],[3,3]]`, the symmetric
`[[1,2],[2,3]]` with one off-diagonal entry perturbed by 1, is rejected. -/
theorem assertSymmetry_rejects_perturbed :
    assertSymmetry exAsymQ (1 / 10) = .error .assertion := by
  have h01 : exAsymQ.elem 0 1 = 2 := rfl
  have h10 : exAsymQ.elem 1 0 = 3 := rfl
  have hwf : exAsymQ.wf := by simp only [hiopMatrixDense.wf]; decide
  refine (assertSymmetry_iff exAsymQ (1 / 10) hwf rfl rfl).2.resolve_left ?_
  intro h
  have := ((assertSymmetry_iff exAsymQ (1 / 10) hwf rfl rfl).1.mp h) 0 (by decide) 1 (by decide)
  rw [h01, h10] at this
  norm_num [abs_of_pos, abs_of_neg] at this

/-- C21, the failing inputs: `shiftRows(1)`, a legal shift away from row 0,
in the `DEEP_CHECKING` build on `[[1,2],[3,4],[5,6]]`.  The check after the
copy indexes the row `m_local = 3`, which is not a populated row.  With
capacity 3 that is one past the row pointers and the call stops at a memory
fault; with capacity 4 the row holds stale zeros, the sampled `M[2][0] = 5`
differs from `M[3][0] = 0` and the call stops at the first assertion,
although the copy itself is right (the plain build returns
`[[1,2],[1,2],[3,4]]`). -/
theorem shiftRows_self_check_positive_shift :
    (0 : Int) < |1| ∧ |1| < (exM.m_local : Int) ∧ 1 ≤ exM.n_local ∧
    shiftRows true exM 1 = .error .memory ∧
    shiftRows true exMcap4 1 = .error .assertion ∧
    readElem exMcap4 ((exMcap4.m_local : Int) - 1) 0 = .ok 5 ∧
    shiftRows false exMcap4 1 = .ok ⟨3, 2, 2, 0, 2, 4, [1, 2, 1, 2, 3, 4, 0, 0]⟩ ∧
    readElem (⟨3, 2, 2, 0, 2, 4, [1, 2, 1, 2, 3, 4, 0, 0]⟩ : hiopMatrixDense ℤ)
      (exMcap4.m_local : Int) 0 = .ok 0 :=
  ⟨by decide, by decide, by decide, rfl, rfl, rfl, rfl, rfl⟩

theorem readElem_elem (A : hiopMatrixDense R) (i j : Nat) (hi : i < A.max_rows)
    (hj : j < A.n_local) (hlen : A.M.length = A.max_rows * A.n_local) :
    readElem A (i : Int) (j : Int) = .ok (A.elem i j) := by
  have hlt := idx_lt i A.max_rows A.n_local j hi hj
  have hcast : (i : Int) * (A.n_local : Int) + (j : Int) = ((i * A.n_local + j : Nat) : Int) := by
    push_cast; rfl
  have htn : ((i : Int) * (A.n_local : Int) + (j : Int)).toNat = i * A.n_local + j := by
    rw [hcast]; exact Int.toNat_natCast _
  unfold readElem
  rw [if_pos ⟨Int.ofNat_nonneg _, by omega, by omega, by omega⟩, htn]
  rfl

/-- For a shift toward row 0 the self-check of the `DEEP_CHECKING` build is
valid: it samples the row `-shift` and compares it with row 0 after the
copy, both populated rows, the two assertions hold and the call returns what
the plain build returns. -/
theorem shiftRows_self_check_negative_shift [DecidableEq R] (A : hiopMatrixDense R)
    (shift : Int) (hA : A.wf) (hn : 1 ≤ A.n_local) (hneg : shift < 0)
    (hlt : |shift| < (A.m_local : Int)) :
    ∃ A1, shiftRows true A shift = .ok A1 ∧ shiftRows false A shift = .ok A1 ∧
      (-shift).toNat < A.m_local ∧
      A1.elem 0 0 = A.elem (-shift).toNat 0 ∧
      A1.elem 0 (A.n_local - 1) = A.elem (-shift).toNat (A.n_local - 1) := by
  have habs : |shift| = -shift := abs_of_neg hneg
  have h0 : 0 < |shift| := by rw [habs]; omega
  obtain ⟨A1, hr, e1, e2, _, _, _, e3, e4, hv⟩ := shiftRows_plain A shift hA h0 hlt
  have hs : ((-shift).toNat : Int) = -shift := Int.toNat_of_nonneg (by omega)
  have hsm : (-shift).toNat < A.m_local := by omega
  have hrow : ∀ j < A.n_local, A1.elem 0 j = A.elem (-shift).toNat j := by
    intro j hj
    have := hv 0 (by omega) (by simp; omega) (by simp; omega) j hj
    simpa using this
  refine ⟨A1, ?_, hr, hsm, hrow 0 (by omega), hrow (A.n_local - 1) (by omega)⟩
  -- the structure of the plain result
  have hplain := hr
  unfold shiftRows at hplain ⊢
  have h1 : ¬ shift = 0 := by omega
  have h2 : ¬ (-shift = (A.m_local : Int)) := by omega
  have h3 : ¬ ¬ (|shift| < (A.m_local : Int)) := not_not.mpr hlt
  rw [if_neg h1, if_neg h2, if_neg h3] at hplain ⊢
  simp only [Bool.false_eq_true, if_false, if_pos hneg] at hplain
  simp only [if_true, if_pos hneg]
  have hlast : ((A.n_local : Int) - 1) = ((A.n_local - 1 : Nat) : Int) := by omega
  have r1 : readElem A (-shift) 0 = .ok (A.elem (-shift).toNat 0) := by
    rw [← hs]
    exact readElem_elem A _ 0 (by have := hA.2.1; omega) (by omega) hA.1
  have r2 : readElem A (-shift) ((A.n_local : Int) - 1) =
      .ok (A.elem (-shift).toNat (A.n_local - 1)) := by
    rw [← hs, hlast]
    exact readElem_elem A _ _ (by have := hA.2.1; omega) (by omega) hA.1
  rw [r1, r2]
  split at hplain
  · cases hplain
  · rename_i buf hbuf
    cases hplain
    simp only [hbuf]
    have hA1len : ({ A with M := buf } : hiopMatrixDense R).M.length =
        ({ A with M := buf } : hiopMatrixDense R).max_rows *
          ({ A with M := buf } : hiopMatrixDense R).n_local := by
      show buf.length = A.max_rows * A.n_local
      rw [← hA.1]; exact e4
    have q1 : readElem ({ A with M := buf } : hiopMatrixDense R) 0 0 =
        .ok (({ A with M := buf } : hiopMatrixDense R).elem 0 0) :=
      readElem_elem _ 0 0 (by show 0 < A.max_rows; have := hA.2.1; omega)
        (by show 0 < A.n_local; omega) hA1len
    have q2 : readElem ({ A with M := buf } : hiopMatrixDense R) 0 ((A.n_local : Int) - 1) =
        .ok (({ A with M := buf } : hiopMatrixDense R).elem 0 (A.n_local - 1)) := by
      rw [hlast]
      exact readElem_elem _ 0 _ (by show 0 < A.max_rows; have := hA.2.1; omega)
        (by show A.n_local - 1 < A.n_local; omega) hA1len
    rw [q1, q2, hrow 0 (by omega), hrow (A.n_local - 1) (by omega)]
    simp

/-- C22, the counterexample: `addDiagonal(5)` on matrices with more columns
than rows.  On the `2 x 3` matrix of ones allocated for two rows the loop
reaches `M[2][2]`, one past the row pointers, and the call stops at a memory
fault.  On the `1 x 2` matrix `[[1,2]]` allocated for two rows the call
returns, but it has added 5 to two entries, `(0,0)` and `(1,1)`, and
`min(1, 2) = 1`: the entry `(1,1)` lies in row 1, which is not a populated
row. -/
theorem addDiagonal_wide_leaves_rows :
    exOnes23.wf ∧ exWide12.wf ∧
    addDiagonal exOnes23 5 = .error .memory ∧
    addDiagonal exWide12 5 = .ok ⟨1, 2, 2, 0, 2, 2, [6, 2, 0, 5]⟩ ∧
    min exWide12.m_local exWide12.n_local = 1 ∧
    ¬ ((1 : Nat) < exWide12.m_local) ∧
    exWide12.elem 1 1 = 0 ∧
    (⟨1, 2, 2, 0, 2, 2, [6, 2, 0, 5]⟩ : hiopMatrixDense ℤ).elem 1 1 = 5 :=
  ⟨by simp only [hiopMatrixDense.wf]; decide, by simp only [hiopMatrixDense.wf]; decide,
    rfl, rfl, by decide, by decide, rfl, rfl⟩

/-- C22, amended: `addDiagonal(value)` stays inside the populated rows when
the matrix has no more local columns than local rows.  For every such matrix
the call returns with the shape unchanged, `min(m_local, n_local)` is
`n_local`, every entry `(i, i)` with `i < min(m_local, n_local)` has gained
`value`, and every other stored element, in a populated row or not, is
unchanged. -/
theorem addDiagonal_tall (A : hiopMatrixDense R) (v : R) (hA : A.wf)
    (htall : A.n_local ≤ A.m_local) :
    ∃ A1, addDiagonal A v = .ok A1 ∧
      A1.m_local = A.m_local ∧ A1.n_local = A.n_local ∧ A1.n_global = A.n_global ∧
      A1.max_rows = A.max_rows ∧ A1.M.length = A.M.length ∧
      min A.m_local A.n_local = A.n_local ∧
      (∀ i < min A.m_local A.n_local, A1.elem i i = A.elem i i + v) ∧
      (∀ r c, c < A.n_local → A1.elem r c ≠ A.elem r c →
        r = c ∧ r < A.m_local ∧ r < A.n_local) ∧
      (∀ r c, c < A.n_local → r ≠ c → A1.elem r c = A.elem r c) := by
  have hfit : A.n_local * A.n_local ≤ A.M.length := by
    rw [hA.1]; exact Nat.mul_le_mul_right _ (le_trans htall hA.2.1)
  have hmin : min A.m_local A.n_local = A.n_local := Nat.min_eq_right htall
  obtain ⟨b, hb, hl, hv⟩ := addDiagonalLoop_spec A.n_local v A.n_local 0 A.M (by omega) hfit
  refine ⟨{ A with M := b }, ?_, rfl, rfl, rfl, rfl, hl, hmin, ?_, ?_, ?_⟩
  · unfold addDiagonal
    rw [hb]
  · intro i hi
    rw [hmin] at hi
    simp only [hiopMatrixDense.elem]
    rw [hv i i hi, if_pos (by omega)]
  · intro r c hc hne
    simp only [hiopMatrixDense.elem] at hne
    rw [hv r c hc] at hne
    by_cases h : 0 ≤ r ∧ r < 0 + A.n_local ∧ r = c
    · omega
    · rw [if_neg h] at hne
      exact absurd rfl hne
  · intro r c hc hne
    simp only [hiopMatrixDense.elem]
    rw [hv r c hc, if_neg (by omega)]

/-- Witness of C22 amended: `addDiagonal(5)` on the `3 x 2` matrix
`[[1,2],[3,4],[5,6]]` gives `[[6,2],[3,9],[5,6]]`. -/
theorem addDiagonal_tall_witness :
    addDiagonal exM 5 = .ok ⟨3, 2, 2, 0, 2, 3, [6, 2, 3, 9, 5, 6]⟩ ∧
    exM.wf ∧ exM.n_local ≤ exM.m_local ∧
    ∃ A1, addDiagonal exM 5 = .ok A1 ∧
      A1.m_local = exM.m_local ∧ A1.n_local = exM.n_local ∧ A1.n_global = exM.n_global ∧
      A1.max_rows = exM.max_rows ∧ A1.M.length = exM.M.length ∧
      min exM.m_local exM.n_local = exM.n_local ∧
      (∀ i < min exM.m_local exM.n_local, A1.elem i i = exM.elem i i + 5) ∧
      (∀ r c, c < exM.n_local → A1.elem r c ≠ exM.elem r c →
        r = c ∧ r < exM.m_local ∧ r < exM.n_local) ∧
      (∀ r c, c < exM.n_local → r ≠ c → A1.elem r c = exM.elem r c) :=
  ⟨rfl, by simp only [hiopMatrixDense.wf]; decide, by decide,
    addDiagonal_tall exM 5 (by simp only [hiopMatrixDense.wf]; decide) (by decide)⟩

/-- The vector overload of `addDiagonal` states the intended domain: in the
`DEEP_CHECKING` build it returns only for a matrix whose local and global
column counts both equal its row count, with a vector of that size. -/
theorem addDiagonal_vec_deep_square (A A1 : hiopMatrixDense R) (d : hiopVectorPar R)
    (h : addDiagonal_vec true A d = .ok A1) :
    A.m_local = A.n_local ∧ A.n_global = A.m_local ∧ d.get_local_size = A.n_local := by
  unfold addDiagonal_vec at h
  simp only [true_and] at h
  split at h
  · cases h
  · split at h
    · cases h
    · split at h
      · cases h
      · split at h
        · cases h
        · rename_i h1 h2 h3 h4
          simp only [hiopMatrixDense.n, hiopMatrixDense.m, not_not] at h1 h2 h3 h4
          exact ⟨by omega, by omega, h4⟩

/-- The vector overload on the `3 x 3` identity with `d = [1,2,3]` gives
`diag(2,3,4)`; on the `2 x 3` matrix of ones the `DEEP_CHECKING` build stops
at an assertion. -/
theorem addDiagonal_vec_examples :
    addDiagonal_vec true exI3 ⟨3, [1, 2, 3]⟩ = .ok ⟨3, 3, 3, 0, 3, 3, [2, 0, 0, 0, 3, 0, 0, 0, 4]⟩ ∧
    addDiagonal_vec true exOnes23 ⟨3, [1, 2, 3]⟩ = .error .assertion ∧
    addDiagonal_vec false exOnes23 ⟨3, [1, 2, 3]⟩ = .error .memory :=
  ⟨rfl, rfl, rfl⟩

end Proofs

end hiop
